import Mathlib

/-!
# Verification of the graph-algorithms module

A shallow embedding of `algorithms.py` (class `GraphAlgorithms`) and of the
standalone script `Dijkstra-algo.py`, together with proofs of the spec's
testable properties.

Modelling conventions:
* Python dict entries (`node['id']`, `edge['u']`, ...) are `Option` fields of
  records; accessing a missing field raises `KeyError`, modelled by the
  `Except PyError` monad.
* Python's `float('inf')` sentinel together with integer costs is modelled by
  the two-constructor type `Cost`.
* Python `while` loops are modelled by fuel-indexed structural recursion with
  enough fuel for every terminating run of the source; the theorems show the
  fuel given at each call site is sufficient on the inputs they cover.
* Python `set` iteration order is unspecified; the model fixes first-insertion
  order.  Every concrete run proved below selects a unique minimum at every
  step, so the choice of order does not affect the stated results.
-/

/-- Python `float('inf')` together with integer distances: a cost is either a
finite integer or the infinity sentinel. -/
inductive Cost where
  | int (n : Int)
  | inf
deriving DecidableEq, Repr

/-- `<` on costs, as Python compares ints and `float('inf')`. -/
def Cost.lt : Cost → Cost → Prop
  | .int a, .int b => a < b
  | .int _, .inf => True
  | .inf, _ => False

/-- `≤` on costs, as Python compares ints and `float('inf')`. -/
def Cost.le : Cost → Cost → Prop
  | .int a, .int b => a ≤ b
  | _, .inf => True
  | .inf, .int _ => False

instance : LT Cost := ⟨Cost.lt⟩

instance : LE Cost := ⟨Cost.le⟩

instance : (a b : Cost) → Decidable (a < b)
  | .int a, .int b => inferInstanceAs (Decidable (a < b))
  | .int _, .inf => .isTrue True.intro
  | .inf, _ => .isFalse (fun h => h)

instance : (a b : Cost) → Decidable (a ≤ b)
  | .int a, .int b => inferInstanceAs (Decidable (a ≤ b))
  | .int _, .inf => .isTrue True.intro
  | .inf, .inf => .isTrue True.intro
  | .inf, .int _ => .isFalse (fun h => h)

/-- Addition on costs (`inf + x = inf`, as in Python float arithmetic). -/
def Cost.add : Cost → Cost → Cost
  | .int a, .int b => .int (a + b)
  | _, _ => .inf

instance : Add Cost := ⟨Cost.add⟩

/-- A node record: the Python dict with keys `id`, `x`, `y`, each possibly
absent (`validate_graph` checks for their presence). -/
structure PyNode where
  id : Option String
  x : Option Int
  y : Option Int
deriving DecidableEq, Repr

/-- An edge record: the Python dict with keys `u`, `v`, `w`, each possibly
absent. -/
structure PyEdge where
  u : Option String
  v : Option String
  w : Option Int
deriving DecidableEq, Repr

/-- A raised Python exception. `keyError k` models `KeyError(k)`; the key is
rendered as a string (either a field name such as `"u"` or a node
identifier used as a dict key). -/
inductive PyError where
  | keyError (key : String)
deriving DecidableEq, Repr

/-- `node['id']`: field access that raises `KeyError('id')` when absent. -/
def PyNode.getId (n : PyNode) : Except PyError String :=
  match n.id with
  | some s => .ok s
  | none => .error (.keyError "id")

/-- `edge['u']`. -/
def PyEdge.getU (e : PyEdge) : Except PyError String :=
  match e.u with
  | some s => .ok s
  | none => .error (.keyError "u")

/-- `edge['v']`. -/
def PyEdge.getV (e : PyEdge) : Except PyError String :=
  match e.v with
  | some s => .ok s
  | none => .error (.keyError "v")

/-- `edge['w']`. -/
def PyEdge.getW (e : PyEdge) : Except PyError Int :=
  match e.w with
  | some w => .ok w
  | none => .error (.keyError "w")

/-- Python `str.upper()` (the identifiers in play are ASCII), modelled as
upper-casing each character. -/
def pyUpper (s : String) : String :=
  ⟨s.data.map Char.toUpper⟩

/-- Pointwise update of a dict modelled as a total function. -/
def upd {β : Type} (f : String → β) (k : String) (b : β) : String → β :=
  fun x => if x = k then b else f x

/-- `{node['id'] for node in nodes}`: collect every `node['id']` in order,
raising `KeyError('id')` at the first absent field. -/
def getIds : List PyNode → Except PyError (List String)
  | [] => .ok []
  | n :: rest => do
    let i ← n.getId
    let is ← getIds rest
    pure (i :: is)

/-- Python `set` construction from a list, keeping first occurrences; the
accumulator is the set of elements already seen. -/
def pyDedupLoop : List String → List String → List String
  | [], _ => []
  | a :: as, seen =>
    if a ∈ seen then pyDedupLoop as seen else a :: pyDedupLoop as (a :: seen)

/-- Deduplicate keeping first occurrences (Python `set` iteration in
insertion order). -/
def pyDedup (l : List String) : List String :=
  pyDedupLoop l []

/-- The structured content of the error messages `dijkstra` can place in the
`'error'` key of its result dict: `missingNode s` stands for the f-string
naming the absent identifier `s`, and `noPath` for the fixed
no-path-found message. -/
inductive DijkstraErr where
  | missingNode (id : String)
  | noPath
deriving DecidableEq, Repr

/-- The result dict of `GraphAlgorithms.dijkstra`.  `path`, `error` and
`distance` are `Option`s because the Python dict carries the `'error'` key
only on failure and the `'distance'` key only on success. -/
structure DijkstraResult where
  path : Option (List String)
  cost : Cost
  error : Option DijkstraErr
  distance : Option Cost
deriving DecidableEq, Repr

/-- `{'path': None, 'cost': float('inf'), 'error': ...}`. -/
def DijkstraResult.fail (e : DijkstraErr) : DijkstraResult :=
  { path := none, cost := .inf, error := some e, distance := none }

/-- `{'path': path, 'cost': dist[dst], 'distance': dist[dst]}`. -/
def DijkstraResult.found (p : List String) (c : Cost) : DijkstraResult :=
  { path := some p, cost := c, error := none, distance := some c }

/-- The adjacency-building loop of `dijkstra` (`algorithms.py` lines 38-44):
`graph[edge['u']].append((edge['v'], edge['w']))` followed by
`graph[edge['v']].append((edge['u'], edge['w']))`.  A dict key that is not a
node identifier raises `KeyError`; evaluation order of the accesses matches
the source statements. -/
def buildAdjStep (ids : List String) (g : String → List (String × Int))
    (e : PyEdge) : Except PyError (String → List (String × Int)) := do
  let u ← e.getU
  if u ∈ ids then do
    let v ← e.getV
    let w ← e.getW
    let g1 := upd g u (g u ++ [(v, w)])
    if v ∈ ids then
      pure (upd g1 v (g1 v ++ [(u, w)]))
    else
      throw (.keyError v)
  else
    throw (.keyError u)

def buildAdj (ids : List String) (edges : List PyEdge) :
    Except PyError (String → List (String × Int)) :=
  List.foldlM (buildAdjStep ids) (fun _ => []) edges

/-- The minimum-selection scan of `dijkstra` (lines 56-61): starting from
`current = None, min_dist = inf`, keep the first strictly smaller distance. -/
def scanMin (dist : String → Cost) (unvisited : List String) :
    Option String × Cost :=
  unvisited.foldl
    (fun acc n => if dist n < acc.2 then (some n, dist n) else acc)
    (none, .inf)

/-- One relaxation (lines 69-74), restricted to unvisited neighbours. -/
def relaxStep (c : String) (unvisited : List String)
    (st : (String → Cost) × (String → Option String)) (nb : String × Int) :
    (String → Cost) × (String → Option String) :=
  if nb.1 ∈ unvisited then
    let alt := st.1 c + .int nb.2
    if alt < st.1 nb.1 then
      (upd st.1 nb.1 alt, upd st.2 nb.1 (some c))
    else st
  else st

/-- The relaxation loop over `graph[current]`. -/
def relaxAll (c : String) (unvisited : List String)
    (nbrs : List (String × Int))
    (st : (String → Cost) × (String → Option String)) :
    (String → Cost) × (String → Option String) :=
  nbrs.foldl (relaxStep c unvisited) st

/-- The main `while unvisited:` loop of `dijkstra` (lines 54-74), with fuel;
each iteration removes the selected node, so fuel `unvisited.length` (supplied
at the call site) is exact. -/
def dijkstraLoop (adj : String → List (String × Int)) :
    Nat → List String → (String → Cost) × (String → Option String) →
    (String → Cost) × (String → Option String)
  | 0, _, st => st
  | fuel + 1, unvisited, st =>
    if unvisited.isEmpty then st
    else
      match scanMin st.1 unvisited with
      | (none, _) => st
      | (some c, _) =>
        if st.1 c = .inf then st
        else
          let u' := unvisited.erase c
          dijkstraLoop adj fuel u' (relaxAll c u' (adj c) st)

/-- The path-reconstruction loop (lines 77-81): walk `prev` links back from
`dst`, inserting at the front.  Fuel models the unbounded `while`; the proofs
show the chain reaches `None` within `nodes.length + 1` steps on every input
they cover. -/
def traceBack (prev : String → Option String) :
    Nat → Option String → List String
  | 0, _ => []
  | _ + 1, none => []
  | fuel + 1, some c => traceBack prev fuel (prev c) ++ [c]

/-- `GraphAlgorithms.dijkstra` (`algorithms.py` lines 13-91). -/
def dijkstra (nodes : List PyNode) (edges : List PyEdge)
    (src0 dst0 : String) : Except PyError DijkstraResult := do
  let idsList ← getIds nodes
  let src := pyUpper src0
  let dst := pyUpper dst0
  if src ∉ idsList then
    return .fail (.missingNode src)
  if dst ∉ idsList then
    return .fail (.missingNode dst)
  let adj ← buildAdj idsList edges
  let dist0 : String → Cost := fun v => if v = src then .int 0 else .inf
  let prev0 : String → Option String := fun _ => none
  let unvisited := pyDedup idsList
  let st := dijkstraLoop adj unvisited.length unvisited (dist0, prev0)
  let path := traceBack st.2 (nodes.length + 1) (some dst)
  match path with
  | [] => return .fail .noPath
  | p0 :: _ =>
    if p0 ≠ src then
      return .fail .noPath
    else
      return .found path (st.1 dst)

/-! ## The standalone script `Dijkstra-algo.py`

The script runs Dijkstra on a fixed four-node graph from source `'A'`, with a
dict `C_prime_constraint` mapping ordered pairs to replacement weights; when an
edge being relaxed appears in the dict, the constrained weight is used instead
of the stored one.  The dict is the script's configuration, so the embedding
takes it as the parameter `constraint`; the script instantiates it to
`cPrime`.  The script computes distances only (no predecessors, no path). -/

/-- The `graph` dict of `Dijkstra-algo.py` (lines 2-7). -/
def scriptGraph : String → List (String × Int) := fun v =>
  if v = "A" then [("B", 2), ("C", 5)]
  else if v = "B" then [("A", 2), ("C", 1), ("D", 4)]
  else if v = "C" then [("A", 5), ("B", 1), ("D", 2)]
  else if v = "D" then [("B", 4), ("C", 2)]
  else []

/-- `C_prime_constraint = {('A', 'B'): 7}` (line 10). -/
def cPrime : String × String → Option Int := fun p =>
  if p = ("A", "B") then some 7 else none

/-- The empty constraint dict (no overrides). -/
def noConstraint : String × String → Option Int := fun _ => none

/-- The script's minimum-selection scan (lines 23-26): `current = None`, then
take each node whose distance is strictly below the current one's. -/
def scriptScan (dist : String → Cost) (unvisited : List String) :
    Option String :=
  unvisited.foldl
    (fun cur n =>
      match cur with
      | none => some n
      | some c => if dist n < dist c then some n else cur)
    none

/-- Constraint lookup (lines 36-41): use the constrained weight when the
ordered pair `(current, neighbor)` is in the dict, the stored weight
otherwise. -/
def effectiveWeight (constraint : String × String → Option Int)
    (u v : String) (w : Int) : Int :=
  match constraint (u, v) with
  | some cw => cw
  | none => w

/-- The script's relaxation loop (lines 34-45): every neighbour is relaxed
(no unvisited check, no predecessor tracking). -/
def scriptRelax (constraint : String × String → Option Int) (c : String)
    (dist : String → Cost) : String → Cost :=
  (scriptGraph c).foldl
    (fun d nbw =>
      let eff := effectiveWeight constraint c nbw.1 nbw.2
      let nd := d c + .int eff
      if nd < d nbw.1 then upd d nbw.1 nd else d)
    dist

/-- The script's `while unvisited:` loop (lines 22-45), fuelled. -/
def scriptLoop (constraint : String × String → Option Int) :
    Nat → List String → (String → Cost) → (String → Cost)
  | 0, _, dist => dist
  | fuel + 1, unvisited, dist =>
    if unvisited.isEmpty then dist
    else
      match scriptScan dist unvisited with
      | none => dist
      | some c =>
        if dist c = .inf then dist
        else scriptLoop constraint fuel (unvisited.erase c)
          (scriptRelax constraint c dist)

/-- The whole script: distances from `'A'` over `scriptGraph` under the given
constraint dict. -/
def scriptDijkstra (constraint : String × String → Option Int) :
    String → Cost :=
  scriptLoop constraint 4 ["A", "B", "C", "D"]
    (fun v => if v = "A" then .int 0 else .inf)

/-! ## `GraphAlgorithms.color_graph` -/

/-- The adjacency-building loop of `color_graph` (lines 110-112):
`adj[edge['u']].add(edge['v'])` then `adj[edge['v']].add(edge['u'])`, with the
same `KeyError` behaviour as in `dijkstra`; `set.add` is modelled by
membership-checked append. -/
def buildAdjColorStep (ids : List String) (g : String → List String)
    (e : PyEdge) : Except PyError (String → List String) := do
  let u ← e.getU
  if u ∈ ids then do
    let v ← e.getV
    let g1 := upd g u (if v ∈ g u then g u else g u ++ [v])
    if v ∈ ids then
      pure (upd g1 v (if u ∈ g1 v then g1 v else g1 v ++ [u]))
    else
      throw (.keyError v)
  else
    throw (.keyError u)

def buildAdjColor (ids : List String) (edges : List PyEdge) :
    Except PyError (String → List String) :=
  List.foldlM (buildAdjColorStep ids) (fun _ => []) edges

/-- `days = ["Lundi", ..., "Weekend"]` (line 115). -/
def colorDays : List String :=
  ["Lundi", "Mardi", "Mercredi", "Jeudi", "Vendredi", "Weekend"]

/-- Lines 122-127: the set of colours already given to the node's
neighbours. -/
def usedColors (adj : String → List String)
    (colors : String → Option String) (nid : String) : List String :=
  (adj nid).filterMap colors

/-- Lines 121-137: one turn of the colouring loop.  The first free day (in
fixed order) is assigned; if none is free, `"Weekend"` is assigned unless the
node already has a colour (possible when an identifier occurs twice). -/
def assignNode (adj : String → List String)
    (colors : String → Option String) (nid : String) :
    String → Option String :=
  match colorDays.find? (fun d => decide (d ∉ usedColors adj colors nid)) with
  | some d => upd colors nid (some d)
  | none =>
    if colors nid = none then upd colors nid (some "Weekend") else colors

/-- `GraphAlgorithms.color_graph` (lines 94-139).  The returned dict maps
node identifiers to days; absent keys are `none`. -/
def color_graph (nodes : List PyNode) (edges : List PyEdge) :
    Except PyError (String → Option String) := do
  let ids ← getIds nodes
  let adj ← buildAdjColor ids edges
  return ids.foldl (assignNode adj) (fun _ => none)

/-! ## `GraphAlgorithms.validate_graph` -/

/-- The structured content of the validation messages (the source builds
f-strings; each constructor records one message with its interpolated
values). -/
inductive VMsg where
  | noId (index : Nat)
  | dupId (id : String)
  | noCoords (tag : String ⊕ Nat)
  | edgeNoEndpoints (index : Nat)
  | edgeNoWeight (index : Nat)
  | edgeMissingNode (index : Nat) (id : String)
  | nonPositiveWeight (u v : String) (w : Int)
  | components (count : Nat)
deriving DecidableEq, Repr

/-- One turn of the node-checking loop of `validate_graph`
(lines 158-168). -/
def checkNodesStep (acc : List String × List VMsg) (p : Nat × PyNode) :
    List String × List VMsg :=
  let (ids, errs) := acc
  let (i, node) := p
  let (ids1, errs1) :=
    match node.id with
    | none => (ids, errs ++ [VMsg.noId i])
    | some s =>
      if s = "" then (ids, errs ++ [VMsg.noId i])
      else if s ∈ ids then (ids, errs ++ [VMsg.dupId s])
      else (ids ++ [s], errs)
  let errs2 :=
    if node.x = none ∨ node.y = none then
      errs1 ++ [VMsg.noCoords
        (match node.id with | some s => Sum.inl s | none => Sum.inr i)]
    else errs1
  (ids1, errs2)

/-- The node-checking loop of `validate_graph` (lines 156-168): returns the
collected `node_ids` (insertion order) and the errors. -/
def checkNodes (nodes : List PyNode) : List String × List VMsg :=
  nodes.enum.foldl checkNodesStep ([], [])

/-- One turn of the edge-checking loop of `validate_graph`
(lines 171-191). -/
def checkEdgesStep (ids : List String) (acc : List VMsg × List VMsg)
    (p : Nat × PyEdge) : List VMsg × List VMsg :=
  let (errs, warns) := acc
  let (i, e) := p
  match e.u, e.v with
  | some u, some v =>
    match e.w with
    | some w =>
      let errs1 :=
        if u ∈ ids then errs else errs ++ [VMsg.edgeMissingNode i u]
      let errs2 :=
        if v ∈ ids then errs1 else errs1 ++ [VMsg.edgeMissingNode i v]
      let warns1 :=
        if w ≤ 0 then warns ++ [VMsg.nonPositiveWeight u v w] else warns
      (errs2, warns1)
    | none => (errs ++ [VMsg.edgeNoWeight i], warns)
  | _, _ => (errs ++ [VMsg.edgeNoEndpoints i], warns)

/-- The edge-checking loop of `validate_graph` (lines 171-191): returns
(errors, warnings). -/
def checkEdges (ids : List String) (edges : List PyEdge) :
    List VMsg × List VMsg :=
  edges.enum.foldl (checkEdgesStep ids) ([], [])

/-- The connectivity adjacency build (lines 196-200): edges whose endpoints
are not both dict keys are skipped (the `and` short-circuits, so `edge['v']`
is only read when `edge['u']` is a key); appends are plain list appends. -/
def buildAdjSkipUStep (ids : List String) (g : String → List String)
    (e : PyEdge) : Except PyError (String → List String) := do
  let u ← e.getU
  if u ∈ ids then do
    let v ← e.getV
    if v ∈ ids then
      let g1 := upd g u (g u ++ [v])
      pure (upd g1 v (g1 v ++ [u]))
    else
      pure g
  else
    pure g

def buildAdjSkipU (ids : List String) (edges : List PyEdge) :
    Except PyError (String → List String) :=
  List.foldlM (buildAdjSkipUStep ids) (fun _ => []) edges

/-- The stack-based depth-first traversal collecting one component
(lines 209-217).  The Python list's `pop`/`extend` (last-in first-out) is
modelled with the list head as the top of the stack.  Returns the enlarged
visited set and the collected component. -/
def dfsComp (adj : String → List String) :
    Nat → List String → List String → List String →
    List String × List String
  | _, [], visited, comp => (visited, comp)
  | 0, _ :: _, visited, comp => (visited, comp)
  | fuel + 1, cur :: stack, visited, comp =>
    if cur ∈ visited then dfsComp adj fuel stack visited comp
    else
      let visited' := visited ++ [cur]
      dfsComp adj fuel
        (((adj cur).filter (fun nb => decide (nb ∉ visited'))).reverse ++ stack)
        visited' (comp ++ [cur])

/-- The component-collecting loop (lines 203-219): one depth-first traversal
per still-unvisited dict key. -/
def componentsOf (adj : String → List String) (keys : List String)
    (fuelPer : Nat) : List (List String) :=
  (keys.foldl
    (fun acc nid =>
      if nid ∈ acc.1 then acc
      else
        let r := dfsComp adj fuelPer [nid] acc.1 []
        (r.1, acc.2 ++ [r.2]))
    ([], [])).2

/-- The result dict of `validate_graph` (lines 225-234), with the `stats`
sub-dict flattened into the three `stats`-prefixed fields. -/
structure VResult where
  is_valid : Bool
  errors : List VMsg
  warnings : List VMsg
  statsNodes : Nat
  statsEdges : Nat
  statsNodeIds : List String
deriving DecidableEq, Repr

/-- `GraphAlgorithms.validate_graph` (lines 142-234).  The connectivity check
runs only when both lists are non-empty; its dict keys are the node ids in
first-occurrence order, and its adjacency skips invalid edges.  Reading the
`'u'`/`'v'`/`'id'` fields there can raise `KeyError` (the early checks used
`.get`/`in` instead and cannot). -/
def validate_graph (nodes : List PyNode) (edges : List PyEdge) :
    Except PyError VResult := do
  let (node_ids, nodeErrs) := checkNodes nodes
  let (edgeErrs, edgeWarns) := checkEdges node_ids edges
  let errors := nodeErrs ++ edgeErrs
  let warnings ←
    if nodes ≠ [] ∧ edges ≠ [] then do
      let ids ← getIds nodes
      let keys := pyDedup ids
      let adj ← buildAdjSkipU keys edges
      let comps := componentsOf adj keys (1 + keys.length + 2 * edges.length)
      pure (if comps.length > 1 then
        edgeWarns ++ [VMsg.components comps.length] else edgeWarns)
    else
      pure edgeWarns
  return { is_valid := errors.isEmpty, errors := errors, warnings := warnings,
           statsNodes := nodes.length, statsEdges := edges.length,
           statsNodeIds := node_ids }

/-! ## `GraphAlgorithms.find_all_paths` -/

/-- The weighted skip-building loop of `find_all_paths` (lines 253-257): same
skip semantics as `buildAdjSkipU`, with weights. -/
def buildAdjSkipWStep (ids : List String)
    (g : String → List (String × Int)) (e : PyEdge) :
    Except PyError (String → List (String × Int)) := do
  let u ← e.getU
  if u ∈ ids then do
    let v ← e.getV
    if v ∈ ids then do
      let w ← e.getW
      let g1 := upd g u (g u ++ [(v, w)])
      pure (upd g1 v (g1 v ++ [(u, w)]))
    else
      pure g
  else
    pure g

def buildAdjSkipW (ids : List String) (edges : List PyEdge) :
    Except PyError (String → List (String × Int)) :=
  List.foldlM (buildAdjSkipWStep ids) (fun _ => []) edges

/-- Stable insertion of an entry into a cost-sorted list: placed before the
first strictly more expensive entry, hence after all equal-cost ones. -/
def insertByCost (x : List String × Int) :
    List (List String × Int) → List (List String × Int)
  | [] => [x]
  | y :: ys => if x.2 < y.2 then x :: y :: ys else y :: insertByCost x ys

/-- `all_paths.sort(key=lambda x: x['cost'])`: Python's stable ascending
sort (any stable sort computes the same list, so stable insertion sort is
an exact model). -/
def sortByCost : List (List String × Int) → List (List String × Int)
  | [] => []
  | x :: xs => insertByCost x (sortByCost xs)

/-- The recursive `dfs` of `find_all_paths` (lines 261-280), fuelled on
recursion depth (the source recursion's depth is bounded by the number of
distinct identifiers, so the fuel supplied at the call site is sufficient).
The mutated `visited`/`all_paths` are threaded functionally; the source
restores `visited` on backtrack, which the parameter-passing models. -/
def dfsPaths (adj : String → List (String × Int)) (target : String)
    (maxPaths : Nat) :
    Nat → String → List String → List String → Int →
    List (List String × Int) → List (List String × Int)
  | 0, _, _, _, _, acc => acc
  | fuel + 1, current, visited, path, cost, acc =>
    if current = target then acc ++ [(path ++ [current], cost)]
    else if maxPaths ≤ acc.length then acc
    else
      let visited' := visited ++ [current]
      (adj current).foldl
        (fun acc2 nbw =>
          if nbw.1 ∈ visited' then acc2
          else dfsPaths adj target maxPaths fuel nbw.1 visited'
            (path ++ [current]) (cost + nbw.2) acc2)
        acc

/-- `GraphAlgorithms.find_all_paths` (lines 236-293). -/
def find_all_paths (nodes : List PyNode) (edges : List PyEdge)
    (src0 dst0 : String) (maxPaths : Nat) :
    Except PyError (List (List String × Int)) := do
  let ids ← getIds nodes
  let adj ← buildAdjSkipW ids edges
  let src := pyUpper src0
  let dst := pyUpper dst0
  if src ∉ ids ∨ dst ∉ ids then
    return []
  let raw := dfsPaths adj dst maxPaths (nodes.length + 1) src [] [] 0 []
  return (sortByCost raw).take maxPaths

/-! ## Specification-side relations -/

/-- A walk from `src` in a weighted adjacency structure: the node sequence
(inclusive of both ends) together with the sum of the traversed edge
weights. -/
inductive Walk (adj : String → List (String × Int)) (src : String) :
    String → List String → Int → Prop
  | nil : Walk adj src src [src] 0
  | cons {u v : String} {w : Int} {p : List String} {c : Int} :
      Walk adj src u p c → (v, w) ∈ adj u → Walk adj src v (p ++ [v]) (c + w)

/-- Reachability in an unweighted adjacency structure. -/
inductive ReachU (adj : String → List String) : String → String → Prop
  | refl (a : String) : ReachU adj a a
  | tail {a b c : String} : ReachU adj a b → c ∈ adj b → ReachU adj a c

/-- The identifiers of a node list whose `id` fields are all present. -/
def idsOf (nodes : List PyNode) : List String :=
  nodes.filterMap PyNode.id

/-! ## Pure views of the adjacency builds (used once well-formedness rules
out `KeyError`) -/

/-- The `(u, v, w)` triples of the edges whose three fields are present. -/
def edgeTriples (edges : List PyEdge) : List (String × String × Int) :=
  edges.filterMap fun e =>
    match e.u, e.v, e.w with
    | some u, some v, some w => some (u, v, w)
    | _, _, _ => none

/-- One weighted double append: `graph[u].append((v, w)); graph[v].append((u, w))`. -/
def adjStep (g : String → List (String × Int)) (t : String × String × Int) :
    String → List (String × Int) :=
  let g1 := upd g t.1 (g t.1 ++ [(t.2.1, t.2.2)])
  upd g1 t.2.1 (g1 t.2.1 ++ [(t.1, t.2.2)])

/-- The weighted adjacency structure over a triple list. -/
def adjOf (ts : List (String × String × Int)) : String → List (String × Int) :=
  ts.foldl adjStep (fun _ => [])

/-- Presence and validity of an edge record's three fields relative to a list
of node identifiers. -/
def EdgeOkFor (ids : List String) (e : PyEdge) : Prop :=
  ∃ u v w, e.u = some u ∧ e.v = some v ∧ e.w = some w ∧ u ∈ ids ∧ v ∈ ids

/-! ## Predecessor chains and `traceBack` -/

/-- The chain of `prev` links from `v` back to a node with no predecessor,
written front-to-back (the list the reconstruction loop builds). -/
inductive PrevList (prev : String → Option String) : String → List String → Prop
  | base {v : String} : prev v = none → PrevList prev v [v]
  | step {v u : String} {p : List String} :
      prev v = some u → PrevList prev u p → PrevList prev v (p ++ [v])

/-! ## The Dijkstra loop invariant -/

/-- Well-formedness of an adjacency structure relative to a node list `V`:
every entry joins nodes of `V` with a non-negative weight. -/
def AdjWf (adj : String → List (String × Int)) (V : List String) : Prop :=
  ∀ u v w, (v, w) ∈ adj u → u ∈ V ∧ v ∈ V ∧ 0 ≤ w

/-- The invariant of the main `dijkstra` loop.  `unvisited` is the remaining
node set; everything removed from it is settled. -/
structure DInv (adj : String → List (String × Int)) (V : List String)
    (src : String) (unvisited : List String) (dist : String → Cost)
    (prev : String → Option String) : Prop where
  nd : unvisited.Nodup
  sub : ∀ v ∈ unvisited, v ∈ V
  srcZero : dist src = .int 0
  visitedFin : ∀ v ∈ V, v ∉ unvisited → dist v ≠ .inf
  reach : ∀ v, dist v ≠ .inf →
    ∃ p c, Walk adj src v p c ∧ dist v = .int c ∧ p.Nodup ∧
      PrevList prev v p ∧ ∀ x ∈ p, x = v ∨ x ∉ unvisited
  settled : ∀ v ∈ V, v ∉ unvisited → ∀ q cq, Walk adj src v q cq →
    dist v ≤ .int cq
  frontier : ∀ u, u ∉ unvisited → ∀ v w, (v, w) ∈ adj u → v ∈ unvisited →
    dist v ≤ dist u + .int w
  prevNone : ∀ v, dist v = .inf → prev v = none

/-- The invariant holding during the relaxation fold: `c` has just been
removed from the unvisited set `u'`, its outgoing frontier edges may not yet
all be relaxed, but everything else of `DInv` holds. -/
structure MidInv (adj : String → List (String × Int)) (V : List String)
    (src c : String) (u' : List String) (dist : String → Cost)
    (prev : String → Option String) : Prop where
  nd : u'.Nodup
  sub : ∀ v ∈ u', v ∈ V
  srcZero : dist src = .int 0
  visitedFin : ∀ v ∈ V, v ∉ u' → dist v ≠ .inf
  reach : ∀ v, dist v ≠ .inf →
    ∃ p cc, Walk adj src v p cc ∧ dist v = .int cc ∧ p.Nodup ∧
      PrevList prev v p ∧ ∀ x ∈ p, x = v ∨ x ∉ u'
  settled : ∀ v ∈ V, v ∉ u' → ∀ q cq, Walk adj src v q cq →
    dist v ≤ .int cq
  frontierOld : ∀ u, u ∉ u' → u ≠ c → ∀ v w, (v, w) ∈ adj u → v ∈ u' →
    dist v ≤ dist u + .int w
  prevNone : ∀ v, dist v = .inf → prev v = none
  cNotIn : c ∉ u'
  cFin : dist c ≠ .inf

/-! ## Concrete example graphs from the specification -/

deriving instance DecidableEq for Except

/-- The four nodes `A`, `B`, `C`, `D` (coordinates arbitrary but present). -/
def abcdNodes : List PyNode :=
  [⟨some "A", some 0, some 0⟩, ⟨some "B", some 1, some 0⟩,
   ⟨some "C", some 0, some 1⟩, ⟨some "D", some 1, some 1⟩]

/-- Edges A-B(10), A-C(15), B-C(5), B-D(20), C-D(10) (the spec's second
worked example). -/
def exEdges1 : List PyEdge :=
  [⟨some "A", some "B", some 10⟩, ⟨some "A", some "C", some 15⟩,
   ⟨some "B", some "C", some 5⟩, ⟨some "B", some "D", some 20⟩,
   ⟨some "C", some "D", some 10⟩]

/-- Edges A-B(2), A-C(5), B-C(1), B-D(4), C-D(2) (the spec's first worked
example, the graph of `Dijkstra-algo.py`). -/
def exEdges2 : List PyEdge :=
  [⟨some "A", some "B", some 2⟩, ⟨some "A", some "C", some 5⟩,
   ⟨some "B", some "C", some 1⟩, ⟨some "B", some "D", some 4⟩,
   ⟨some "C", some "D", some 2⟩]

/-- A single edge A-B(1): `C` and `D` stay unreachable from `A`. -/
def abOnlyEdges : List PyEdge :=
  [⟨some "A", some "B", some 1⟩]

/-- The effective weighted adjacency of the script's graph under a
constraint dict: each stored weight replaced by the constrained one where
the ordered pair is constrained. -/
def effAdj (cst : String × String → Option Int) :
    String → List (String × Int) := fun u =>
  (scriptGraph u).map (fun nb => (nb.1, effectiveWeight cst u nb.1 nb.2))

/-- Executable check equivalent to `EdgeOkFor`. -/
def edgeOkb (ids : List String) (e : PyEdge) : Bool :=
  match e.u, e.v, e.w with
  | some u, some v, some _ => decide (u ∈ ids) && decide (v ∈ ids)
  | _, _, _ => false

instance (ids : List String) (e : PyEdge) : Decidable (EdgeOkFor ids e) :=
  decidable_of_iff (edgeOkb ids e = true) (by
    cases hu : e.u <;> cases hv : e.v <;> cases hw : e.w <;>
      simp [edgeOkb, EdgeOkFor, hu, hv, hw])

/-! ## Claim C2 -/

/-- True distances from `A` in the script graph with no override. -/
def phiPlain : String → Int := fun s =>
  if s = "A" then 0 else if s = "B" then 2 else if s = "C" then 3
  else if s = "D" then 5 else 0

/-- True distances from `A` in the script graph with the A→B override at 7. -/
def phiCP : String → Int := fun s =>
  if s = "A" then 0 else if s = "B" then 6 else if s = "C" then 5
  else if s = "D" then 7 else 0

/-- Field presence for an edge record. -/
def EdgeFieldsOk (e : PyEdge) : Prop :=
  e.u ≠ none ∧ e.v ≠ none ∧ e.w ≠ none

instance (e : PyEdge) : Decidable (EdgeFieldsOk e) := by
  rw [EdgeFieldsOk]
  infer_instance

/-- Edges A-B(1) and A-Z(1), the second referencing the nonexistent node
`Z`. -/
def abzEdges : List PyEdge :=
  [⟨some "A", some "B", some 1⟩, ⟨some "A", some "Z", some 1⟩]

/-! ## Claim C3 -/

/-- The `(u, v)` pairs of the edges whose endpoint fields are present. -/
def edgePairs (edges : List PyEdge) : List (String × String) :=
  edges.filterMap fun e =>
    match e.u, e.v with
    | some u, some v => some (u, v)
    | _, _ => none

/-- One unweighted double set-insert:
`adj[u].add(v); adj[v].add(u)`. -/
def cAdjStep (g : String → List String) (p : String × String) :
    String → List String :=
  let g1 := upd g p.1 (if p.2 ∈ g p.1 then g p.1 else g p.1 ++ [p.2])
  upd g1 p.2 (if p.1 ∈ g1 p.2 then g1 p.2 else g1 p.2 ++ [p.1])

/-- The unweighted adjacency structure of `color_graph`. -/
def cAdjOf (ps : List (String × String)) : String → List String :=
  ps.foldl cAdjStep (fun _ => [])

/-- Validity of an edge for `color_graph` (no weight needed). -/
def EdgeUVOk (ids : List String) (e : PyEdge) : Prop :=
  ∃ u v, e.u = some u ∧ e.v = some v ∧ u ∈ ids ∧ v ∈ ids

/-- Executable check equivalent to `EdgeUVOk`. -/
def edgeUVb (ids : List String) (e : PyEdge) : Bool :=
  match e.u, e.v with
  | some u, some v => decide (u ∈ ids) && decide (v ∈ ids)
  | _, _ => false

instance (ids : List String) (e : PyEdge) : Decidable (EdgeUVOk ids e) :=
  decidable_of_iff (edgeUVb ids e = true) (by
    cases hu : e.u <;> cases hv : e.v <;>
      simp [edgeUVb, EdgeUVOk, hu, hv])

/-- The proper-colouring invariant (up to the `"Weekend"` fallback): two
distinct adjacent nodes share a colour only when it is `"Weekend"`. -/
def ColorInv (adj : String → List String)
    (colors : String → Option String) : Prop :=
  ∀ u v, v ∈ adj u → u ≠ v →
    ∀ l, colors u = some l → colors v = some l → l = "Weekend"

/-- A good collected entry: a duplicate-free walk from `src` to `dst` whose
recorded cost is the sum of its traversed edge weights. -/
def GoodEntry (adj : String → List (String × Int)) (src dst : String)
    (pr : List String × Int) : Prop :=
  Walk adj src dst pr.1 pr.2 ∧ pr.1.Nodup

/-! ## Claim C9 -/

/-- Well-formedness of a node record for validation purposes. -/
def NodeRecOk (n : PyNode) : Prop :=
  ∃ i, n.id = some i ∧ i ≠ "" ∧ n.x ≠ none ∧ n.y ≠ none

/-- The duplicate identifiers reported by the node loop, in report order,
relative to the already-seen set. -/
def dupEvents : List String → List String → List String
  | [], _ => []
  | s :: rest, seen =>
    if s ∈ seen then s :: dupEvents rest seen
    else dupEvents rest (seen ++ [s])

/-- The well-definedness of the warnings computation of `validate_graph`
(lines 193-223), split out of the do-block for case analysis. -/
def vWarnings (nodes : List PyNode) (edges : List PyEdge) :
    Except PyError (List VMsg) :=
  if nodes ≠ [] ∧ edges ≠ [] then do
    let ids ← getIds nodes
    let keys := pyDedup ids
    let adj ← buildAdjSkipU keys edges
    let comps := componentsOf adj keys (1 + keys.length + 2 * edges.length)
    pure (if comps.length > 1 then
      (checkEdges (checkNodes nodes).1 edges).2 ++ [VMsg.components comps.length]
    else (checkEdges (checkNodes nodes).1 edges).2)
  else pure (checkEdges (checkNodes nodes).1 edges).2

/-- Nodes for the C9 instance: identifier `"A"` occurs twice. -/
def dupNodesC9 : List PyNode :=
  [⟨some "A", some 0, some 0⟩, ⟨some "B", some 1, some 0⟩,
   ⟨some "A", some 2, some 0⟩]

def dupEdgesC9 : List PyEdge := [⟨some "A", some "B", some 3⟩]

/-- Total degree of a list of vertices in an adjacency map. -/
def degSum (adj : String → List String) (l : List String) : Nat :=
  (l.map (fun v => (adj v).length)).sum

/-- The directed neighbour pairs recorded by the connectivity build of
`validate_graph` (both directions of every edge whose endpoints are both
dict keys). -/
def skipPairs (ids : List String) : List PyEdge → List (String × String)
  | [] => []
  | e :: rest =>
    (match e.u, e.v with
     | some u, some v =>
       if u ∈ ids then (if v ∈ ids then [(u, v), (v, u)] else []) else []
     | _, _ => []) ++ skipPairs ids rest

/-- Adjacency function of a directed pair list. -/
def pairsAdj (ps : List (String × String)) : String → List String :=
  fun x => (ps.filter (fun p => p.1 = x)).map Prod.snd

/-- One turn of the component-collecting loop of `validate_graph`
(lines 203-219), named for the fold lemmas. -/
def compStep (adj : String → List String) (fuelPer : Nat)
    (acc : List String × List (List String)) (nid : String) :
    List String × List (List String) :=
  if nid ∈ acc.1 then acc
  else
    let r := dfsComp adj fuelPer [nid] acc.1 []
    (r.1, acc.2 ++ [r.2])

/-- Invariant of the component-collecting loop: the visited set is a set of
already-settled keys closed under adjacency, and the collected components
are represented by pairwise-unreachable roots that cover all of it. -/
structure CompInv (adj : String → List String) (keys : List String)
    (acc : List String × List (List String)) (roots : List String) : Prop where
  sub : ∀ v ∈ acc.1, v ∈ keys
  closed : ∀ v ∈ acc.1, ∀ u ∈ adj v, u ∈ acc.1
  len : acc.2.length = roots.length
  rootsMem : ∀ r ∈ roots, r ∈ acc.1
  cover : ∀ v ∈ acc.1, ∃ r ∈ roots, ReachU adj r v
  pair : roots.Pairwise (fun x y => ¬ ReachU adj x y)

/-- Nodes for the C8 instance: two disjoint connected pairs. -/
def nodesC8 : List PyNode :=
  [⟨some "A", some 0, some 0⟩, ⟨some "B", some 1, some 0⟩,
   ⟨some "C", some 2, some 0⟩, ⟨some "D", some 3, some 0⟩]

def edgesC8 : List PyEdge :=
  [⟨some "A", some "B", some 1⟩, ⟨some "C", some "D", some 1⟩]

/-! ## Theorems -/

/-! ## Basic lemmas about `Cost` -/

@[simp] theorem Cost.int_le_int {a b : Int} : (Cost.int a ≤ Cost.int b) ↔ a ≤ b :=
  Iff.rfl

@[simp] theorem Cost.int_lt_int {a b : Int} : (Cost.int a < Cost.int b) ↔ a < b :=
  Iff.rfl

@[simp] theorem Cost.le_inf (a : Cost) : a ≤ .inf := by
  cases a <;> exact True.intro

@[simp] theorem Cost.not_inf_le_int (b : Int) : ¬(Cost.inf ≤ .int b) :=
  fun h => h

@[simp] theorem Cost.not_inf_lt (a : Cost) : ¬(Cost.inf < a) :=
  fun h => h

@[simp] theorem Cost.int_lt_inf (a : Int) : Cost.int a < .inf :=
  True.intro

@[simp] theorem Cost.add_int_int (a b : Int) :
    (Cost.int a) + (Cost.int b) = .int (a + b) := rfl

@[simp] theorem Cost.inf_add (a : Cost) : Cost.inf + a = .inf := by
  cases a <;> rfl

@[simp] theorem Cost.add_inf (a : Cost) : a + .inf = .inf := by
  cases a <;> rfl

theorem Cost.le_refl (a : Cost) : a ≤ a := by
  cases a <;> simp

theorem Cost.le_trans {a b c : Cost} (h1 : a ≤ b) (h2 : b ≤ c) : a ≤ c := by
  cases a <;> cases b <;> cases c <;> simp_all <;> omega

theorem Cost.le_of_lt {a b : Cost} (h : a < b) : a ≤ b := by
  cases a <;> cases b <;> simp_all <;> omega

theorem Cost.le_of_not_lt {a b : Cost} (h : ¬a < b) : b ≤ a := by
  cases a <;> cases b <;> simp_all <;> omega

theorem Cost.lt_of_le_of_lt {a b c : Cost} (h1 : a ≤ b) (h2 : b < c) : a < c := by
  cases a <;> cases b <;> cases c <;> simp_all <;> omega

theorem Cost.inf_le_iff {a : Cost} : (Cost.inf ≤ a) ↔ a = .inf := by
  cases a <;> simp

theorem Cost.lt_inf_iff {a : Cost} : (a < .inf) ↔ a ≠ .inf := by
  cases a <;> simp

theorem Cost.add_le_add_right {a b : Cost} (h : a ≤ b) (w : Int) :
    a + .int w ≤ b + .int w := by
  cases a <;> cases b <;> simp_all

theorem Cost.ne_inf_iff {a : Cost} : a ≠ .inf ↔ ∃ n, a = .int n := by
  cases a <;> simp

theorem Cost.add_ne_inf {a : Cost} {w : Int} (h : a ≠ .inf) :
    a + .int w ≠ .inf := by
  cases a <;> simp_all

/-! ## Basic lemmas about `upd`, `getIds` and `pyDedup` -/

theorem upd_self {β : Type} (f : String → β) (k : String) (b : β) :
    upd f k b k = b := by
  simp [upd]

theorem upd_ne {β : Type} (f : String → β) {k x : String} (b : β)
    (h : x ≠ k) : upd f k b x = f x := by
  simp [upd, h]

theorem getIds_ok {nodes : List PyNode} (h : ∀ n ∈ nodes, n.id ≠ none) :
    getIds nodes = .ok (idsOf nodes) := by
  induction nodes with
  | nil => rfl
  | cons n rest ih =>
    have hn : n.id ≠ none := h n (by simp)
    obtain ⟨i, hi⟩ : ∃ i, n.id = some i := by
      cases hid : n.id
      · exact absurd hid hn
      · exact ⟨_, rfl⟩
    have hr := ih (fun m hm => h m (by simp [hm]))
    simp [getIds, PyNode.getId, hi, hr, idsOf, List.filterMap_cons]
    rfl

theorem length_idsOf {nodes : List PyNode} (h : ∀ n ∈ nodes, n.id ≠ none) :
    (idsOf nodes).length = nodes.length := by
  induction nodes with
  | nil => rfl
  | cons n rest ih =>
    have hn : n.id ≠ none := h n (by simp)
    obtain ⟨i, hi⟩ : ∃ i, n.id = some i := by
      cases hid : n.id
      · exact absurd hid hn
      · exact ⟨_, rfl⟩
    simp only [idsOf, List.filterMap_cons, hi, List.length_cons]
    rw [idsOf] at ih
    rw [ih (fun m hm => h m (List.mem_cons_of_mem _ hm))]

theorem mem_pyDedupLoop {l seen : List String} {a : String} :
    a ∈ pyDedupLoop l seen ↔ a ∈ l ∧ a ∉ seen := by
  induction l generalizing seen with
  | nil => simp [pyDedupLoop]
  | cons b rest ih =>
    by_cases hb : b ∈ seen
    · simp only [pyDedupLoop, if_pos hb, ih, List.mem_cons]
      constructor
      · rintro ⟨h1, h2⟩
        exact ⟨Or.inr h1, h2⟩
      · rintro ⟨h1 | h1, h2⟩
        · subst h1; exact absurd hb h2
        · exact ⟨h1, h2⟩
    · simp only [pyDedupLoop, if_neg hb, List.mem_cons, ih, List.mem_cons]
      constructor
      · rintro (rfl | ⟨h1, h2⟩)
        · exact ⟨Or.inl rfl, hb⟩
        · exact ⟨Or.inr h1, fun hc => h2 (Or.inr hc)⟩
      · rintro ⟨h1 | h1, h2⟩
        · exact Or.inl h1
        · by_cases hab : a = b
          · exact Or.inl hab
          · exact Or.inr ⟨h1, fun hc => (by rcases hc with rfl | hc; exact hab rfl; exact h2 hc)⟩

theorem mem_pyDedup {l : List String} {a : String} :
    a ∈ pyDedup l ↔ a ∈ l := by
  simp [pyDedup, mem_pyDedupLoop]

theorem nodup_pyDedupLoop (l : List String) (seen : List String) :
    (pyDedupLoop l seen).Nodup := by
  induction l generalizing seen with
  | nil => simp [pyDedupLoop]
  | cons b rest ih =>
    by_cases hb : b ∈ seen
    · simpa [pyDedupLoop, if_pos hb] using ih seen
    · simp only [pyDedupLoop, if_neg hb, List.nodup_cons]
      refine ⟨fun hc => ?_, ih _⟩
      rw [mem_pyDedupLoop] at hc
      exact hc.2 (by simp)

theorem nodup_pyDedup (l : List String) : (pyDedup l).Nodup :=
  nodup_pyDedupLoop l []

theorem adjStep_mem {g : String → List (String × Int)}
    {t : String × String × Int} {x y : String} {w : Int} :
    (y, w) ∈ adjStep g t x ↔
      (y, w) ∈ g x ∨ (x = t.1 ∧ y = t.2.1 ∧ w = t.2.2) ∨
        (x = t.2.1 ∧ y = t.1 ∧ w = t.2.2) := by
  obtain ⟨u, v, w'⟩ := t
  by_cases hxv : x = v <;> by_cases hxu : x = u <;>
    simp_all [adjStep, upd] <;> tauto

theorem foldl_adjStep_mem (ts : List (String × String × Int)) :
    ∀ (g : String → List (String × Int)) (x y : String) (w : Int),
      (y, w) ∈ ts.foldl adjStep g x ↔
        (y, w) ∈ g x ∨ (x, y, w) ∈ ts ∨ (y, x, w) ∈ ts := by
  induction ts with
  | nil => simp
  | cons t rest ih =>
    intro g x y w
    simp only [List.foldl_cons, ih, adjStep_mem, List.mem_cons]
    constructor
    · rintro ((h | h | h) | h | h) <;> try tauto
      · refine Or.inr (Or.inl (Or.inl ?_))
        obtain ⟨rfl, rfl, rfl⟩ := h
        rfl
      · refine Or.inr (Or.inr (Or.inl ?_))
        obtain ⟨rfl, rfl, rfl⟩ := h
        rfl
    · rintro (h | (h | h) | (h | h)) <;> try tauto
      · refine Or.inl (Or.inr (Or.inl ?_))
        obtain ⟨u, v, w'⟩ := t
        simp only [Prod.mk.injEq] at h
        tauto
      · refine Or.inl (Or.inr (Or.inr ?_))
        obtain ⟨u, v, w'⟩ := t
        simp only [Prod.mk.injEq] at h
        tauto

theorem adjOf_mem {ts : List (String × String × Int)} {x y : String} {w : Int} :
    (y, w) ∈ adjOf ts x ↔ (x, y, w) ∈ ts ∨ (y, x, w) ∈ ts := by
  simp [adjOf, foldl_adjStep_mem]

theorem buildAdj_go {ids : List String} {edges : List PyEdge}
    (h : ∀ e ∈ edges, EdgeOkFor ids e) :
    ∀ ts0 : List (String × String × Int),
      List.foldlM (buildAdjStep ids) (adjOf ts0) edges
      = .ok (adjOf (ts0 ++ edgeTriples edges)) := by
  induction edges with
  | nil =>
    intro ts0
    simp [edgeTriples]
    rfl
  | cons e rest ih =>
    intro ts0
    obtain ⟨u, v, w, hu, hv, hw, hui, hvi⟩ := h e (by simp)
    have ihr := ih (fun e' he' => h e' (by simp [he'])) (ts0 ++ [(u, v, w)])
    have hstep : buildAdjStep ids (adjOf ts0) e
        = .ok (adjOf (ts0 ++ [(u, v, w)])) := by
      have hadj : adjOf (ts0 ++ [(u, v, w)]) = adjStep (adjOf ts0) (u, v, w) := by
        simp [adjOf]
      rw [hadj]
      simp only [buildAdjStep, PyEdge.getU, PyEdge.getV, PyEdge.getW, hu, hv, hw]
      show (if u ∈ ids then _ else _) = _
      rw [if_pos hui]
      show (if v ∈ ids then _ else _) = _
      rw [if_pos hvi]
      rfl
    rw [List.foldlM_cons, hstep]
    show List.foldlM (buildAdjStep ids) (adjOf (ts0 ++ [(u, v, w)])) rest = _
    rw [ihr]
    simp [edgeTriples, List.filterMap_cons, hu, hv, hw]

theorem buildAdj_ok {ids : List String} {edges : List PyEdge}
    (h : ∀ e ∈ edges, EdgeOkFor ids e) :
    buildAdj ids edges = .ok (adjOf (edgeTriples edges)) := by
  have := buildAdj_go h ([] : List (String × String × Int))
  simpa [buildAdj, adjOf] using this

/-! ## Lemmas about `Walk` -/

theorem Walk.ne_nil {adj : String → List (String × Int)} {src t : String}
    {p : List String} {c : Int} (hw : Walk adj src t p c) : p ≠ [] := by
  induction hw with
  | nil => simp
  | cons _ _ _ => simp

theorem Walk.head_eq {adj : String → List (String × Int)} {src t : String}
    {p : List String} {c : Int} (hw : Walk adj src t p c) :
    p.head? = some src := by
  induction hw with
  | nil => rfl
  | @cons u v w p c hw _ ih =>
    rw [List.head?_append_of_ne_nil _ hw.ne_nil]
    exact ih

theorem Walk.last_eq {adj : String → List (String × Int)} {src t : String}
    {p : List String} {c : Int} (hw : Walk adj src t p c) :
    p.getLast? = some t := by
  cases hw with
  | nil => rfl
  | cons _ _ => exact List.getLast?_concat _

theorem Walk.mem_subset {adj : String → List (String × Int)} {V : List String}
    {src t : String} {p : List String} {c : Int}
    (hadj : ∀ u v w, (v, w) ∈ adj u → u ∈ V ∧ v ∈ V)
    (hsrc : src ∈ V) (hw : Walk adj src t p c) : ∀ x ∈ p, x ∈ V := by
  induction hw with
  | nil => simpa using hsrc
  | @cons u v w p c hw he ih =>
    intro x hx
    rcases List.mem_append.mp hx with hx | hx
    · exact ih x hx
    · rcases List.mem_singleton.mp hx with rfl
      exact (hadj _ _ _ he).2

theorem Walk.target_mem {adj : String → List (String × Int)} {src t : String}
    {p : List String} {c : Int} (hw : Walk adj src t p c) : t ∈ p := by
  cases hw with
  | nil => simp
  | cons _ _ => simp

theorem Walk.cost_nonneg {adj : String → List (String × Int)} {src t : String}
    {p : List String} {c : Int}
    (hadj : ∀ u v w, (v, w) ∈ adj u → 0 ≤ w) (hw : Walk adj src t p c) :
    0 ≤ c := by
  induction hw with
  | nil => omega
  | @cons u v w p c hw he ih =>
    have := hadj _ _ _ he
    omega

/-- Lower bound on every walk cost from a potential function that is slack on
every directed adjacency entry. -/
theorem Walk.potential_bound {adj : String → List (String × Int)}
    {src t : String} {p : List String} {c : Int} (phi : String → Int)
    (hedge : ∀ u v w, (v, w) ∈ adj u → phi v ≤ phi u + w)
    (hw : Walk adj src t p c) : phi t ≤ phi src + c := by
  induction hw with
  | nil => omega
  | @cons u v w p c hw he ih =>
    have := hedge _ _ _ he
    omega

/-! ## The `scanMin` specification -/

theorem scanMin_go (dist : String → Cost) (l : List String) :
    ∀ a : Option String × Cost,
      (l.foldl (fun acc n => if dist n < acc.2 then (some n, dist n) else acc) a = a ∨
        ∃ c ∈ l, l.foldl (fun acc n => if dist n < acc.2 then (some n, dist n) else acc) a
          = (some c, dist c)) ∧
      (l.foldl (fun acc n => if dist n < acc.2 then (some n, dist n) else acc) a).2 ≤ a.2 ∧
      (∀ n ∈ l,
        (l.foldl (fun acc n => if dist n < acc.2 then (some n, dist n) else acc) a).2 ≤ dist n) ∧
      ((l.foldl (fun acc n => if dist n < acc.2 then (some n, dist n) else acc) a).1 ≠ a.1 →
        (l.foldl (fun acc n => if dist n < acc.2 then (some n, dist n) else acc) a).2 < a.2) := by
  induction l with
  | nil =>
    intro a
    refine ⟨Or.inl rfl, Cost.le_refl _, by simp, by simp⟩
  | cons b rest ih =>
    intro a
    by_cases hb : dist b < a.2
    · have := ih (some b, dist b)
      obtain ⟨hcases, hle, hmin, hstrict⟩ := this
      simp only [List.foldl_cons, if_pos hb]
      refine ⟨?_, ?_, ?_, ?_⟩
      · rcases hcases with h | ⟨c, hc, h⟩
        · exact Or.inr ⟨b, by simp, by rw [h]⟩
        · exact Or.inr ⟨c, by simp [hc], h⟩
      · exact Cost.le_trans hle (Cost.le_of_lt hb)
      · intro n hn
        rcases List.mem_cons.mp hn with rfl | hn
        · exact hle
        · exact hmin n hn
      · intro _
        exact Cost.lt_of_le_of_lt hle hb
    · have := ih a
      obtain ⟨hcases, hle, hmin, hstrict⟩ := this
      simp only [List.foldl_cons, if_neg hb]
      refine ⟨?_, ?_, ?_, ?_⟩
      · rcases hcases with h | ⟨c, hc, h⟩
        · exact Or.inl h
        · exact Or.inr ⟨c, by simp [hc], h⟩
      · exact hle
      · intro n hn
        rcases List.mem_cons.mp hn with rfl | hn
        · exact Cost.le_trans hle (Cost.le_of_not_lt hb)
        · exact hmin n hn
      · exact hstrict

theorem scanMin_some {dist : String → Cost} {l : List String} {c : String}
    (h : (scanMin dist l).1 = some c) :
    c ∈ l ∧ dist c ≠ .inf ∧ ∀ n ∈ l, dist c ≤ dist n := by
  obtain ⟨hcases, hle, hmin, hstrict⟩ := scanMin_go dist l (none, .inf)
  rw [scanMin] at h
  rcases hcases with heq | ⟨c', hc', heq⟩
  · rw [heq] at h
    exact absurd h (by simp)
  · rw [heq] at h hmin
    have hcc : c' = c := by simpa using h
    subst hcc
    have hlt : dist c' < .inf := by
      have := hstrict (by rw [heq]; simp)
      rw [heq] at this
      exact this
    exact ⟨hc', Cost.lt_inf_iff.mp hlt, fun n hn => hmin n hn⟩

theorem scanMin_none {dist : String → Cost} {l : List String}
    (h : (scanMin dist l).1 = none) : ∀ n ∈ l, dist n = .inf := by
  obtain ⟨hcases, hle, hmin, hstrict⟩ := scanMin_go dist l (none, .inf)
  rw [scanMin] at h
  intro n hn
  rcases hcases with heq | ⟨c', hc', heq⟩
  · rw [heq] at hmin
    exact Cost.inf_le_iff.mp (hmin n hn)
  · rw [heq] at h
    simp at h

theorem PrevList.cons_ne_nil {prev : String → Option String} {v : String}
    {p : List String} (h : PrevList prev v p) : p ≠ [] := by
  cases h <;> simp

theorem PrevList.length_pos {prev : String → Option String} {v : String}
    {p : List String} (h : PrevList prev v p) : 0 < p.length := by
  cases h <;> simp

theorem traceBack_of_prevList {prev : String → Option String} {v : String}
    {p : List String} (h : PrevList prev v p) :
    ∀ fuel, p.length ≤ fuel → traceBack prev fuel (some v) = p := by
  induction h with
  | @base v hv =>
    intro fuel hf
    match fuel, hf with
    | 0, hf => simp at hf
    | f + 1, _ =>
      show traceBack prev f (prev v) ++ [v] = [v]
      rw [hv]
      match f with
      | 0 => rfl
      | _ + 1 => rfl
  | @step v u p hv hp ih =>
    intro fuel hf
    match fuel, hf with
    | 0, hf =>
      rw [List.length_append] at hf
      simp at hf
    | f + 1, hf =>
      show traceBack prev f (prev v) ++ [v] = p ++ [v]
      rw [hv, ih f (by rw [List.length_append] at hf; simp at hf; omega)]

/-- A `PrevList` is unchanged by updates outside its elements. -/
theorem PrevList.congr {prev prev' : String → Option String} {v : String}
    {p : List String} (h : PrevList prev v p)
    (hsame : ∀ x ∈ p, prev' x = prev x) : PrevList prev' v p := by
  induction h with
  | @base v hv =>
    exact .base (by rw [hsame v (by simp), hv])
  | @step v u p hv hp ih =>
    refine .step (by rw [hsame v (by simp), hv]) (ih fun x hx => hsame x (by simp [hx]))

/-- Any walk ending in the unvisited region is bounded below by some
unvisited tentative distance. -/
theorem DInv.unvisited_lb {adj : String → List (String × Int)}
    {V unvisited : List String} {src : String} {dist : String → Cost}
    {prev : String → Option String}
    (inv : DInv adj V src unvisited dist prev) (hadj : AdjWf adj V)
    {t : String} {q : List String} {ct : Int} (hw : Walk adj src t q ct) :
    t ∈ unvisited → ∃ y ∈ unvisited, dist y ≤ .int ct := by
  induction hw with
  | nil =>
    intro ht
    refine ⟨src, ht, ?_⟩
    rw [inv.srcZero]
    simp
  | @cons u v w p c hw he ih =>
    intro hv
    by_cases hu : u ∈ unvisited
    · obtain ⟨y, hy, hle⟩ := ih hu
      refine ⟨y, hy, Cost.le_trans hle ?_⟩
      have hw0 : 0 ≤ w := (hadj _ _ _ he).2.2
      simp
      omega
    · have huV : u ∈ V := (hadj _ _ _ he).1
      have h1 : dist u ≤ .int c := inv.settled u huV hu _ _ hw
      have h2 : dist v ≤ dist u + .int w := inv.frontier u hu v w he hv
      refine ⟨v, hv, Cost.le_trans h2 ?_⟩
      have := Cost.add_le_add_right h1 w
      simpa using this

/-- The node selected by the scan is settled: its tentative distance bounds
every walk to it. -/
theorem DInv.select_settled {adj : String → List (String × Int)}
    {V unvisited : List String} {src : String} {dist : String → Cost}
    {prev : String → Option String}
    (inv : DInv adj V src unvisited dist prev) (hadj : AdjWf adj V)
    {c : String} (hc : c ∈ unvisited)
    (hmin : ∀ n ∈ unvisited, dist c ≤ dist n) :
    ∀ q cq, Walk adj src c q cq → dist c ≤ .int cq := by
  intro q cq hw
  obtain ⟨y, hy, hle⟩ := inv.unvisited_lb hadj hw hc
  exact Cost.le_trans (hmin y hy) hle

theorem MidInv.relaxStep_pres {adj : String → List (String × Int)}
    {V : List String} {src c : String} {u' : List String}
    {dist : String → Cost} {prev : String → Option String}
    (mid : MidInv adj V src c u' dist prev) (hadj : AdjWf adj V)
    {v : String} {w : Int} (he : (v, w) ∈ adj c) :
    MidInv adj V src c u'
      (relaxStep c u' (dist, prev) (v, w)).1
      (relaxStep c u' (dist, prev) (v, w)).2 := by
  rw [relaxStep]
  by_cases hv : v ∈ u'
  case neg => simpa [hv] using mid
  rw [if_pos hv]
  by_cases hlt : dist c + .int w < dist v
  case neg =>
    simpa [hlt] using mid
  simp only [if_pos hlt]
  have hvc : v ≠ c := fun h => mid.cNotIn (h ▸ hv)
  obtain ⟨cc, hcc⟩ := Cost.ne_inf_iff.mp mid.cFin
  have halt : dist c + .int w = .int (cc + w) := by rw [hcc]; simp
  obtain ⟨pc, cc', hwalkc, hdc, hnodc, hplc, helemc⟩ := mid.reach c mid.cFin
  have hcc' : cc' = cc := by
    rw [hcc] at hdc
    injection hdc.symm
  subst hcc'
  have hcost0 : 0 ≤ cc' := hwalkc.cost_nonneg (fun a b wz hz => (hadj _ _ _ hz).2.2)
  have hw0 : 0 ≤ w := (hadj _ _ _ he).2.2
  have hvsrc : v ≠ src := by
    intro h
    subst h
    rw [mid.srcZero, halt] at hlt
    simp at hlt
    omega
  have hvnotin : v ∉ pc := by
    intro hmem
    rcases helemc v hmem with rfl | habs
    · exact hvc rfl
    · exact habs hv
  refine ⟨mid.nd, mid.sub, ?_, ?_, ?_, ?_, ?_, ?_, mid.cNotIn, ?_⟩
  · rw [upd_ne _ _ (Ne.symm hvsrc)]
    exact mid.srcZero
  · intro x hxV hxu
    by_cases hxv : x = v
    · subst hxv
      exact absurd hv hxu
    · rw [upd_ne _ _ hxv]
      exact mid.visitedFin x hxV hxu
  · intro x hx
    by_cases hxv : x = v
    · subst hxv
      refine ⟨pc ++ [x], cc' + w, hwalkc.cons he, ?_, ?_, ?_, ?_⟩
      · rw [upd_self, halt]
      · simpa [List.nodup_append] using ⟨hnodc, fun h => hvnotin h⟩
      · refine PrevList.step (upd_self _ _ _) (hplc.congr ?_)
        intro y hy
        exact upd_ne _ _ (fun h => hvnotin (h ▸ hy))
      · intro y hy
        rcases List.mem_append.mp hy with hy | hy
        · rcases helemc y hy with rfl | hyn
          · exact Or.inr mid.cNotIn
          · exact Or.inr hyn
        · rcases List.mem_singleton.mp hy with rfl
          exact Or.inl rfl
    · rw [upd_ne _ _ hxv] at hx ⊢
      obtain ⟨px, cx, hwx, hdx, hnx, hpx, hex⟩ := mid.reach x hx
      refine ⟨px, cx, hwx, hdx, hnx, hpx.congr ?_, hex⟩
      intro y hy
      refine upd_ne _ _ (fun h => ?_)
      subst h
      rcases hex y hy with rfl | hyn
      · exact hxv rfl
      · exact hyn hv
  · intro x hxV hxu q cq hq
    have hxv : x ≠ v := fun h => hxu (h ▸ hv)
    rw [upd_ne _ _ hxv]
    exact mid.settled x hxV hxu q cq hq
  · intro u hu huc y wy hey hyu
    have huv : u ≠ v := fun h => hu (h ▸ hv)
    rw [upd_ne _ _ huv]
    by_cases hyv : y = v
    · subst hyv
      rw [upd_self]
      exact Cost.le_trans (Cost.le_of_lt hlt)
        (mid.frontierOld u hu huc y wy hey hyu)
    · rw [upd_ne _ _ hyv]
      exact mid.frontierOld u hu huc y wy hey hyu
  · intro x hx
    by_cases hxv : x = v
    · subst hxv
      rw [upd_self] at hx
      rw [halt] at hx
      simp at hx
    · rw [upd_ne _ _ hxv] at hx
      rw [upd_ne _ _ hxv]
      exact mid.prevNone x hx
  · rw [upd_ne _ _ (fun h => hvc h.symm)]
    exact mid.cFin

theorem relaxStep_fst_le {c : String} {u' : List String}
    {st : (String → Cost) × (String → Option String)} {nb : String × Int}
    (x : String) : (relaxStep c u' st nb).1 x ≤ st.1 x := by
  rw [relaxStep]
  by_cases h1 : nb.1 ∈ u'
  · rw [if_pos h1]
    by_cases h2 : st.1 c + .int nb.2 < st.1 nb.1
    · rw [if_pos h2]
      by_cases hx : x = nb.1
      · subst hx
        simpa [upd_self] using Cost.le_of_lt h2
      · simpa [upd_ne _ _ hx] using Cost.le_refl (st.1 x)
    · rw [if_neg h2]
      exact Cost.le_refl _
  · rw [if_neg h1]
    exact Cost.le_refl _

theorem relaxStep_notmem {c : String} {u' : List String}
    {st : (String → Cost) × (String → Option String)} {nb : String × Int}
    {x : String} (hx : x ∉ u') :
    (relaxStep c u' st nb).1 x = st.1 x ∧
      (relaxStep c u' st nb).2 x = st.2 x := by
  rw [relaxStep]
  by_cases h1 : nb.1 ∈ u'
  · rw [if_pos h1]
    by_cases h2 : st.1 c + .int nb.2 < st.1 nb.1
    · rw [if_pos h2]
      have hxnb : x ≠ nb.1 := fun h => hx (h ▸ h1)
      exact ⟨upd_ne _ _ hxnb, upd_ne _ _ hxnb⟩
    · rw [if_neg h2]
      exact ⟨rfl, rfl⟩
  · rw [if_neg h1]
    exact ⟨rfl, rfl⟩

theorem relaxAll_fst_le {c : String} {u' : List String} :
    ∀ (nbrs : List (String × Int))
      (st : (String → Cost) × (String → Option String)) (x : String),
      (relaxAll c u' nbrs st).1 x ≤ st.1 x := by
  intro nbrs
  induction nbrs with
  | nil => intro st x; exact Cost.le_refl _
  | cons nb rest ih =>
    intro st x
    show (relaxAll c u' rest (relaxStep c u' st nb)).1 x ≤ st.1 x
    exact Cost.le_trans (ih _ x) (relaxStep_fst_le x)

theorem relaxAll_notmem {c : String} {u' : List String} :
    ∀ (nbrs : List (String × Int))
      (st : (String → Cost) × (String → Option String)) (x : String),
      x ∉ u' →
      (relaxAll c u' nbrs st).1 x = st.1 x ∧
        (relaxAll c u' nbrs st).2 x = st.2 x := by
  intro nbrs
  induction nbrs with
  | nil => intro st x _; exact ⟨rfl, rfl⟩
  | cons nb rest ih =>
    intro st x hx
    have h1 := @relaxStep_notmem c u' st nb x hx
    have h2 := ih (relaxStep c u' st nb) x hx
    exact ⟨h2.1.trans h1.1, h2.2.trans h1.2⟩

theorem relaxAll_frontier_c {c : String} {u' : List String} (hcu : c ∉ u') :
    ∀ (nbrs : List (String × Int))
      (st : (String → Cost) × (String → Option String)) (v : String) (w : Int),
      (v, w) ∈ nbrs → v ∈ u' →
      (relaxAll c u' nbrs st).1 v ≤ (relaxAll c u' nbrs st).1 c + .int w := by
  intro nbrs
  induction nbrs with
  | nil => intro st v w h; simp at h
  | cons nb rest ih =>
    intro st v w hmem hv
    have hfixc : (relaxAll c u' (nb :: rest) st).1 c
        = (relaxStep c u' st nb).1 c :=
      (relaxAll_notmem rest (relaxStep c u' st nb) c hcu).1
    rcases List.mem_cons.mp hmem with heq | hmem'
    · subst heq
      show (relaxAll c u' rest (relaxStep c u' st (v, w))).1 v ≤ _
      have hstep : (relaxStep c u' st (v, w)).1 v
          ≤ (relaxStep c u' st (v, w)).1 c + .int w := by
        rw [relaxStep]
        rw [if_pos hv]
        have hvc : v ≠ c := fun h => hcu (h ▸ hv)
        by_cases h2 : st.1 c + .int w < st.1 v
        · rw [if_pos h2]
          have hcv : c ≠ v := fun h => hvc h.symm
          simpa [upd_self, upd_ne _ _ hcv] using
            Cost.le_refl (st.1 c + Cost.int w)
        · rw [if_neg h2]
          exact Cost.le_of_not_lt h2
      have hmono := @relaxAll_fst_le c u' rest
        (relaxStep c u' st (v, w)) v
      have hcfix : (relaxAll c u' rest (relaxStep c u' st (v, w))).1 c
          = (relaxStep c u' st (v, w)).1 c :=
        (relaxAll_notmem rest _ c hcu).1
      rw [hfixc]
      exact Cost.le_trans hmono hstep
    · exact ih (relaxStep c u' st nb) v w hmem' hv

theorem MidInv.relaxAll_pres {adj : String → List (String × Int)}
    {V : List String} {src c : String} {u' : List String} (hadj : AdjWf adj V) :
    ∀ (nbrs : List (String × Int)), (∀ nb ∈ nbrs, nb ∈ adj c) →
      ∀ (dist : String → Cost) (prev : String → Option String),
        MidInv adj V src c u' dist prev →
        MidInv adj V src c u'
          (relaxAll c u' nbrs (dist, prev)).1
          (relaxAll c u' nbrs (dist, prev)).2 := by
  intro nbrs
  induction nbrs with
  | nil => intro _ dist prev mid; exact mid
  | cons nb rest ih =>
    intro hsub dist prev mid
    obtain ⟨v, w⟩ := nb
    have hstep := mid.relaxStep_pres hadj (hsub (v, w) (by simp))
    show MidInv adj V src c u'
      (relaxAll c u' rest (relaxStep c u' (dist, prev) (v, w))).1
      (relaxAll c u' rest (relaxStep c u' (dist, prev) (v, w))).2
    have := ih (fun nb h => hsub nb (by simp [h]))
      (relaxStep c u' (dist, prev) (v, w)).1
      (relaxStep c u' (dist, prev) (v, w)).2 hstep
    simpa using this

/-- One full iteration of the `dijkstra` loop preserves the invariant. -/
theorem DInv.step {adj : String → List (String × Int)}
    {V unvisited : List String} {src : String} {dist : String → Cost}
    {prev : String → Option String}
    (inv : DInv adj V src unvisited dist prev) (hadj : AdjWf adj V)
    {c : String} (hcmem : c ∈ unvisited) (hcfin : dist c ≠ .inf)
    (hmin : ∀ n ∈ unvisited, dist c ≤ dist n) :
    DInv adj V src (unvisited.erase c)
      (relaxAll c (unvisited.erase c) (adj c) (dist, prev)).1
      (relaxAll c (unvisited.erase c) (adj c) (dist, prev)).2 := by
  set u' := unvisited.erase c with hu'
  have hcu : c ∉ u' := inv.nd.not_mem_erase
  have hsubu : ∀ x ∈ u', x ∈ unvisited := fun x hx => List.mem_of_mem_erase hx
  have hmemu : ∀ x, x ∈ unvisited → x ≠ c → x ∈ u' := by
    intro x hx hne
    rw [hu']
    exact (List.mem_erase_of_ne hne).mpr hx
  have hsettledc : ∀ q cq, Walk adj src c q cq → dist c ≤ .int cq :=
    inv.select_settled hadj hcmem hmin
  have mid : MidInv adj V src c u' dist prev := by
    refine ⟨inv.nd.erase c, fun v hv => inv.sub v (hsubu v hv), inv.srcZero,
      ?_, ?_, ?_, ?_, inv.prevNone, hcu, hcfin⟩
    · intro v hvV hvu
      by_cases hvc : v = c
      · subst hvc
        exact hcfin
      · exact inv.visitedFin v hvV (fun h => hvu (hmemu v h hvc))
    · intro v hv
      obtain ⟨p, cc, hwp, hdp, hnp, hpp, hep⟩ := inv.reach v hv
      exact ⟨p, cc, hwp, hdp, hnp, hpp,
        fun x hx => (hep x hx).imp id (fun h h2 => h (hsubu x h2))⟩
    · intro v hvV hvu q cq hq
      by_cases hvc : v = c
      · subst hvc
        exact hsettledc q cq hq
      · exact inv.settled v hvV (fun h => hvu (hmemu v h hvc)) q cq hq
    · intro u hu huc v w he hv
      exact inv.frontier u (fun h => hu (hmemu u h huc)) v w he (hsubu v hv)
  have midAll := MidInv.relaxAll_pres hadj (adj c) (fun nb h => h) dist prev mid
  refine ⟨midAll.nd, midAll.sub, midAll.srcZero, midAll.visitedFin,
    midAll.reach, midAll.settled, ?_, midAll.prevNone⟩
  intro u hu v w he hv
  by_cases huc : u = c
  · subst huc
    exact relaxAll_frontier_c hcu (adj u) (dist, prev) v w he hv
  · exact midAll.frontierOld u hu huc v w he hv

/-- Full specification of the fuelled `dijkstra` loop: starting from an
invariant state with enough fuel, the loop ends in an invariant state whose
remaining unvisited nodes all have infinite distance. -/
theorem dijkstraLoop_spec {adj : String → List (String × Int)}
    {V : List String} {src : String} (hadj : AdjWf adj V) :
    ∀ (fuel : Nat) (unvisited : List String) (dist : String → Cost)
      (prev : String → Option String),
      unvisited.length ≤ fuel →
      DInv adj V src unvisited dist prev →
      ∃ u' : List String,
        DInv adj V src u'
          (dijkstraLoop adj fuel unvisited (dist, prev)).1
          (dijkstraLoop adj fuel unvisited (dist, prev)).2 ∧
        ∀ y ∈ u', (dijkstraLoop adj fuel unvisited (dist, prev)).1 y = .inf := by
  intro fuel
  induction fuel with
  | zero =>
    intro unvisited dist prev hlen inv
    have : unvisited = [] := List.length_eq_zero.mp (Nat.le_zero.mp hlen)
    subst this
    exact ⟨[], inv, by simp⟩
  | succ fuel ih =>
    intro unvisited dist prev hlen inv
    match hU : unvisited with
    | [] =>
      have heq : dijkstraLoop adj (fuel + 1) [] (dist, prev) = (dist, prev) := by
        simp [dijkstraLoop]
      rw [heq]
      exact ⟨[], inv, by simp⟩
    | a :: rest =>
      match hscan : scanMin dist (a :: rest) with
      | (none, m) =>
        have heq : dijkstraLoop adj (fuel + 1) (a :: rest) (dist, prev)
            = (dist, prev) := by
          simp [dijkstraLoop, hscan]
        rw [heq]
        exact ⟨a :: rest, inv, fun y hy => scanMin_none (by rw [hscan]) y hy⟩
      | (some c, m) =>
        have hsome : (scanMin dist (a :: rest)).1 = some c := by rw [hscan]
        obtain ⟨hcmem, hcfin, hmin⟩ := scanMin_some hsome
        have heq : dijkstraLoop adj (fuel + 1) (a :: rest) (dist, prev)
            = dijkstraLoop adj fuel ((a :: rest).erase c)
                (relaxAll c ((a :: rest).erase c) (adj c) (dist, prev)) := by
          simp [dijkstraLoop, hscan, hcfin]
        rw [heq]
        have hstep := inv.step hadj hcmem hcfin hmin
        have hlen' : ((a :: rest).erase c).length ≤ fuel := by
          rw [List.length_erase_of_mem hcmem]
          simp at hlen ⊢
          omega
        have := ih ((a :: rest).erase c)
          (relaxAll c ((a :: rest).erase c) (adj c) (dist, prev)).1
          (relaxAll c ((a :: rest).erase c) (adj c) (dist, prev)).2 hlen' hstep
        simpa using this

/-- The invariant holds at loop entry. -/
theorem DInv.initial {adj : String → List (String × Int)} {V : List String}
    {src : String} (hadj : AdjWf adj V) (hsrc : src ∈ V) :
    DInv adj V src (pyDedup V)
      (fun v => if v = src then .int 0 else .inf) (fun _ => none) := by
  refine ⟨nodup_pyDedup V, fun v hv => mem_pyDedup.mp hv, by simp, ?_, ?_,
    ?_, ?_, fun v _ => rfl⟩
  · intro v hvV hvu
    exact absurd (mem_pyDedup.mpr hvV) hvu
  · intro v hv
    by_cases hvs : v = src
    · subst hvs
      refine ⟨[v], 0, Walk.nil, by simp, by simp, PrevList.base rfl, ?_⟩
      intro x hx
      rcases List.mem_singleton.mp hx with rfl
      exact Or.inl rfl
    · simp [hvs] at hv
  · intro v hvV hvu
    exact absurd (mem_pyDedup.mpr hvV) hvu
  · intro u hu v w he _
    exact absurd (mem_pyDedup.mpr (hadj _ _ _ he).1) hu

/-- Summary of the loop's final state: reachable nodes carry an optimal
distance and a reconstructible optimal path, and nodes with finite distance
are reachable. -/
theorem dijkstraLoop_final {adj : String → List (String × Int)}
    {V : List String} {src : String} (hadj : AdjWf adj V) (hsrc : src ∈ V) :
    let st := dijkstraLoop adj (pyDedup V).length (pyDedup V)
      ((fun v => if v = src then .int 0 else .inf), (fun _ => none))
    (∀ v ∈ V, (∃ q cq, Walk adj src v q cq) →
      ∃ p c, Walk adj src v p c ∧ st.1 v = .int c ∧ p.Nodup ∧
        PrevList st.2 v p ∧ (∀ x ∈ p, x ∈ V) ∧
        ∀ q cq, Walk adj src v q cq → c ≤ cq) ∧
    (∀ v, st.1 v ≠ .inf → ∃ q cq, Walk adj src v q cq) ∧
    (∀ v, st.1 v = .inf → st.2 v = none) := by
  obtain ⟨u', hinv, hinf⟩ := dijkstraLoop_spec hadj (pyDedup V).length
    (pyDedup V) (fun v => if v = src then .int 0 else .inf) (fun _ => none)
    (Nat.le_refl _) (DInv.initial hadj hsrc)
  refine ⟨?_, ?_, hinv.prevNone⟩
  · intro v hvV hreach
    obtain ⟨q, cq, hq⟩ := hreach
    have hvfin : (dijkstraLoop adj (pyDedup V).length (pyDedup V)
        ((fun v => if v = src then .int 0 else .inf), (fun _ => none))).1 v
        ≠ .inf := by
      intro hfin
      by_cases hvu : v ∈ u'
      · obtain ⟨y, hy, hle⟩ := hinv.unvisited_lb hadj hq hvu
        rw [hinf y hy] at hle
        rw [Cost.inf_le_iff] at hle
        exact absurd hle (by simp)
      · exact hinv.visitedFin v hvV hvu hfin
    obtain ⟨p, c, hwp, hdp, hnp, hpp, hep⟩ := hinv.reach v hvfin
    have hvu : v ∉ u' := by
      intro hvu
      exact hvfin (hinf v hvu)
    refine ⟨p, c, hwp, hdp, hnp, hpp,
      hwp.mem_subset (fun a b w hz => ⟨(hadj _ _ _ hz).1, (hadj _ _ _ hz).2.1⟩) hsrc, ?_⟩
    intro q' cq' hq'
    have := hinv.settled v hvV hvu q' cq' hq'
    rw [hdp] at this
    simpa using this
  · intro v hfin
    obtain ⟨p, c, hwp, _, _, _, _⟩ := hinv.reach v hfin
    exact ⟨p, c, hwp⟩

@[simp] theorem Except.ok_bind {ε α β : Type} (a : α) (f : α → Except ε β) :
    (Except.ok a >>= f) = f a := rfl

@[simp] theorem Except.pure_eq_ok {ε α : Type} (a : α) :
    (pure a : Except ε α) = Except.ok a := rfl

theorem mem_edgeTriples {edges : List PyEdge} {u v : String} {w : Int} :
    (u, v, w) ∈ edgeTriples edges ↔
      ∃ e ∈ edges, e.u = some u ∧ e.v = some v ∧ e.w = some w := by
  rw [edgeTriples, List.mem_filterMap]
  constructor
  · rintro ⟨e, he, hm⟩
    refine ⟨e, he, ?_⟩
    cases hu : e.u <;> cases hv : e.v <;> cases hw : e.w <;>
      simp [hu, hv, hw] at hm
    obtain ⟨rfl, rfl, rfl⟩ := hm
    exact ⟨rfl, rfl, rfl⟩
  · rintro ⟨e, he, hu, hv, hw⟩
    exact ⟨e, he, by simp [hu, hv, hw]⟩

theorem adjWf_of_edges {nodes : List PyNode} {edges : List PyEdge}
    (hE : ∀ e ∈ edges, EdgeOkFor (idsOf nodes) e)
    (hW : ∀ e ∈ edges, ∀ w, e.w = some w → 0 ≤ w) :
    AdjWf (adjOf (edgeTriples edges)) (idsOf nodes) := by
  intro u v w hm
  have key : ∀ a b, (a, b, w) ∈ edgeTriples edges →
      a ∈ idsOf nodes ∧ b ∈ idsOf nodes ∧ 0 ≤ w := by
    intro a b h
    obtain ⟨e, he, hu, hv, hw⟩ := mem_edgeTriples.mp h
    obtain ⟨u', v', w', hu', hv', hw', hui', hvi'⟩ := hE e he
    rw [hu] at hu'
    rw [hv] at hv'
    injection hu' with h1
    injection hv' with h2
    subst h1
    subst h2
    exact ⟨hui', hvi', hW e he w hw⟩
  rcases adjOf_mem.mp hm with h | h
  · obtain ⟨h1, h2, h3⟩ := key u v h
    exact ⟨h1, h2, h3⟩
  · obtain ⟨h1, h2, h3⟩ := key v u h
    exact ⟨h2, h1, h3⟩

/-- Reduction of `dijkstra` to its loop and reconstruction once the node and
edge records are well-formed and both endpoints exist. -/
theorem dijkstra_reduce {nodes : List PyNode} {edges : List PyEdge}
    {src0 dst0 : String} (hn : ∀ n ∈ nodes, n.id ≠ none)
    (hE : ∀ e ∈ edges, EdgeOkFor (idsOf nodes) e)
    (hsrc : pyUpper src0 ∈ idsOf nodes) (hdst : pyUpper dst0 ∈ idsOf nodes) :
    dijkstra nodes edges src0 dst0 =
      (let adj := adjOf (edgeTriples edges)
       let st := dijkstraLoop adj (pyDedup (idsOf nodes)).length
         (pyDedup (idsOf nodes))
         ((fun v => if v = pyUpper src0 then Cost.int 0 else Cost.inf),
          fun _ => none)
       let path := traceBack st.2 (nodes.length + 1) (some (pyUpper dst0))
       match path with
       | [] => Except.ok (DijkstraResult.fail .noPath)
       | p0 :: _ =>
         if p0 ≠ pyUpper src0 then Except.ok (DijkstraResult.fail .noPath)
         else Except.ok (DijkstraResult.found path (st.1 (pyUpper dst0)))) := by
  rw [dijkstra, getIds_ok hn]
  rw [Except.ok_bind]
  rw [if_neg (not_not_intro hsrc), if_neg (not_not_intro hdst)]
  simp only [Except.pure_eq_ok, Except.ok_bind]
  rw [buildAdj_ok hE]
  simp only [Except.ok_bind]

/-- Full behaviour of `dijkstra` on a well-formed graph with non-negative
weights when `dst` is reachable: an optimal path is returned together with
its cost. -/
theorem dijkstra_reachable {nodes : List PyNode} {edges : List PyEdge}
    {src0 dst0 : String} (hn : ∀ n ∈ nodes, n.id ≠ none)
    (hE : ∀ e ∈ edges, EdgeOkFor (idsOf nodes) e)
    (hW : ∀ e ∈ edges, ∀ w, e.w = some w → 0 ≤ w)
    (hsrc : pyUpper src0 ∈ idsOf nodes) (hdst : pyUpper dst0 ∈ idsOf nodes)
    (hreach : ∃ q cq,
      Walk (adjOf (edgeTriples edges)) (pyUpper src0) (pyUpper dst0) q cq) :
    ∃ p c, dijkstra nodes edges src0 dst0
        = .ok (DijkstraResult.found p (.int c)) ∧
      p.head? = some (pyUpper src0) ∧ p.getLast? = some (pyUpper dst0) ∧
      Walk (adjOf (edgeTriples edges)) (pyUpper src0) (pyUpper dst0) p c ∧
      ∀ q cq, Walk (adjOf (edgeTriples edges)) (pyUpper src0) (pyUpper dst0) q cq →
        c ≤ cq := by
  have hadj := adjWf_of_edges hE hW
  obtain ⟨hgood, hfinreach, hprevnone⟩ :=
    @dijkstraLoop_final (adjOf (edgeTriples edges)) (idsOf nodes)
      (pyUpper src0) hadj hsrc
  obtain ⟨p, c, hwp, hdp, hnp, hpp, hpV, hopt⟩ :=
    hgood (pyUpper dst0) hdst hreach
  have hlenp : p.length ≤ nodes.length := by
    have h1 : p.length ≤ (idsOf nodes).length := (hnp.subperm hpV).length_le
    rw [length_idsOf hn] at h1
    exact h1
  have htrace := traceBack_of_prevList hpp (nodes.length + 1) (by omega)
  rw [dijkstra_reduce hn hE hsrc hdst]
  simp only
  rw [htrace]
  match hp : p with
  | [] => exact absurd rfl hwp.ne_nil
  | p0 :: ptail =>
    have hhead : p0 = pyUpper src0 := by
      simpa using hwp.head_eq
    refine ⟨p0 :: ptail, c, ?_, hwp.head_eq, hwp.last_eq, hwp,
      fun q cq hq => hopt q cq hq⟩
    simp [hhead, hdp]

/-- Behaviour of `dijkstra` when `dst` exists but is unreachable: the
no-path-found result (path `None`, cost infinity). -/
theorem dijkstra_unreachable {nodes : List PyNode} {edges : List PyEdge}
    {src0 dst0 : String} (hn : ∀ n ∈ nodes, n.id ≠ none)
    (hE : ∀ e ∈ edges, EdgeOkFor (idsOf nodes) e)
    (hW : ∀ e ∈ edges, ∀ w, e.w = some w → 0 ≤ w)
    (hsrc : pyUpper src0 ∈ idsOf nodes) (hdst : pyUpper dst0 ∈ idsOf nodes)
    (hnr : ¬ ∃ q cq,
      Walk (adjOf (edgeTriples edges)) (pyUpper src0) (pyUpper dst0) q cq) :
    dijkstra nodes edges src0 dst0 = .ok (DijkstraResult.fail .noPath) := by
  have hadj := adjWf_of_edges hE hW
  obtain ⟨hgood, hfinreach, hprevnone⟩ :=
    @dijkstraLoop_final (adjOf (edgeTriples edges)) (idsOf nodes)
      (pyUpper src0) hadj hsrc
  have hdinf : (dijkstraLoop (adjOf (edgeTriples edges))
      (pyDedup (idsOf nodes)).length (pyDedup (idsOf nodes))
      ((fun v => if v = pyUpper src0 then Cost.int 0 else Cost.inf),
       fun _ => none)).1 (pyUpper dst0) = .inf := by
    by_contra hfin
    exact hnr (hfinreach (pyUpper dst0) hfin)
  have hpnone := hprevnone (pyUpper dst0) hdinf
  have hne : pyUpper dst0 ≠ pyUpper src0 := by
    intro h
    exact hnr ⟨[pyUpper dst0], 0, h ▸ Walk.nil⟩
  rw [dijkstra_reduce hn hE hsrc hdst]
  simp only
  have htr : traceBack (dijkstraLoop (adjOf (edgeTriples edges))
      (pyDedup (idsOf nodes)).length (pyDedup (idsOf nodes))
      ((fun v => if v = pyUpper src0 then Cost.int 0 else Cost.inf),
       fun _ => none)).2 (nodes.length + 1) (some (pyUpper dst0))
      = [pyUpper dst0] := by
    show traceBack _ (nodes.length + 1) _ = _
    rw [traceBack, hpnone]
    match h : nodes.length with
    | 0 => rfl
    | k + 1 => rfl
  rw [htr]
  simp [hne]

/-- Walks cannot leave a set closed under the adjacency structure. -/
theorem walk_stays {adj : String → List (String × Int)} {S : List String}
    (hS : ∀ u ∈ S, ∀ nb ∈ adj u, nb.1 ∈ S) {src t : String}
    {p : List String} {c : Int} (hsrc : src ∈ S)
    (hw : Walk adj src t p c) : t ∈ S := by
  induction hw with
  | nil => exact hsrc
  | @cons u v w p c hw he ih => exact hS u ih (v, w) he

/-- Bounded-check form of the potential-slack condition for the script
graph's effective adjacency. -/
theorem effAdj_hedge (cst : String × String → Option Int) (phi : String → Int)
    (hall : ∀ u ∈ ["A", "B", "C", "D"], ∀ nb ∈ scriptGraph u,
      phi nb.1 ≤ phi u + effectiveWeight cst u nb.1 nb.2) :
    ∀ u v w, (v, w) ∈ effAdj cst u → phi v ≤ phi u + w := by
  intro u v w h
  rcases List.mem_map.mp h with ⟨nb, hnb, heq⟩
  have h1 : nb.1 = v := congrArg Prod.fst heq
  have h2 : effectiveWeight cst u nb.1 nb.2 = w := congrArg Prod.snd heq
  have hu : u ∈ ["A", "B", "C", "D"] := by
    by_contra hc
    simp only [List.mem_cons, List.mem_singleton] at hc
    push_neg at hc
    obtain ⟨e1, e2, e3, e4⟩ := hc
    rw [scriptGraph] at hnb
    simp [e1, e2, e3, e4] at hnb
  rw [← h1, ← h2]
  exact hall u hu nb hnb

/-! ## Claim C1 -/

/-- C1, counterexample: on nodes {A,B,C,D} with edges A-B(10), A-C(15),
B-C(5), B-D(20), C-D(10), `dijkstra` does NOT return the path
`[A, B, C, D]` with cost 25 that the claim states: the strict-improvement
relaxation keeps the predecessor of `C` at `A` (the alternative through `B`
ties at 15 and is not strictly smaller), so the returned path is
`[A, C, D]`, also of cost 25. -/
theorem claim_C1_counterexample :
    dijkstra abcdNodes exEdges1 "A" "D"
      = .ok (DijkstraResult.found ["A", "C", "D"] (.int 25)) ∧
    dijkstra abcdNodes exEdges1 "A" "D"
      ≠ .ok (DijkstraResult.found ["A", "B", "C", "D"] (.int 25)) := by
  constructor
  · decide
  · decide

/-- C1 (amended): for every well-formed graph with non-negative integer edge
weights in which `dst` is reachable from `src`, `dijkstra` returns a path
whose first element is (upper-cased) `src` and last element is `dst`, whose
reported cost equals the sum of the weights of the traversed edges (the
`Walk` relation), and whose cost is less than or equal to the cost of every
simple path from `src` to `dst`; on the example graph it returns path
`[A, C, D]` (not `[A, B, C, D]`) with cost 25. -/
theorem claim_C1_amended :
    (∀ (nodes : List PyNode) (edges : List PyEdge) (src0 dst0 : String),
      (∀ n ∈ nodes, n.id ≠ none) →
      (∀ e ∈ edges, EdgeOkFor (idsOf nodes) e) →
      (∀ e ∈ edges, ∀ w, e.w = some w → 0 ≤ w) →
      pyUpper src0 ∈ idsOf nodes →
      pyUpper dst0 ∈ idsOf nodes →
      (∃ q cq, Walk (adjOf (edgeTriples edges)) (pyUpper src0) (pyUpper dst0) q cq) →
      ∃ p c, dijkstra nodes edges src0 dst0
          = .ok (DijkstraResult.found p (.int c)) ∧
        p.head? = some (pyUpper src0) ∧ p.getLast? = some (pyUpper dst0) ∧
        Walk (adjOf (edgeTriples edges)) (pyUpper src0) (pyUpper dst0) p c ∧
        ∀ q cq, Walk (adjOf (edgeTriples edges)) (pyUpper src0) (pyUpper dst0) q cq →
          q.Nodup → c ≤ cq) ∧
    dijkstra abcdNodes exEdges1 "A" "D"
      = .ok (DijkstraResult.found ["A", "C", "D"] (.int 25)) := by
  constructor
  · intro nodes edges src0 dst0 hn hE hW hsrc hdst hreach
    obtain ⟨p, c, heq, hhead, hlast, hwalk, hopt⟩ :=
      dijkstra_reachable hn hE hW hsrc hdst hreach
    exact ⟨p, c, heq, hhead, hlast, hwalk, fun q cq hq _ => hopt q cq hq⟩
  · decide

/-- Closed instance of the amended C1 on the example graph, with every
hypothesis discharged concretely. -/
theorem claim_C1_witness :
    ∃ p c, dijkstra abcdNodes exEdges1 "A" "D"
        = .ok (DijkstraResult.found p (.int c)) ∧
      p.head? = some (pyUpper "A") ∧ p.getLast? = some (pyUpper "D") ∧
      Walk (adjOf (edgeTriples exEdges1)) (pyUpper "A") (pyUpper "D") p c ∧
      ∀ q cq, Walk (adjOf (edgeTriples exEdges1)) (pyUpper "A") (pyUpper "D") q cq →
        q.Nodup → c ≤ cq := by
  apply claim_C1_amended.1 abcdNodes exEdges1 "A" "D"
  · decide
  · decide
  · decide
  · decide
  · decide
  · refine ⟨["A", "C", "D"], 25, ?_⟩
    have h1 : pyUpper "A" = "A" := by decide
    have h2 : pyUpper "D" = "D" := by decide
    rw [h1, h2]
    have hw : Walk (adjOf (edgeTriples exEdges1)) "A" "D"
        ((["A"] ++ ["C"]) ++ ["D"]) ((0 + 15) + 10) :=
      Walk.cons (Walk.cons Walk.nil (by decide)) (by decide)
    simpa using hw

/-! ## Claim C4 -/

/-- C4: when the upper-cased `src` (or, `src` being present, the upper-cased
`dst`) is absent from the node identifiers, `dijkstra` returns the
structured `NodeNotFound` result naming the missing identifier (the
missing-node checks precede the adjacency build and the search loop, so no
shortest-path computation happens). -/
theorem claim_C4 :
    ∀ (nodes : List PyNode) (edges : List PyEdge) (src0 dst0 : String),
      (∀ n ∈ nodes, n.id ≠ none) →
      (pyUpper src0 ∉ idsOf nodes →
        dijkstra nodes edges src0 dst0
          = .ok (DijkstraResult.fail (.missingNode (pyUpper src0)))) ∧
      (pyUpper src0 ∈ idsOf nodes → pyUpper dst0 ∉ idsOf nodes →
        dijkstra nodes edges src0 dst0
          = .ok (DijkstraResult.fail (.missingNode (pyUpper dst0)))) := by
  intro nodes edges src0 dst0 hn
  constructor
  · intro h
    rw [dijkstra, getIds_ok hn, Except.ok_bind]
    rw [if_pos h]
    rfl
  · intro hs h
    rw [dijkstra, getIds_ok hn, Except.ok_bind]
    rw [if_neg (not_not_intro hs), if_pos h]
    rfl

/-- Closed instance of C4: both missing-`src` and missing-`dst` on the
example graph. -/
theorem claim_C4_witness :
    dijkstra abcdNodes exEdges1 "Z" "D"
      = .ok (DijkstraResult.fail (.missingNode "Z")) ∧
    dijkstra abcdNodes exEdges1 "A" "Z"
      = .ok (DijkstraResult.fail (.missingNode "Z")) := by
  have hz : pyUpper "Z" = "Z" := by decide
  constructor
  · have := (claim_C4 abcdNodes exEdges1 "Z" "D" (by decide)).1
      (by decide)
    rw [hz] at this
    exact this
  · have := (claim_C4 abcdNodes exEdges1 "A" "Z" (by decide)).2
      (by decide) (by decide)
    rw [hz] at this
    exact this

/-! ## Claim C5 -/

/-- C5: on a well-formed graph with non-negative weights in which `dst`
exists but is not reachable from `src`, `dijkstra` returns a result (not an
exception) whose cost is `+inf` and whose path is `None`. -/
theorem claim_C5 :
    ∀ (nodes : List PyNode) (edges : List PyEdge) (src0 dst0 : String),
      (∀ n ∈ nodes, n.id ≠ none) →
      (∀ e ∈ edges, EdgeOkFor (idsOf nodes) e) →
      (∀ e ∈ edges, ∀ w, e.w = some w → 0 ≤ w) →
      pyUpper src0 ∈ idsOf nodes →
      pyUpper dst0 ∈ idsOf nodes →
      (¬ ∃ q cq,
        Walk (adjOf (edgeTriples edges)) (pyUpper src0) (pyUpper dst0) q cq) →
      ∃ r, dijkstra nodes edges src0 dst0 = .ok r ∧
        r.cost = .inf ∧ r.path = none := by
  intro nodes edges src0 dst0 hn hE hW hsrc hdst hnr
  exact ⟨DijkstraResult.fail .noPath,
    dijkstra_unreachable hn hE hW hsrc hdst hnr, rfl, rfl⟩

/-- Closed instance of C5: with only the edge A-B(1), `D` exists but is
unreachable from `A`. -/
theorem claim_C5_witness :
    ∃ r, dijkstra abcdNodes abOnlyEdges "A" "D" = .ok r ∧
      r.cost = .inf ∧ r.path = none := by
  apply claim_C5 abcdNodes abOnlyEdges "A" "D"
  · decide
  · decide
  · decide
  · decide
  · decide
  · have hA : pyUpper "A" = "A" := by decide
    have hD : pyUpper "D" = "D" := by decide
    rw [hA, hD]
    rintro ⟨q, cq, hw⟩
    have hS : ∀ u ∈ ["A", "B"],
        ∀ nb ∈ adjOf (edgeTriples abOnlyEdges) u, nb.1 ∈ ["A", "B"] := by
      decide
    have := walk_stays hS (by decide) hw
    simp at this

/-- C2: the constrained search uses the override weight for the constrained
ordered pair and the stored weight otherwise; on the script graph the
unconstrained shortest path from `A` to `D` is `[A, B, C, D]` at cost 5
(both as the distance the script computes and as `dijkstra`'s returned
path), and under the A→B:=7 override the best route becomes `[A, C, D]` at
cost 7, which is the distance the constrained script computes. -/
theorem claim_C2 :
    (∀ (cst : String × String → Option Int) (u v : String) (w : Int),
      (cst (u, v) = none → effectiveWeight cst u v w = w) ∧
      (∀ cw, cst (u, v) = some cw → effectiveWeight cst u v w = cw)) ∧
    scriptDijkstra noConstraint "D" = .int 5 ∧
    scriptDijkstra cPrime "D" = .int 7 ∧
    dijkstra abcdNodes exEdges2 "A" "D"
      = .ok (DijkstraResult.found ["A", "B", "C", "D"] (.int 5)) ∧
    Walk (effAdj noConstraint) "A" "D" ["A", "B", "C", "D"] 5 ∧
    (∀ p c, Walk (effAdj noConstraint) "A" "D" p c → 5 ≤ c) ∧
    Walk (effAdj cPrime) "A" "D" ["A", "C", "D"] 7 ∧
    (∀ p c, Walk (effAdj cPrime) "A" "D" p c → 7 ≤ c) := by
  refine ⟨?_, by decide, by decide, by decide, ?_, ?_, ?_, ?_⟩
  · intro cst u v w
    constructor
    · intro h
      rw [effectiveWeight, h]
    · intro cw h
      rw [effectiveWeight, h]
  · have hw : Walk (effAdj noConstraint) "A" "D"
        (((["A"] ++ ["B"]) ++ ["C"]) ++ ["D"]) (((0 + 2) + 1) + 2) :=
      Walk.cons (Walk.cons (Walk.cons Walk.nil (by decide)) (by decide))
        (by decide)
    simpa using hw
  · intro p c hw
    have hedge := effAdj_hedge noConstraint phiPlain (by decide)
    have := Walk.potential_bound phiPlain hedge hw
    have hA : phiPlain "A" = 0 := by decide
    have hD : phiPlain "D" = 5 := by decide
    rw [hA, hD] at this
    omega
  · have hw : Walk (effAdj cPrime) "A" "D"
        ((["A"] ++ ["C"]) ++ ["D"]) ((0 + 5) + 2) :=
      Walk.cons (Walk.cons Walk.nil (by decide)) (by decide)
    simpa using hw
  · intro p c hw
    have hedge := effAdj_hedge cPrime phiCP (by decide)
    have := Walk.potential_bound phiCP hedge hw
    have hA : phiCP "A" = 0 := by decide
    have hD : phiCP "D" = 7 := by decide
    rw [hA, hD] at this
    omega

/-- Closed instance of C2's conditional parts: the override applies to the
ordered pair A→B only (B→A keeps its stored weight), and the two concrete
optimal routes attain the two computed distances. -/
theorem claim_C2_witness :
    effectiveWeight cPrime "A" "B" 2 = 7 ∧
    effectiveWeight cPrime "B" "A" 2 = 2 ∧ 5 ≤ (5 : Int) ∧ 7 ≤ (7 : Int) := by
  refine ⟨?_, ?_, ?_, ?_⟩
  · exact (claim_C2.1 cPrime "A" "B" 2).2 7 (by decide)
  · exact (claim_C2.1 cPrime "B" "A" 2).1 (by decide)
  · exact claim_C2.2.2.2.2.2.1 ["A", "B", "C", "D"] 5 claim_C2.2.2.2.2.1
  · exact claim_C2.2.2.2.2.2.2.2 ["A", "C", "D"] 7 claim_C2.2.2.2.2.2.2.1

/-! ## Claim C10 -/

@[simp] theorem Except.error_bind {ε α β : Type} (e : ε)
    (f : α → Except ε β) : (Except.error e >>= f) = Except.error e := rfl

/-- The `dijkstra`/`color_graph` adjacency build raises `KeyError` as soon as
some edge endpoint is not a dict key. -/
theorem buildAdj_go_err {ids : List String} {edges : List PyEdge}
    (hf : ∀ e ∈ edges, EdgeFieldsOk e)
    (hbad : ∃ e ∈ edges, ∃ u v, e.u = some u ∧ e.v = some v ∧
      (u ∉ ids ∨ v ∉ ids)) :
    ∀ g, ∃ k, List.foldlM (buildAdjStep ids) g edges
      = .error (.keyError k) := by
  induction edges with
  | nil => simp at hbad
  | cons e rest ih =>
    intro g
    obtain ⟨hu0, hv0, hw0⟩ := hf e (by simp)
    obtain ⟨u, hu⟩ : ∃ u, e.u = some u := by
      cases h : e.u
      · exact absurd h hu0
      · exact ⟨_, rfl⟩
    obtain ⟨v, hv⟩ : ∃ v, e.v = some v := by
      cases h : e.v
      · exact absurd h hv0
      · exact ⟨_, rfl⟩
    obtain ⟨w, hw⟩ : ∃ w, e.w = some w := by
      cases h : e.w
      · exact absurd h hw0
      · exact ⟨_, rfl⟩
    by_cases hui : u ∈ ids
    · by_cases hvi : v ∈ ids
      · have hstep : buildAdjStep ids g e
            = .ok (upd (upd g u (g u ++ [(v, w)])) v
                ((upd g u (g u ++ [(v, w)])) v ++ [(u, w)])) := by
          simp only [buildAdjStep, PyEdge.getU, PyEdge.getV, PyEdge.getW,
            hu, hv, hw]
          show (if u ∈ ids then _ else _) = _
          rw [if_pos hui]
          show (if v ∈ ids then _ else _) = _
          rw [if_pos hvi]
          rfl
        have hbad' : ∃ e' ∈ rest, ∃ u' v', e'.u = some u' ∧ e'.v = some v' ∧
            (u' ∉ ids ∨ v' ∉ ids) := by
          obtain ⟨e', he', u', v', hu', hv', hor⟩ := hbad
          rcases List.mem_cons.mp he' with rfl | he'
          · rw [hu] at hu'
            rw [hv] at hv'
            injection hu' with h1
            injection hv' with h2
            subst h1
            subst h2
            rcases hor with h | h
            · exact absurd hui h
            · exact absurd hvi h
          · exact ⟨e', he', u', v', hu', hv', hor⟩
        rw [List.foldlM_cons, hstep, Except.ok_bind]
        exact ih (fun e' h => hf e' (by simp [h])) hbad' _
      · refine ⟨v, ?_⟩
        have hstep : buildAdjStep ids g e = .error (.keyError v) := by
          simp only [buildAdjStep, PyEdge.getU, PyEdge.getV, PyEdge.getW,
            hu, hv, hw]
          show (if u ∈ ids then _ else _) = _
          rw [if_pos hui]
          show (if v ∈ ids then _ else _) = _
          rw [if_neg hvi]
          rfl
        rw [List.foldlM_cons, hstep, Except.error_bind]
    · refine ⟨u, ?_⟩
      have hstep : buildAdjStep ids g e = .error (.keyError u) := by
        simp only [buildAdjStep, PyEdge.getU, hu]
        show (if u ∈ ids then _ else _) = _
        rw [if_neg hui]
        rfl
      rw [List.foldlM_cons, hstep, Except.error_bind]

/-- Same for the `color_graph` build. -/
theorem buildAdjColor_go_err {ids : List String} {edges : List PyEdge}
    (hf : ∀ e ∈ edges, e.u ≠ none ∧ e.v ≠ none)
    (hbad : ∃ e ∈ edges, ∃ u v, e.u = some u ∧ e.v = some v ∧
      (u ∉ ids ∨ v ∉ ids)) :
    ∀ g, ∃ k, List.foldlM (buildAdjColorStep ids) g edges
      = .error (.keyError k) := by
  induction edges with
  | nil => simp at hbad
  | cons e rest ih =>
    intro g
    obtain ⟨hu0, hv0⟩ := hf e (by simp)
    obtain ⟨u, hu⟩ : ∃ u, e.u = some u := by
      cases h : e.u
      · exact absurd h hu0
      · exact ⟨_, rfl⟩
    obtain ⟨v, hv⟩ : ∃ v, e.v = some v := by
      cases h : e.v
      · exact absurd h hv0
      · exact ⟨_, rfl⟩
    by_cases hui : u ∈ ids
    · by_cases hvi : v ∈ ids
      · have hstep : buildAdjColorStep ids g e
            = .ok (upd (upd g u (if v ∈ g u then g u else g u ++ [v])) v
                (if u ∈ (upd g u (if v ∈ g u then g u else g u ++ [v])) v
                 then (upd g u (if v ∈ g u then g u else g u ++ [v])) v
                 else (upd g u (if v ∈ g u then g u else g u ++ [v])) v ++ [u])) := by
          simp only [buildAdjColorStep, PyEdge.getU, PyEdge.getV, hu, hv]
          show (if u ∈ ids then _ else _) = _
          rw [if_pos hui]
          show (if v ∈ ids then _ else _) = _
          rw [if_pos hvi]
          rfl
        have hbad' : ∃ e' ∈ rest, ∃ u' v', e'.u = some u' ∧ e'.v = some v' ∧
            (u' ∉ ids ∨ v' ∉ ids) := by
          obtain ⟨e', he', u', v', hu', hv', hor⟩ := hbad
          rcases List.mem_cons.mp he' with rfl | he'
          · rw [hu] at hu'
            rw [hv] at hv'
            injection hu' with h1
            injection hv' with h2
            subst h1
            subst h2
            rcases hor with h | h
            · exact absurd hui h
            · exact absurd hvi h
          · exact ⟨e', he', u', v', hu', hv', hor⟩
        rw [List.foldlM_cons, hstep, Except.ok_bind]
        exact ih (fun e' h => hf e' (by simp [h])) hbad' _
      · refine ⟨v, ?_⟩
        have hstep : buildAdjColorStep ids g e = .error (.keyError v) := by
          simp only [buildAdjColorStep, PyEdge.getU, PyEdge.getV, hu, hv]
          show (if u ∈ ids then _ else _) = _
          rw [if_pos hui]
          show (if v ∈ ids then _ else _) = _
          rw [if_neg hvi]
          rfl
        rw [List.foldlM_cons, hstep, Except.error_bind]
    · refine ⟨u, ?_⟩
      have hstep : buildAdjColorStep ids g e = .error (.keyError u) := by
        simp only [buildAdjColorStep, PyEdge.getU, hu]
        show (if u ∈ ids then _ else _) = _
        rw [if_neg hui]
        rfl
      rw [List.foldlM_cons, hstep, Except.error_bind]

/-- The skip-builds are unchanged by dropping the edges they skip. -/
theorem buildAdjSkipW_filter {ids : List String} {edges : List PyEdge}
    (hf : ∀ e ∈ edges, EdgeFieldsOk e) :
    ∀ g, List.foldlM (buildAdjSkipWStep ids) g edges
      = List.foldlM (buildAdjSkipWStep ids) g
          (edges.filter (edgeOkb ids)) := by
  induction edges with
  | nil => intro g; rfl
  | cons e rest ih =>
    intro g
    obtain ⟨hu0, hv0, hw0⟩ := hf e (by simp)
    obtain ⟨u, hu⟩ : ∃ u, e.u = some u := by
      cases h : e.u
      · exact absurd h hu0
      · exact ⟨_, rfl⟩
    obtain ⟨v, hv⟩ : ∃ v, e.v = some v := by
      cases h : e.v
      · exact absurd h hv0
      · exact ⟨_, rfl⟩
    obtain ⟨w, hw⟩ : ∃ w, e.w = some w := by
      cases h : e.w
      · exact absurd h hw0
      · exact ⟨_, rfl⟩
    have ihr := ih (fun e' h => hf e' (by simp [h]))
    by_cases hui : u ∈ ids
    · by_cases hvi : v ∈ ids
      · have hok : edgeOkb ids e = true := by
          simp [edgeOkb, hu, hv, hw, hui, hvi]
        have hstep : buildAdjSkipWStep ids g e
            = .ok (upd (upd g u (g u ++ [(v, w)])) v
                ((upd g u (g u ++ [(v, w)])) v ++ [(u, w)])) := by
          simp only [buildAdjSkipWStep, PyEdge.getU, PyEdge.getV, PyEdge.getW,
            hu, hv, hw]
          show (if u ∈ ids then _ else _) = _
          rw [if_pos hui]
          show (if v ∈ ids then _ else _) = _
          rw [if_pos hvi]
          rfl
        rw [List.foldlM_cons, hstep, Except.ok_bind,
          List.filter_cons_of_pos hok, List.foldlM_cons, hstep,
          Except.ok_bind]
        exact ihr _
      · have hok : edgeOkb ids e = false := by
          simp [edgeOkb, hu, hv, hw, hvi]
        have hstep : buildAdjSkipWStep ids g e = .ok g := by
          simp only [buildAdjSkipWStep, PyEdge.getU, PyEdge.getV, hu, hv]
          show (if u ∈ ids then _ else _) = _
          rw [if_pos hui]
          show (if v ∈ ids then _ else _) = _
          rw [if_neg hvi]
          rfl
        rw [List.foldlM_cons, hstep, Except.ok_bind,
          List.filter_cons_of_neg (by simp [hok])]
        exact ihr _
    · have hok : edgeOkb ids e = false := by
        simp [edgeOkb, hu, hv, hw, hui]
      have hstep : buildAdjSkipWStep ids g e = .ok g := by
        simp only [buildAdjSkipWStep, PyEdge.getU, hu]
        show (if u ∈ ids then _ else _) = _
        rw [if_neg hui]
        rfl
      rw [List.foldlM_cons, hstep, Except.ok_bind,
        List.filter_cons_of_neg (by simp [hok])]
      exact ihr _

/-- Same statement for the unweighted connectivity build of
`validate_graph`. -/
theorem buildAdjSkipU_filter {ids : List String} {edges : List PyEdge}
    (hf : ∀ e ∈ edges, EdgeFieldsOk e) :
    ∀ g, List.foldlM (buildAdjSkipUStep ids) g edges
      = List.foldlM (buildAdjSkipUStep ids) g
          (edges.filter (edgeOkb ids)) := by
  induction edges with
  | nil => intro g; rfl
  | cons e rest ih =>
    intro g
    obtain ⟨hu0, hv0, hw0⟩ := hf e (by simp)
    obtain ⟨u, hu⟩ : ∃ u, e.u = some u := by
      cases h : e.u
      · exact absurd h hu0
      · exact ⟨_, rfl⟩
    obtain ⟨v, hv⟩ : ∃ v, e.v = some v := by
      cases h : e.v
      · exact absurd h hv0
      · exact ⟨_, rfl⟩
    obtain ⟨w, hw⟩ : ∃ w, e.w = some w := by
      cases h : e.w
      · exact absurd h hw0
      · exact ⟨_, rfl⟩
    have ihr := ih (fun e' h => hf e' (by simp [h]))
    by_cases hui : u ∈ ids
    · by_cases hvi : v ∈ ids
      · have hok : edgeOkb ids e = true := by
          simp [edgeOkb, hu, hv, hw, hui, hvi]
        have hstep : buildAdjSkipUStep ids g e
            = .ok (upd (upd g u (g u ++ [v])) v
                ((upd g u (g u ++ [v])) v ++ [u])) := by
          simp only [buildAdjSkipUStep, PyEdge.getU, PyEdge.getV, hu, hv]
          show (if u ∈ ids then _ else _) = _
          rw [if_pos hui]
          show (if v ∈ ids then _ else _) = _
          rw [if_pos hvi]
          rfl
        rw [List.foldlM_cons, hstep, Except.ok_bind,
          List.filter_cons_of_pos hok, List.foldlM_cons, hstep,
          Except.ok_bind]
        exact ihr _
      · have hok : edgeOkb ids e = false := by
          simp [edgeOkb, hu, hv, hw, hvi]
        have hstep : buildAdjSkipUStep ids g e = .ok g := by
          simp only [buildAdjSkipUStep, PyEdge.getU, PyEdge.getV, hu, hv]
          show (if u ∈ ids then _ else _) = _
          rw [if_pos hui]
          show (if v ∈ ids then _ else _) = _
          rw [if_neg hvi]
          rfl
        rw [List.foldlM_cons, hstep, Except.ok_bind,
          List.filter_cons_of_neg (by simp [hok])]
        exact ihr _
    · have hok : edgeOkb ids e = false := by
        simp [edgeOkb, hu, hv, hw, hui]
      have hstep : buildAdjSkipUStep ids g e = .ok g := by
        simp only [buildAdjSkipUStep, PyEdge.getU, hu]
        show (if u ∈ ids then _ else _) = _
        rw [if_neg hui]
        rfl
      rw [List.foldlM_cons, hstep, Except.ok_bind,
        List.filter_cons_of_neg (by simp [hok])]
      exact ihr _

/-- C10: when some edge references an identifier absent from the node list
(and `src`, `dst` are present), `dijkstra` and `color_graph` raise an
unhandled `KeyError` while building their adjacency structures instead of
returning a structured result, whereas `find_all_paths` behaves exactly as
on the edge list with such edges dropped, and the connectivity adjacency
build of `validate_graph` (`buildAdjSkipU`) likewise ignores them. -/
theorem claim_C10 :
    ∀ (nodes : List PyNode) (edges : List PyEdge) (src0 dst0 : String)
      (maxPaths : Nat),
      (∀ n ∈ nodes, n.id ≠ none) →
      (∀ e ∈ edges, EdgeFieldsOk e) →
      (∃ e ∈ edges, ∃ u v, e.u = some u ∧ e.v = some v ∧
        (u ∉ idsOf nodes ∨ v ∉ idsOf nodes)) →
      pyUpper src0 ∈ idsOf nodes →
      pyUpper dst0 ∈ idsOf nodes →
      (∃ k, dijkstra nodes edges src0 dst0 = .error (.keyError k)) ∧
      (∃ k, color_graph nodes edges = .error (.keyError k)) ∧
      find_all_paths nodes edges src0 dst0 maxPaths
        = find_all_paths nodes (edges.filter (edgeOkb (idsOf nodes)))
            src0 dst0 maxPaths ∧
      ∀ keys, buildAdjSkipU keys edges
        = buildAdjSkipU keys (edges.filter (edgeOkb keys)) := by
  intro nodes edges src0 dst0 maxPaths hn hf hbad hsrc hdst
  refine ⟨?_, ?_, ?_, ?_⟩
  · obtain ⟨k, hk⟩ := buildAdj_go_err hf hbad
      (fun _ => ([] : List (String × Int)))
    refine ⟨k, ?_⟩
    rw [dijkstra, getIds_ok hn, Except.ok_bind]
    rw [if_neg (not_not_intro hsrc), if_neg (not_not_intro hdst)]
    simp only [Except.pure_eq_ok, Except.ok_bind]
    show (buildAdj (idsOf nodes) edges >>= _) = _
    rw [buildAdj]
    rw [hk]
    rfl
  · obtain ⟨k, hk⟩ := buildAdjColor_go_err
      (fun e he => ⟨(hf e he).1, (hf e he).2.1⟩) hbad
      (fun _ => ([] : List String))
    refine ⟨k, ?_⟩
    rw [color_graph, getIds_ok hn, Except.ok_bind]
    show (buildAdjColor (idsOf nodes) edges >>= _) = _
    rw [buildAdjColor]
    rw [hk]
    rfl
  · have hbuild : buildAdjSkipW (idsOf nodes) edges
        = buildAdjSkipW (idsOf nodes)
            (edges.filter (edgeOkb (idsOf nodes))) :=
      buildAdjSkipW_filter hf (fun _ => [])
    rw [find_all_paths, find_all_paths, getIds_ok hn]
    simp only [Except.ok_bind]
    rw [show buildAdjSkipW (idsOf nodes) edges
        = buildAdjSkipW (idsOf nodes)
            (edges.filter (edgeOkb (idsOf nodes))) from hbuild]
  · intro keys
    exact buildAdjSkipU_filter hf (fun _ => [])

/-- Closed instance of C10 on the example: edge A-Z references the missing
node `Z`. -/
theorem claim_C10_witness :
    (∃ k, dijkstra abcdNodes abzEdges "A" "B" = .error (.keyError k)) ∧
    (∃ k, color_graph abcdNodes abzEdges = .error (.keyError k)) ∧
    find_all_paths abcdNodes abzEdges "A" "B" 10
      = find_all_paths abcdNodes
          (abzEdges.filter (edgeOkb (idsOf abcdNodes))) "A" "B" 10 ∧
    ∀ keys, buildAdjSkipU keys abzEdges
      = buildAdjSkipU keys (abzEdges.filter (edgeOkb keys)) := by
  apply claim_C10 abcdNodes abzEdges "A" "B" 10
  · decide
  · decide
  · exact ⟨⟨some "A", some "Z", some 1⟩, by decide, "A", "Z", rfl, rfl,
      Or.inr (by decide)⟩
  · decide
  · decide

theorem mem_insert_list {x a : String} {l : List String} :
    x ∈ (if a ∈ l then l else l ++ [a]) ↔ x ∈ l ∨ x = a := by
  split
  · constructor
    · exact fun h => Or.inl h
    · rintro (h | rfl)
      · exact h
      · assumption
  · simp

theorem cAdjStep_mem {g : String → List String} {p : String × String}
    {x y : String} :
    x ∈ cAdjStep g p y ↔
      x ∈ g y ∨ (y = p.1 ∧ x = p.2) ∨ (y = p.2 ∧ x = p.1) := by
  obtain ⟨u, v⟩ := p
  by_cases hyv : y = v <;> by_cases hyu : y = u <;>
    simp_all [cAdjStep, upd, mem_insert_list] <;> tauto

theorem foldl_cAdjStep_mem (ps : List (String × String)) :
    ∀ (g : String → List String) (x y : String),
      x ∈ ps.foldl cAdjStep g y ↔ x ∈ g y ∨ (y, x) ∈ ps ∨ (x, y) ∈ ps := by
  induction ps with
  | nil => simp
  | cons p rest ih =>
    intro g x y
    simp only [List.foldl_cons, ih, cAdjStep_mem, List.mem_cons]
    obtain ⟨u, v⟩ := p
    simp only [Prod.mk.injEq]
    tauto

theorem cAdjOf_mem {ps : List (String × String)} {x y : String} :
    x ∈ cAdjOf ps y ↔ (y, x) ∈ ps ∨ (x, y) ∈ ps := by
  rw [cAdjOf, foldl_cAdjStep_mem]
  simp

theorem edgePairs_of_edge {edges : List PyEdge} {e : PyEdge} {u v : String}
    (he : e ∈ edges) (hu : e.u = some u) (hv : e.v = some v) :
    (u, v) ∈ edgePairs edges := by
  rw [edgePairs, List.mem_filterMap]
  exact ⟨e, he, by simp [hu, hv]⟩

theorem buildAdjColor_go {ids : List String} {edges : List PyEdge}
    (h : ∀ e ∈ edges, EdgeUVOk ids e) :
    ∀ ps0 : List (String × String),
      List.foldlM (buildAdjColorStep ids) (cAdjOf ps0) edges
      = .ok (cAdjOf (ps0 ++ edgePairs edges)) := by
  induction edges with
  | nil =>
    intro ps0
    simp [edgePairs]
  | cons e rest ih =>
    intro ps0
    obtain ⟨u, v, hu, hv, hui, hvi⟩ := h e (by simp)
    have ihr := ih (fun e' he' => h e' (by simp [he'])) (ps0 ++ [(u, v)])
    have hstep : buildAdjColorStep ids (cAdjOf ps0) e
        = .ok (cAdjOf (ps0 ++ [(u, v)])) := by
      have hadj : cAdjOf (ps0 ++ [(u, v)]) = cAdjStep (cAdjOf ps0) (u, v) := by
        simp [cAdjOf]
      rw [hadj]
      simp only [buildAdjColorStep, PyEdge.getU, PyEdge.getV, hu, hv]
      show (if u ∈ ids then _ else _) = _
      rw [if_pos hui]
      show (if v ∈ ids then _ else _) = _
      rw [if_pos hvi]
      rfl
    rw [List.foldlM_cons, hstep, Except.ok_bind]
    show List.foldlM (buildAdjColorStep ids) (cAdjOf (ps0 ++ [(u, v)])) rest = _
    rw [ihr]
    simp [edgePairs, List.filterMap_cons, hu, hv]

theorem buildAdjColor_ok {ids : List String} {edges : List PyEdge}
    (h : ∀ e ∈ edges, EdgeUVOk ids e) :
    buildAdjColor ids edges = .ok (cAdjOf (edgePairs edges)) := by
  have := buildAdjColor_go h ([] : List (String × String))
  simpa [buildAdjColor, cAdjOf] using this

/-- A colour of a coloured neighbour is always in the used set. -/
theorem mem_usedColors {adj : String → List String}
    {colors : String → Option String} {n v : String} {l : String}
    (hv : v ∈ adj n) (hc : colors v = some l) :
    l ∈ usedColors adj colors n :=
  List.mem_filterMap.mpr ⟨v, hv, hc⟩

theorem assignNode_colorInv {adj : String → List String}
    {colors : String → Option String} {n : String}
    (hsym : ∀ u v, v ∈ adj u → u ∈ adj v)
    (hinv : ColorInv adj colors) : ColorInv adj (assignNode adj colors n) := by
  cases hfind : colorDays.find?
      (fun d => decide (d ∉ usedColors adj colors n)) with
  | some d =>
    have hass : assignNode adj colors n = upd colors n (some d) := by
      rw [assignNode, hfind]
    rw [hass]
    have hd : d ∉ usedColors adj colors n := by
      have := List.find?_some hfind
      simpa using this
    intro u v huv hne l hu hv
    by_cases hun : u = n
    · subst hun
      rw [upd_self] at hu
      injection hu with hud
      subst hud
      have hvn : v ≠ u := Ne.symm hne
      rw [upd_ne _ _ hvn] at hv
      exact absurd (mem_usedColors huv hv) hd
    · rw [upd_ne _ _ hun] at hu
      by_cases hvn : v = n
      · subst hvn
        rw [upd_self] at hv
        injection hv with hvd
        subst hvd
        exact absurd (mem_usedColors (hsym u v huv) hu) hd
      · rw [upd_ne _ _ hvn] at hv
        exact hinv u v huv hne l hu hv
  | none =>
    have hass : assignNode adj colors n
        = if colors n = none then upd colors n (some "Weekend") else colors := by
      rw [assignNode, hfind]
    rw [hass]
    by_cases hcn : colors n = none
    · rw [if_pos hcn]
      intro u v huv hne l hu hv
      by_cases hun : u = n
      · subst hun
        rw [upd_self] at hu
        injection hu with hud
        exact hud.symm
      · rw [upd_ne _ _ hun] at hu
        by_cases hvn : v = n
        · subst hvn
          rw [upd_self] at hv
          injection hv with hvd
          exact hvd.symm
        · rw [upd_ne _ _ hvn] at hv
          exact hinv u v huv hne l hu hv
    · rw [if_neg hcn]
      exact hinv

/-- `assignNode` never removes a colour and always colours its node. -/
theorem assignNode_some {adj : String → List String}
    {colors : String → Option String} {n : String} :
    assignNode adj colors n n ≠ none ∧
      ∀ x, colors x ≠ none → assignNode adj colors n x ≠ none := by
  cases hfind : colorDays.find?
      (fun d => decide (d ∉ usedColors adj colors n)) with
  | some d =>
    have hass : assignNode adj colors n = upd colors n (some d) := by
      rw [assignNode, hfind]
    rw [hass]
    refine ⟨by rw [upd_self]; simp, ?_⟩
    intro x hx
    by_cases hxn : x = n
    · subst hxn
      rw [upd_self]
      simp
    · rw [upd_ne _ _ hxn]
      exact hx
  | none =>
    have hass : assignNode adj colors n
        = if colors n = none then upd colors n (some "Weekend") else colors := by
      rw [assignNode, hfind]
    rw [hass]
    by_cases hcn : colors n = none
    · rw [if_pos hcn]
      refine ⟨by rw [upd_self]; simp, ?_⟩
      intro x hx
      by_cases hxn : x = n
      · subst hxn
        rw [upd_self]
        simp
      · rw [upd_ne _ _ hxn]
        exact hx
    · rw [if_neg hcn]
      exact ⟨hcn, fun x hx => hx⟩

theorem foldl_assignNode_colorInv {adj : String → List String}
    (hsym : ∀ u v, v ∈ adj u → u ∈ adj v) :
    ∀ (ids : List String) (colors : String → Option String),
      ColorInv adj colors → ColorInv adj (ids.foldl (assignNode adj) colors) := by
  intro ids
  induction ids with
  | nil => intro colors h; exact h
  | cons n rest ih =>
    intro colors h
    exact ih (assignNode adj colors n) (assignNode_colorInv hsym h)

theorem foldl_assignNode_some {adj : String → List String} :
    ∀ (ids : List String) (colors : String → Option String) (x : String),
      (x ∈ ids ∨ colors x ≠ none) →
      (ids.foldl (assignNode adj) colors) x ≠ none := by
  intro ids
  induction ids with
  | nil =>
    intro colors x hx
    rcases hx with h | h
    · simp at h
    · exact h
  | cons n rest ih =>
    intro colors x hx
    rcases hx with h | h
    · rcases List.mem_cons.mp h with rfl | h
      · exact ih _ x (Or.inr (assignNode_some).1)
      · exact ih _ x (Or.inl h)
    · exact ih _ x (Or.inr ((assignNode_some).2 x h))

/-- C3: on every graph whose edges join existing nodes, `color_graph`
assigns a label to every node, and two distinct nodes joined by a direct
edge never receive the same label unless that label is the `"Weekend"`
fallback (which the greedy pass may share once a node's neighbours exhaust
all six labels). -/
theorem claim_C3 :
    ∀ (nodes : List PyNode) (edges : List PyEdge),
      (∀ n ∈ nodes, n.id ≠ none) →
      (∀ e ∈ edges, EdgeUVOk (idsOf nodes) e) →
      ∃ colors, color_graph nodes edges = .ok colors ∧
        (∀ n ∈ nodes, ∀ i, n.id = some i → colors i ≠ none) ∧
        (∀ e ∈ edges, ∀ u v, e.u = some u → e.v = some v → u ≠ v →
          ∀ l, colors u = some l → colors v = some l → l = "Weekend") := by
  intro nodes edges hn hE
  have hsym : ∀ u v, v ∈ cAdjOf (edgePairs edges) u →
      u ∈ cAdjOf (edgePairs edges) v := by
    intro u v h
    rw [cAdjOf_mem] at h ⊢
    tauto
  refine ⟨(idsOf nodes).foldl (assignNode (cAdjOf (edgePairs edges)))
    (fun _ => none), ?_, ?_, ?_⟩
  · rw [color_graph, getIds_ok hn, Except.ok_bind,
      buildAdjColor_ok hE, Except.ok_bind]
    rfl
  · intro n hnn i hi
    apply foldl_assignNode_some
    left
    rw [idsOf, List.mem_filterMap]
    exact ⟨n, hnn, hi⟩
  · intro e he u v hu hv hne l hcu hcv
    have hadj : v ∈ cAdjOf (edgePairs edges) u :=
      cAdjOf_mem.mpr (Or.inl (edgePairs_of_edge he hu hv))
    exact foldl_assignNode_colorInv hsym (idsOf nodes) (fun _ => none)
      (fun u v _ _ l hu _ => by simp at hu) u v hadj hne l hcu hcv

/-! ## Claims C6 and C7 -/

theorem nodup_concat {l : List String} {a : String} (h : l.Nodup)
    (ha : a ∉ l) : (l ++ [a]).Nodup :=
  (List.nodup_append).mpr ⟨h, List.nodup_singleton a,
    fun x hx hxa => ha ((List.mem_singleton.mp hxa) ▸ hx)⟩

theorem insertByCost_perm (x : List String × Int)
    (l : List (List String × Int)) :
    List.Perm (insertByCost x l) (x :: l) := by
  induction l with
  | nil => rfl
  | cons y ys ih =>
    rw [insertByCost]
    split
    · rfl
    · exact (List.Perm.cons y ih).trans (List.Perm.swap x y ys)

theorem sortByCost_perm (l : List (List String × Int)) :
    List.Perm (sortByCost l) l := by
  induction l with
  | nil => rfl
  | cons x xs ih =>
    exact (insertByCost_perm x (sortByCost xs)).trans (List.Perm.cons x ih)

theorem insertByCost_sorted {x : List String × Int}
    {l : List (List String × Int)}
    (h : l.Pairwise (fun a b => a.2 ≤ b.2)) :
    (insertByCost x l).Pairwise (fun a b => a.2 ≤ b.2) := by
  induction l with
  | nil => simp [insertByCost]
  | cons y ys ih =>
    rw [insertByCost]
    rcases List.pairwise_cons.mp h with ⟨hy, hys⟩
    split
    case isTrue hlt =>
      refine List.pairwise_cons.mpr ⟨?_, h⟩
      intro z hz
      rcases List.mem_cons.mp hz with rfl | hz
      · omega
      · have := hy z hz
        omega
    case isFalse hge =>
      refine List.pairwise_cons.mpr ⟨?_, ih hys⟩
      intro z hz
      have hz' := (insertByCost_perm x ys).mem_iff.mp hz
      rcases List.mem_cons.mp hz' with rfl | hz'
      · omega
      · exact hy z hz'

theorem sortByCost_sorted (l : List (List String × Int)) :
    (sortByCost l).Pairwise (fun a b => a.2 ≤ b.2) := by
  induction l with
  | nil => simp [sortByCost]
  | cons x xs ih => exact insertByCost_sorted ih

theorem edgeOkb_iff {ids : List String} {e : PyEdge} :
    edgeOkb ids e = true ↔ EdgeOkFor ids e := by
  cases hu : e.u <;> cases hv : e.v <;> cases hw : e.w <;>
    simp [edgeOkb, EdgeOkFor, hu, hv, hw]

/-- On fully valid edges the skip-build behaves as the strict build. -/
theorem buildAdjSkipW_go_valid {ids : List String} {edges : List PyEdge}
    (h : ∀ e ∈ edges, EdgeOkFor ids e) :
    ∀ ts0 : List (String × String × Int),
      List.foldlM (buildAdjSkipWStep ids) (adjOf ts0) edges
      = .ok (adjOf (ts0 ++ edgeTriples edges)) := by
  induction edges with
  | nil =>
    intro ts0
    simp [edgeTriples]
  | cons e rest ih =>
    intro ts0
    obtain ⟨u, v, w, hu, hv, hw, hui, hvi⟩ := h e (by simp)
    have ihr := ih (fun e' he' => h e' (by simp [he'])) (ts0 ++ [(u, v, w)])
    have hstep : buildAdjSkipWStep ids (adjOf ts0) e
        = .ok (adjOf (ts0 ++ [(u, v, w)])) := by
      have hadj : adjOf (ts0 ++ [(u, v, w)]) = adjStep (adjOf ts0) (u, v, w) := by
        simp [adjOf]
      rw [hadj]
      simp only [buildAdjSkipWStep, PyEdge.getU, PyEdge.getV, PyEdge.getW,
        hu, hv, hw]
      show (if u ∈ ids then _ else _) = _
      rw [if_pos hui]
      show (if v ∈ ids then _ else _) = _
      rw [if_pos hvi]
      rfl
    rw [List.foldlM_cons, hstep, Except.ok_bind]
    show List.foldlM (buildAdjSkipWStep ids) (adjOf (ts0 ++ [(u, v, w)])) rest = _
    rw [ihr]
    simp [edgeTriples, List.filterMap_cons, hu, hv, hw]

theorem buildAdjSkipW_ok {ids : List String} {edges : List PyEdge}
    (hf : ∀ e ∈ edges, EdgeFieldsOk e) :
    buildAdjSkipW ids edges
      = .ok (adjOf (edgeTriples (edges.filter (edgeOkb ids)))) := by
  rw [buildAdjSkipW, buildAdjSkipW_filter hf]
  have hvalid : ∀ e ∈ edges.filter (edgeOkb ids), EdgeOkFor ids e := by
    intro e he
    exact edgeOkb_iff.mp (List.of_mem_filter he)
  have := buildAdjSkipW_go_valid hvalid ([] : List (String × String × Int))
  simpa [adjOf] using this

/-- Every entry the `dfs` of `find_all_paths` ever appends is good. -/
theorem dfsPaths_good {adj : String → List (String × Int)} {src dst : String}
    {maxPaths : Nat} :
    ∀ (fuel : Nat) (current : String) (visited path : List String)
      (cost : Int) (acc : List (List String × Int)),
      (∀ pr ∈ acc, GoodEntry adj src dst pr) →
      (∀ x, x ∈ visited ↔ x ∈ path) →
      Walk adj src current (path ++ [current]) cost →
      (path ++ [current]).Nodup →
      ∀ pr ∈ dfsPaths adj dst maxPaths fuel current visited path cost acc,
        GoodEntry adj src dst pr := by
  intro fuel
  induction fuel with
  | zero =>
    intro current visited path cost acc hacc _ _ _
    exact hacc
  | succ fuel ih =>
    intro current visited path cost acc hacc hvp hwalk hnd
    rw [dfsPaths]
    by_cases hcur : current = dst
    · rw [if_pos hcur]
      intro pr hpr
      rcases List.mem_append.mp hpr with h | h
      · exact hacc pr h
      · rcases List.mem_singleton.mp h with rfl
        exact ⟨hcur ▸ hwalk, hnd⟩
    · rw [if_neg hcur]
      by_cases hcap : maxPaths ≤ acc.length
      · rw [if_pos hcap]
        exact hacc
      · rw [if_neg hcap]
        simp only
        have haux : ∀ (nbrs : List (String × Int)),
            (∀ nb ∈ nbrs, nb ∈ adj current) →
            ∀ acc2, (∀ pr ∈ acc2, GoodEntry adj src dst pr) →
            ∀ pr ∈ nbrs.foldl
              (fun acc2 nbw =>
                if nbw.1 ∈ visited ++ [current] then acc2
                else dfsPaths adj dst maxPaths fuel nbw.1
                  (visited ++ [current]) (path ++ [current])
                  (cost + nbw.2) acc2)
              acc2,
              GoodEntry adj src dst pr := by
          intro nbrs
          induction nbrs with
          | nil =>
            intro _ acc2 hacc2
            exact hacc2
          | cons nb rest ihn =>
            intro hsub acc2 hacc2
            rw [List.foldl_cons]
            apply ihn (fun nb' h => hsub nb' (by simp [h]))
            by_cases hmem : nb.1 ∈ visited ++ [current]
            · rw [if_pos hmem]
              exact hacc2
            · rw [if_neg hmem]
              have hnbmem : nb.1 ∉ path ++ [current] := by
                intro hx
                rcases List.mem_append.mp hx with hx | hx
                · exact hmem (List.mem_append.mpr
                    (Or.inl ((hvp nb.1).mpr hx)))
                · exact hmem (List.mem_append.mpr (Or.inr hx))
              apply ih nb.1 (visited ++ [current]) (path ++ [current])
                (cost + nb.2) acc2 hacc2
              · intro x
                simp only [List.mem_append, List.mem_singleton, hvp x]
              · exact hwalk.cons (hsub nb (by simp))
              · exact nodup_concat hnd hnbmem
        exact haux (adj current) (fun nb h => h) acc hacc

/-- C7: with `src = dst` present in the graph (and a positive path cap),
`find_all_paths` returns exactly the single-node path of cost 0. -/
theorem claim_C7 :
    ∀ (nodes : List PyNode) (edges : List PyEdge) (src0 : String)
      (maxPaths : Nat),
      (∀ n ∈ nodes, n.id ≠ none) →
      (∀ e ∈ edges, EdgeFieldsOk e) →
      pyUpper src0 ∈ idsOf nodes →
      1 ≤ maxPaths →
      find_all_paths nodes edges src0 src0 maxPaths
        = .ok [([pyUpper src0], 0)] := by
  intro nodes edges src0 maxPaths hn hf hsrc hm
  rw [find_all_paths, getIds_ok hn, Except.ok_bind, buildAdjSkipW_ok hf,
    Except.ok_bind]
  rw [if_neg (by simp [hsrc])]
  have hdfs : dfsPaths (adjOf (edgeTriples (edges.filter
        (edgeOkb (idsOf nodes))))) (pyUpper src0) maxPaths
      (nodes.length + 1) (pyUpper src0) [] [] 0 []
      = [([pyUpper src0], 0)] := by
    rw [dfsPaths, if_pos rfl]
    rfl
  rw [hdfs]
  match maxPaths, hm with
  | m + 1, _ =>
    simp [sortByCost, insertByCost]

/-- Closed instance of C7 on the example graph. -/
theorem claim_C7_witness :
    find_all_paths abcdNodes exEdges2 "A" "A" 10 = .ok [(["A"], 0)] := by
  have := claim_C7 abcdNodes exEdges2 "A" 10 (by decide) (by decide)
    (by decide) (by decide)
  have hA : pyUpper "A" = "A" := by decide
  rw [hA] at this
  exact this

/-- C6: `find_all_paths` returns at most `maxPaths` entries (the source
default is 10), sorted ascending by cost, and every entry is a simple path
from (upper-cased) `src` to `dst` over the skip-built adjacency whose cost
is the sum of its traversed edge weights. -/
theorem claim_C6 :
    ∀ (nodes : List PyNode) (edges : List PyEdge) (src0 dst0 : String)
      (maxPaths : Nat),
      (∀ n ∈ nodes, n.id ≠ none) →
      (∀ e ∈ edges, EdgeFieldsOk e) →
      ∃ res, find_all_paths nodes edges src0 dst0 maxPaths = .ok res ∧
        res.length ≤ maxPaths ∧
        res.Pairwise (fun a b => a.2 ≤ b.2) ∧
        ∀ pr ∈ res, pr.1.head? = some (pyUpper src0) ∧
          pr.1.getLast? = some (pyUpper dst0) ∧ pr.1.Nodup ∧
          Walk (adjOf (edgeTriples (edges.filter (edgeOkb (idsOf nodes)))))
            (pyUpper src0) (pyUpper dst0) pr.1 pr.2 := by
  intro nodes edges src0 dst0 maxPaths hn hf
  rw [find_all_paths, getIds_ok hn, Except.ok_bind, buildAdjSkipW_ok hf,
    Except.ok_bind]
  by_cases hio : pyUpper src0 ∉ idsOf nodes ∨ pyUpper dst0 ∉ idsOf nodes
  · rw [if_pos hio]
    exact ⟨[], rfl, by simp, by simp, by simp⟩
  · rw [if_neg hio]
    set adj := adjOf (edgeTriples (edges.filter (edgeOkb (idsOf nodes))))
      with hadj
    set raw := dfsPaths adj (pyUpper dst0) maxPaths (nodes.length + 1)
      (pyUpper src0) [] [] 0 [] with hraw
    refine ⟨(sortByCost raw).take maxPaths, rfl, List.length_take_le _ _,
      ?_, ?_⟩
    · exact (sortByCost_sorted raw).sublist (List.take_sublist _ _)
    · intro pr hpr
      have hmem : pr ∈ raw :=
        (sortByCost_perm raw).mem_iff.mp
          ((List.take_sublist _ _).mem hpr)
      have hgood := dfsPaths_good (nodes.length + 1) (pyUpper src0) [] [] 0 []
        (by simp) (by simp) Walk.nil (by simp) pr hmem
      exact ⟨hgood.1.head_eq, hgood.1.last_eq, hgood.2, hgood.1⟩

/-- Closed instance of C6 on the example graph. -/
theorem claim_C6_witness :
    ∃ res, find_all_paths abcdNodes exEdges2 "A" "D" 10 = .ok res ∧
      res.length ≤ 10 ∧
      res.Pairwise (fun a b => a.2 ≤ b.2) ∧
      ∀ pr ∈ res, pr.1.head? = some (pyUpper "A") ∧
        pr.1.getLast? = some (pyUpper "D") ∧ pr.1.Nodup ∧
        Walk (adjOf (edgeTriples (exEdges2.filter (edgeOkb (idsOf abcdNodes)))))
          (pyUpper "A") (pyUpper "D") pr.1 pr.2 :=
  claim_C6 abcdNodes exEdges2 "A" "D" 10 (by decide) (by decide)

/-- Closed instance of C3 on the example graph. -/
theorem claim_C3_witness :
    ∃ colors, color_graph abcdNodes exEdges2 = .ok colors ∧
      (∀ n ∈ abcdNodes, ∀ i, n.id = some i → colors i ≠ none) ∧
      (∀ e ∈ exEdges2, ∀ u v, e.u = some u → e.v = some v → u ≠ v →
        ∀ l, colors u = some l → colors v = some l → l = "Weekend") :=
  claim_C3 abcdNodes exEdges2 (by decide) (by decide)

theorem checkNodes_go {l : List (Nat × PyNode)}
    (hwf : ∀ p ∈ l, NodeRecOk p.2) :
    ∀ (ids0 : List String) (errs0 : List VMsg),
      (l.foldl checkNodesStep (ids0, errs0)).2
      = errs0 ++ (dupEvents (l.map (fun p => p.2.id.getD "")) ids0).map VMsg.dupId := by
  induction l with
  | nil => simp [dupEvents]
  | cons p rest ih =>
    intro ids0 errs0
    obtain ⟨i0, node⟩ := p
    obtain ⟨s, hs, hne, hx, hy⟩ := hwf (i0, node) (by simp)
    have hs' : node.id = some s := hs
    have hxy : ¬(node.x = none ∨ node.y = none) := by
      rintro (h | h)
      · exact hx h
      · exact hy h
    rw [List.foldl_cons]
    simp only [List.map_cons, hs', Option.getD_some]
    by_cases hmem : s ∈ ids0
    · have hstep : checkNodesStep (ids0, errs0) (i0, node)
          = (ids0, errs0 ++ [VMsg.dupId s]) := by
        simp only [checkNodesStep, hs', if_neg hne, if_pos hmem, if_neg hxy]
      rw [hstep]
      rw [ih (fun q hq => hwf q (by simp [hq])) ids0 (errs0 ++ [VMsg.dupId s])]
      rw [dupEvents, if_pos hmem]
      simp
    · have hstep : checkNodesStep (ids0, errs0) (i0, node)
          = (ids0 ++ [s], errs0) := by
        simp only [checkNodesStep, hs', if_neg hne, if_neg hmem, if_neg hxy]
      rw [hstep]
      rw [ih (fun q hq => hwf q (by simp [hq])) (ids0 ++ [s]) errs0]
      rw [dupEvents, if_neg hmem]

theorem count_cons_self (a : String) (l : List String) :
    List.count a (a :: l) = List.count a l + 1 := by
  rw [List.count_cons]
  simp

theorem count_cons_ne {a b : String} (h : a ≠ b) (l : List String) :
    List.count a (b :: l) = List.count a l := by
  rw [List.count_cons]
  simp [Ne.symm h]

theorem ind_append_self (x : String) (seen : List String) :
    (if x ∈ seen ++ [x] then 1 else 0) = 1 :=
  if_pos (by simp)

theorem ind_append_ne {x s : String} (h : x ≠ s) (seen : List String) :
    (if x ∈ seen ++ [s] then 1 else 0) = (if x ∈ seen then 1 else 0) := by
  by_cases hx : x ∈ seen
  · rw [if_pos hx, if_pos (by simp [hx])]
  · rw [if_neg hx, if_neg (by simp [h, hx])]

theorem dupEvents_nil {l seen : List String}
    (h : ∀ x, l.count x + (if x ∈ seen then 1 else 0) ≤ 1) :
    dupEvents l seen = [] := by
  induction l generalizing seen with
  | nil => rfl
  | cons s rest ih =>
    rw [dupEvents]
    by_cases hmem : s ∈ seen
    · exfalso
      have hx := h s
      rw [count_cons_self, if_pos hmem] at hx
      omega
    · rw [if_neg hmem]
      apply ih
      intro x
      by_cases hxs : x = s
      · subst hxs
        have hx := h x
        rw [count_cons_self, if_neg hmem] at hx
        rw [ind_append_self]
        omega
      · have hx := h x
        rw [count_cons_ne hxs] at hx
        rw [ind_append_ne hxs]
        exact hx

theorem dupEvents_single {d : String} {l seen : List String}
    (hd : l.count d + (if d ∈ seen then 1 else 0) = 2)
    (hothers : ∀ x, x ≠ d → l.count x + (if x ∈ seen then 1 else 0) ≤ 1) :
    dupEvents l seen = [d] := by
  induction l generalizing seen with
  | nil =>
    exfalso
    rw [List.count_nil] at hd
    split at hd <;> omega
  | cons s rest ih =>
    rw [dupEvents]
    by_cases hmem : s ∈ seen
    · rw [if_pos hmem]
      have hsd : s = d := by
        by_contra hne
        have hx := hothers s hne
        rw [count_cons_self, if_pos hmem] at hx
        omega
      subst hsd
      rw [count_cons_self, if_pos hmem] at hd
      have hrest : dupEvents rest seen = [] := by
        apply dupEvents_nil
        intro x
        by_cases hxs : x = s
        · subst hxs
          rw [if_pos hmem]
          omega
        · have hx := hothers x hxs
          rw [count_cons_ne hxs] at hx
          exact hx
      rw [hrest]
    · rw [if_neg hmem]
      apply ih
      · by_cases hsd : s = d
        · subst hsd
          rw [count_cons_self, if_neg hmem] at hd
          rw [ind_append_self]
          omega
        · rw [count_cons_ne (fun h => hsd h.symm)] at hd
          rw [ind_append_ne (fun h => hsd h.symm)]
          exact hd
      · intro x hxd
        by_cases hxs : x = s
        · subst hxs
          have hx := hothers x hxd
          rw [count_cons_self, if_neg hmem] at hx
          rw [ind_append_self]
          omega
        · have hx := hothers x hxd
          rw [count_cons_ne hxs] at hx
          rw [ind_append_ne hxs]
          exact hx

theorem checkNodes_ids_mem_go {l : List (Nat × PyNode)}
    (hwf : ∀ p ∈ l, NodeRecOk p.2) :
    ∀ (ids0 : List String) (errs0 : List VMsg) (x : String),
      x ∈ (l.foldl checkNodesStep (ids0, errs0)).1 ↔
        x ∈ ids0 ∨ ∃ p ∈ l, p.2.id = some x := by
  induction l with
  | nil => simp
  | cons p rest ih =>
    intro ids0 errs0 x
    obtain ⟨i0, node⟩ := p
    obtain ⟨s, hs, hne, hx, hy⟩ := hwf (i0, node) (by simp)
    have hs' : node.id = some s := hs
    rw [List.foldl_cons]
    have heta : ((checkNodesStep (ids0, errs0) (i0, node)).1,
        (checkNodesStep (ids0, errs0) (i0, node)).2)
        = checkNodesStep (ids0, errs0) (i0, node) := rfl
    rw [← heta,
      ih (fun q hq => hwf q (by simp [hq])) (checkNodesStep (ids0, errs0) (i0, node)).1
        (checkNodesStep (ids0, errs0) (i0, node)).2 x]
    have hstep1 : (checkNodesStep (ids0, errs0) (i0, node)).1
        = if s ∈ ids0 then ids0 else ids0 ++ [s] := by
      by_cases hsm : s ∈ ids0
      · simp [checkNodesStep, hs', hne, hsm]
      · simp [checkNodesStep, hs', hne, hsm]
    rw [hstep1]
    by_cases hsm : s ∈ ids0
    · rw [if_pos hsm]
      constructor
      · rintro (h | ⟨q, hq, hqid⟩)
        · exact Or.inl h
        · exact Or.inr ⟨q, by simp [hq], hqid⟩
      · rintro (h | ⟨q, hq, hqid⟩)
        · exact Or.inl h
        · rcases List.mem_cons.mp hq with rfl | hq2
          · have hin : node.id = some x := hqid
            rw [hs'] at hin
            injection hin with hsx
            exact Or.inl (hsx ▸ hsm)
          · exact Or.inr ⟨q, hq2, hqid⟩
    · rw [if_neg hsm]
      constructor
      · rintro (hin | ⟨q, hq, hqid⟩)
        · rcases List.mem_append.mp hin with h | h
          · exact Or.inl h
          · have hxs : x = s := by simpa using h
            exact Or.inr ⟨(i0, node), by simp, by
              show node.id = some x
              rw [hs', hxs]⟩
        · exact Or.inr ⟨q, by simp [hq], hqid⟩
      · rintro (h | ⟨q, hq, hqid⟩)
        · exact Or.inl (List.mem_append.mpr (Or.inl h))
        · rcases List.mem_cons.mp hq with rfl | hq2
          · have hin : node.id = some x := hqid
            rw [hs'] at hin
            injection hin with hsx
            exact Or.inl (List.mem_append.mpr (Or.inr (by simp [hsx])))
          · exact Or.inr ⟨q, hq2, hqid⟩

theorem checkNodes_ids_mem {nodes : List PyNode}
    (hwf : ∀ n ∈ nodes, NodeRecOk n) (x : String) :
    x ∈ (checkNodes nodes).1 ↔ x ∈ idsOf nodes := by
  rw [checkNodes, checkNodes_ids_mem_go
    (fun p hp => hwf p.2 (List.snd_mem_of_mem_enum hp))]
  constructor
  · rintro (h | ⟨p, hp, hpid⟩)
    · simp at h
    · exact List.mem_filterMap.mpr ⟨p.2, List.snd_mem_of_mem_enum hp, hpid⟩
  · intro h
    obtain ⟨n, hn, hnid⟩ := List.mem_filterMap.mp h
    obtain ⟨i, hi⟩ := List.get_of_mem hn
    refine Or.inr ⟨(i.1, n), ?_, hnid⟩
    rw [List.mk_mem_enum_iff_getElem?]
    rw [List.getElem?_eq_getElem i.isLt]
    rw [← hi]
    rfl

theorem validate_graph_eq (nodes : List PyNode) (edges : List PyEdge) :
    validate_graph nodes edges = vWarnings nodes edges >>= fun warnings =>
      pure { is_valid := ((checkNodes nodes).2
               ++ (checkEdges (checkNodes nodes).1 edges).1).isEmpty,
             errors := (checkNodes nodes).2
               ++ (checkEdges (checkNodes nodes).1 edges).1,
             warnings := warnings,
             statsNodes := nodes.length, statsEdges := edges.length,
             statsNodeIds := (checkNodes nodes).1 } := by
  rcases hcn : checkNodes nodes with ⟨nids, nerrs⟩
  rw [validate_graph, vWarnings, hcn]
  dsimp only
  rcases hce : checkEdges nids edges with ⟨eerrs, ewarns⟩
  split
  · simp [bind_assoc]
  · simp

theorem idsOf_eq_map_getD {nodes : List PyNode}
    (hwf : ∀ n ∈ nodes, n.id ≠ none) :
    idsOf nodes = nodes.map (fun n => n.id.getD "") := by
  induction nodes with
  | nil => rfl
  | cons n rest ih =>
    obtain ⟨i, hi⟩ : ∃ i, n.id = some i := by
      cases hid : n.id
      · exact absurd hid (hwf n (by simp))
      · exact ⟨_, rfl⟩
    have hr := ih (fun m hm => hwf m (by simp [hm]))
    rw [idsOf, List.filterMap_cons_some hi, ← idsOf, hr, List.map_cons, hi]
    rfl

theorem checkEdges_go_noerr {ids : List String} {l : List (Nat × PyEdge)}
    (hwf : ∀ p ∈ l, ∃ u v w, p.2.u = some u ∧ p.2.v = some v ∧
      p.2.w = some w ∧ u ∈ ids ∧ v ∈ ids) :
    ∀ (errs0 warns0 : List VMsg),
      (l.foldl (checkEdgesStep ids) (errs0, warns0)).1 = errs0 := by
  induction l with
  | nil => intro errs0 warns0; rfl
  | cons p rest ih =>
    intro errs0 warns0
    obtain ⟨i0, e⟩ := p
    obtain ⟨u, v, w, hu, hv, hw, hui, hvi⟩ := hwf (i0, e) (by simp)
    have hu' : e.u = some u := hu
    have hv' : e.v = some v := hv
    have hw' : e.w = some w := hw
    rw [List.foldl_cons]
    have hstep : checkEdgesStep ids (errs0, warns0) (i0, e)
        = (errs0, if w ≤ 0 then
            warns0 ++ [VMsg.nonPositiveWeight u v w] else warns0) := by
      simp only [checkEdgesStep, hu', hv', hw', if_pos hui, if_pos hvi]
    rw [hstep]
    exact ih (fun q hq => hwf q (by simp [hq])) _ _

theorem checkEdges_noerr {ids : List String} {edges : List PyEdge}
    (hwf : ∀ e ∈ edges, ∃ u v w, e.u = some u ∧ e.v = some v ∧
      e.w = some w ∧ u ∈ ids ∧ v ∈ ids) :
    (checkEdges ids edges).1 = [] := by
  rw [checkEdges]
  exact checkEdges_go_noerr
    (fun p hp => hwf p.2 (List.snd_mem_of_mem_enum hp)) [] []

theorem buildAdjSkipU_go_ok {ids : List String} {edges : List PyEdge}
    (hwf : ∀ e ∈ edges, e.u ≠ none ∧ e.v ≠ none) :
    ∀ g, ∃ g2, List.foldlM (buildAdjSkipUStep ids) g edges = .ok g2 := by
  induction edges with
  | nil => intro g; exact ⟨g, rfl⟩
  | cons e rest ih =>
    intro g
    obtain ⟨hu, hv⟩ := hwf e (by simp)
    obtain ⟨u, hu'⟩ : ∃ u, e.u = some u := by
      cases h : e.u
      · exact absurd h hu
      · exact ⟨_, rfl⟩
    obtain ⟨v, hv'⟩ : ∃ v, e.v = some v := by
      cases h : e.v
      · exact absurd h hv
      · exact ⟨_, rfl⟩
    have hstep : ∃ g1, buildAdjSkipUStep ids g e = .ok g1 := by
      simp only [buildAdjSkipUStep, PyEdge.getU, PyEdge.getV, hu', hv',
        Except.ok_bind]
      by_cases hui : u ∈ ids
      · rw [if_pos hui]
        by_cases hvi : v ∈ ids
        · rw [if_pos hvi]; exact ⟨_, rfl⟩
        · rw [if_neg hvi]; exact ⟨_, rfl⟩
      · rw [if_neg hui]; exact ⟨_, rfl⟩
    obtain ⟨g1, hg1⟩ := hstep
    rw [List.foldlM_cons, hg1, Except.ok_bind]
    exact ih (fun x hx => hwf x (by simp [hx])) g1

theorem buildAdjSkipU_ok {ids : List String} {edges : List PyEdge}
    (hwf : ∀ e ∈ edges, e.u ≠ none ∧ e.v ≠ none) :
    ∃ g, buildAdjSkipU ids edges = .ok g :=
  buildAdjSkipU_go_ok hwf (fun _ => [])

/-- C9: `is_valid` is true exactly when the errors list is empty (warnings
play no part in it), and on an otherwise well-formed graph in which exactly
one identifier occurs twice in the node list, `validate_graph` reports
exactly one error, the duplicate-id error naming that identifier, and
`is_valid` is false. -/
theorem claim_C9 :
    (∀ (nodes : List PyNode) (edges : List PyEdge) (r : VResult),
        validate_graph nodes edges = .ok r →
        (r.is_valid = true ↔ r.errors = [])) ∧
    (∀ (nodes : List PyNode) (edges : List PyEdge) (d : String),
        (∀ n ∈ nodes, NodeRecOk n) →
        (∀ e ∈ edges, ∃ u v w, e.u = some u ∧ e.v = some v ∧
          e.w = some w ∧ u ∈ idsOf nodes ∧ v ∈ idsOf nodes) →
        (idsOf nodes).count d = 2 →
        (∀ x, x ≠ d → (idsOf nodes).count x ≤ 1) →
        ∃ r, validate_graph nodes edges = .ok r ∧
          r.errors = [VMsg.dupId d] ∧ r.is_valid = false) := by
  constructor
  · intro nodes edges r h
    rw [validate_graph_eq] at h
    cases hW : vWarnings nodes edges with
    | error pe =>
      rw [hW, Except.error_bind] at h
      exact absurd h (by simp)
    | ok w =>
      rw [hW, Except.ok_bind, Except.pure_eq_ok] at h
      injection h with h2
      subst h2
      simp [List.isEmpty_iff]
  · intro nodes edges d hwf hedg hcount hothers
    have hn : ∀ n ∈ nodes, n.id ≠ none := by
      intro n hn
      obtain ⟨i, hi, _⟩ := hwf n hn
      simp [hi]
    have he : ∀ e ∈ edges, e.u ≠ none ∧ e.v ≠ none := by
      intro e hee
      obtain ⟨u, v, w, hu, hv, hw, _, _⟩ := hedg e hee
      exact ⟨by simp [hu], by simp [hv]⟩
    have hmap : nodes.enum.map (fun p => p.2.id.getD "") = idsOf nodes := by
      rw [idsOf_eq_map_getD hn]
      rw [show (fun p : Nat × PyNode => p.2.id.getD "")
          = (fun n : PyNode => n.id.getD "") ∘ Prod.snd from rfl]
      rw [← List.map_map, List.enum_map_snd]
    have hnerr : (checkNodes nodes).2
        = (dupEvents (idsOf nodes) []).map VMsg.dupId := by
      rw [checkNodes, checkNodes_go
        (fun p hp => hwf p.2 (List.snd_mem_of_mem_enum hp)) [] []]
      rw [hmap]
      simp
    have hdup : dupEvents (idsOf nodes) [] = [d] := by
      apply dupEvents_single
      · simpa using hcount
      · intro x hx
        simpa using hothers x hx
    have heerr : (checkEdges (checkNodes nodes).1 edges).1 = [] := by
      apply checkEdges_noerr
      intro e hee
      obtain ⟨u, v, w, hu, hv, hw, hui, hvi⟩ := hedg e hee
      exact ⟨u, v, w, hu, hv, hw,
        (checkNodes_ids_mem hwf u).mpr hui,
        (checkNodes_ids_mem hwf v).mpr hvi⟩
    have hWok : ∃ w, vWarnings nodes edges = .ok w := by
      rw [vWarnings]
      by_cases hcond : nodes ≠ [] ∧ edges ≠ []
      · rw [if_pos hcond, getIds_ok hn, Except.ok_bind]
        obtain ⟨g, hg⟩ := @buildAdjSkipU_ok (pyDedup (idsOf nodes)) edges he
        simp only [hg, Except.ok_bind]
        exact ⟨_, rfl⟩
      · rw [if_neg hcond]
        exact ⟨_, rfl⟩
    obtain ⟨w, hW⟩ := hWok
    have hE : (checkNodes nodes).2 ++ (checkEdges (checkNodes nodes).1 edges).1
        = [VMsg.dupId d] := by
      rw [hnerr, hdup, heerr]
      simp
    refine ⟨{ is_valid := false, errors := [VMsg.dupId d], warnings := w,
              statsNodes := nodes.length, statsEdges := edges.length,
              statsNodeIds := (checkNodes nodes).1 }, ?_, rfl, rfl⟩
    rw [validate_graph_eq, hW, Except.ok_bind, Except.pure_eq_ok, hE]
    rfl

/-- Closed instance of C9: the duplicated node id `"A"` is reported as the
single error and the report is not valid. -/
theorem claim_C9_witness :
    ∃ r, validate_graph dupNodesC9 dupEdgesC9 = .ok r ∧
      r.errors = [VMsg.dupId "A"] ∧ r.is_valid = false := by
  apply claim_C9.2 dupNodesC9 dupEdgesC9 "A"
  · intro n hn
    have hn' : n = dupNodesC9[0] ∨ n = dupNodesC9[1] ∨ n = dupNodesC9[2] := by
      simpa [dupNodesC9] using hn
    rcases hn' with rfl | rfl | rfl
    · exact ⟨"A", rfl, by decide, by decide, by decide⟩
    · exact ⟨"B", rfl, by decide, by decide, by decide⟩
    · exact ⟨"A", rfl, by decide, by decide, by decide⟩
  · intro e hee
    have he' : e = dupEdgesC9[0] := by
      simpa [dupEdgesC9] using hee
    subst he'
    exact ⟨"A", "B", 3, rfl, rfl, rfl, by decide, by decide⟩
  · decide
  · intro x hx
    have hid : idsOf dupNodesC9 = ["A", "B", "A"] := rfl
    rw [hid]
    by_cases hb : x = "B"
    · subst hb
      decide
    · have hnm : x ∉ ["A", "B", "A"] := by
        intro hmem
        rcases by simpa using hmem with h | h | h
        · exact hx h
        · exact hb h
        · exact hx h
      rw [List.count_eq_zero.mpr hnm]
      exact Nat.zero_le 1

/-! ## Claim C8: connected components -/

theorem ReachU_trans {adj : String → List String} {a b c : String}
    (hab : ReachU adj a b) (hbc : ReachU adj b c) : ReachU adj a c := by
  induction hbc with
  | refl => exact hab
  | tail h hmem ih => exact ReachU.tail ih hmem

theorem ReachU_symm {adj : String → List String}
    (hsym : ∀ u v, v ∈ adj u → u ∈ adj v) {a b : String}
    (h : ReachU adj a b) : ReachU adj b a := by
  induction h with
  | refl => exact .refl _
  | tail hab hmem ih =>
    exact ReachU_trans (ReachU.tail (.refl _) (hsym _ _ hmem)) ih

theorem reach_closed {adj : String → List String} {S : List String}
    (hS : ∀ v ∈ S, ∀ u ∈ adj v, u ∈ S) {x y : String}
    (h : ReachU adj x y) (hx : x ∈ S) : y ∈ S := by
  induction h with
  | refl => exact hx
  | tail hab hmem ih => exact hS _ ih _ hmem

theorem ReachU_congr {adj1 adj2 : String → List String}
    (h : ∀ x y, y ∈ adj1 x → y ∈ adj2 x) {a b : String}
    (hr : ReachU adj1 a b) : ReachU adj2 a b := by
  induction hr with
  | refl => exact .refl _
  | tail hab hmem ih => exact ReachU.tail ih (h _ _ hmem)

theorem degSum_cons (f : String → List String) (k : String)
    (rest : List String) :
    degSum f (k :: rest) = (f k).length + degSum f rest := by
  simp [degSum]

theorem degSum_congr {f g : String → List String} {l : List String}
    (h : ∀ v ∈ l, f v = g v) : degSum f l = degSum g l := by
  induction l with
  | nil => rfl
  | cons a rest ih =>
    rw [degSum_cons, degSum_cons, h a (by simp),
      ih (fun v hv => h v (by simp [hv]))]

theorem degSum_sublist {f : String → List String} {l1 l2 : List String}
    (h : l1.Sublist l2) : degSum f l1 ≤ degSum f l2 := by
  induction h with
  | slnil => exact Nat.le_refl _
  | cons a h ih =>
    rw [degSum_cons]
    omega
  | cons₂ a h ih =>
    rw [degSum_cons, degSum_cons]
    omega

theorem degSum_upd_le {g : String → List String} {x y : String}
    {keys : List String} (hnd : keys.Nodup) :
    degSum (upd g x (g x ++ [y])) keys ≤ degSum g keys + 1 := by
  induction keys with
  | nil => exact Nat.zero_le 1
  | cons k rest ih =>
    rw [List.nodup_cons] at hnd
    rw [degSum_cons, degSum_cons]
    by_cases hk : k = x
    · subst hk
      rw [upd_self]
      have hrest : degSum (upd g k (g k ++ [y])) rest = degSum g rest :=
        degSum_congr (fun v hv => upd_ne g _ (fun hvk => hnd.1 (hvk ▸ hv)))
      rw [hrest, List.length_append]
      simp
      omega
    · rw [upd_ne g _ hk]
      have := ih hnd.2
      omega

theorem degSum_empty (keys : List String) :
    degSum (fun _ => []) keys = 0 := by
  induction keys with
  | nil => rfl
  | cons k rest ih =>
    rw [degSum_cons, ih]
    simp

theorem skipPairs_symm {ids : List String} {edges : List PyEdge}
    {x y : String} (h : (x, y) ∈ skipPairs ids edges) :
    (y, x) ∈ skipPairs ids edges := by
  induction edges with
  | nil => simp [skipPairs] at h
  | cons e rest ih =>
    rw [skipPairs, List.mem_append] at h ⊢
    rcases h with h | h
    · left
      cases hu : e.u with
      | none =>
        try rw [hu] at h
        simp at h
      | some u =>
        cases hv : e.v with
        | none =>
          try rw [hu] at h
          try rw [hv] at h
          simp at h
        | some v =>
          try rw [hu] at h
          try rw [hv] at h
          try rw [hu, hv]
          try dsimp only at h
          try dsimp only
          by_cases hui : u ∈ ids
          · by_cases hvi : v ∈ ids
            · rw [if_pos hui, if_pos hvi] at h ⊢
              have h' : (x, y) = (u, v) ∨ (x, y) = (v, u) := by simpa using h
              rcases h' with h' | h' <;>
                (injection h' with h1 h2; subst h1; subst h2; simp)
            · rw [if_pos hui, if_neg hvi] at h; simp at h
          · rw [if_neg hui] at h; simp at h
    · exact Or.inr (ih h)

theorem skipPairs_mem_ids {ids : List String} {edges : List PyEdge}
    {x y : String} (h : (x, y) ∈ skipPairs ids edges) :
    x ∈ ids ∧ y ∈ ids := by
  induction edges with
  | nil => simp [skipPairs] at h
  | cons e rest ih =>
    rw [skipPairs, List.mem_append] at h
    rcases h with h | h
    · cases hu : e.u with
      | none =>
        cases hv : e.v with
        | none =>
          try rw [hu] at h
          try rw [hv] at h
          simp at h
        | some v =>
          try rw [hu] at h
          try rw [hv] at h
          simp at h
      | some u =>
        cases hv : e.v with
        | none =>
          try rw [hu] at h
          try rw [hv] at h
          simp at h
        | some v =>
          try rw [hu] at h
          try rw [hv] at h
          try dsimp only at h
          by_cases hui : u ∈ ids
          · by_cases hvi : v ∈ ids
            · rw [if_pos hui, if_pos hvi] at h
              have h2 : (x, y) = (u, v) ∨ (x, y) = (v, u) := by simpa using h
              rcases h2 with h2 | h2 <;>
                (injection h2 with h3 h4; subst h3; subst h4;
                 exact ⟨by assumption, by assumption⟩)
            · rw [if_pos hui, if_neg hvi] at h; simp at h
          · rw [if_neg hui] at h; simp at h
    · exact ih h

theorem pairsAdj_mem {ps : List (String × String)} {x y : String} :
    y ∈ pairsAdj ps x ↔ (x, y) ∈ ps := by
  constructor
  · intro h
    obtain ⟨p, hp, hpy⟩ := List.mem_map.mp h
    have hp2 := List.mem_filter.mp hp
    have hx : p.1 = x := by simpa using hp2.2
    have : p = (x, y) := by
      cases p
      simp only at hx hpy
      rw [hx, hpy]
    exact this ▸ hp2.1
  · intro h
    exact List.mem_map.mpr ⟨(x, y), List.mem_filter.mpr ⟨h, by simp⟩, rfl⟩

theorem upd2_mem {g0 : String → List String} {u v x y : String} :
    y ∈ upd (upd g0 u (g0 u ++ [v])) v (upd g0 u (g0 u ++ [v]) v ++ [u]) x
      ↔ y ∈ g0 x ∨ (x = u ∧ y = v) ∨ (x = v ∧ y = u) := by
  by_cases hxv : x = v <;> by_cases hxu : x = u <;>
    first
    | (simp_all [upd, List.mem_append]; tauto)
    | simp_all [upd, List.mem_append]

theorem buildAdjSkipU_go_mem {ids : List String} :
    ∀ (edges : List PyEdge) (g0 g : String → List String),
      List.foldlM (buildAdjSkipUStep ids) g0 edges = .ok g →
      ∀ x y, y ∈ g x ↔ y ∈ g0 x ∨ (x, y) ∈ skipPairs ids edges := by
  intro edges
  induction edges with
  | nil =>
    intro g0 g h x y
    have hg : g0 = g := by
      have h2 : (Except.ok g0 : Except PyError (String → List String))
          = .ok g := h
      injection h2
    subst hg
    simp [skipPairs]
  | cons e rest ih =>
    intro g0 g h x y
    rw [List.foldlM_cons] at h
    cases hu : e.u with
    | none =>
      rw [show buildAdjSkipUStep ids g0 e = .error (PyError.keyError "u") by
        simp [buildAdjSkipUStep, PyEdge.getU, hu], Except.error_bind] at h
      cases h
    | some u =>
      by_cases hui : u ∈ ids
      · cases hv : e.v with
        | none =>
          rw [show buildAdjSkipUStep ids g0 e = .error (PyError.keyError "v") by
            simp only [buildAdjSkipUStep, PyEdge.getU, PyEdge.getV, hu, hv,
              Except.ok_bind]
            rw [if_pos hui]
            rfl, Except.error_bind] at h
          cases h
        | some v =>
          by_cases hvi : v ∈ ids
          · have hstep : buildAdjSkipUStep ids g0 e
                = .ok (upd (upd g0 u (g0 u ++ [v])) v
                    (upd g0 u (g0 u ++ [v]) v ++ [u])) := by
              simp only [buildAdjSkipUStep, PyEdge.getU, PyEdge.getV, hu, hv,
                Except.ok_bind]
              rw [if_pos hui, if_pos hvi]
              rfl
            rw [hstep, Except.ok_bind] at h
            have hsp : skipPairs ids (e :: rest)
                = (u, v) :: (v, u) :: skipPairs ids rest := by
              rw [skipPairs, hu, hv]
              dsimp only
              rw [if_pos hui, if_pos hvi]
              rfl
            rw [ih _ _ h x y, hsp, upd2_mem]
            simp only [List.mem_cons, Prod.mk.injEq]
            tauto
          · have hstep : buildAdjSkipUStep ids g0 e = .ok g0 := by
              simp only [buildAdjSkipUStep, PyEdge.getU, PyEdge.getV, hu, hv,
                Except.ok_bind]
              rw [if_pos hui, if_neg hvi]
              rfl
            rw [hstep, Except.ok_bind] at h
            have hsp : skipPairs ids (e :: rest) = skipPairs ids rest := by
              rw [skipPairs, hu, hv]
              dsimp only
              rw [if_pos hui, if_neg hvi]
              rfl
            rw [ih _ _ h x y, hsp]
      · have hstep : buildAdjSkipUStep ids g0 e = .ok g0 := by
          simp only [buildAdjSkipUStep, PyEdge.getU, hu, Except.ok_bind]
          rw [if_neg hui]
          rfl
        rw [hstep, Except.ok_bind] at h
        have hsp : skipPairs ids (e :: rest) = skipPairs ids rest := by
          cases hv : e.v with
          | none =>
            rw [skipPairs, hu, hv]
            rfl
          | some v =>
            rw [skipPairs, hu, hv]
            dsimp only
            rw [if_neg hui]
            rfl
        rw [ih _ _ h x y, hsp]

theorem buildAdjSkipU_go_degSum {ids keys : List String}
    (hnd : keys.Nodup) :
    ∀ (edges : List PyEdge) (g0 g : String → List String),
      List.foldlM (buildAdjSkipUStep ids) g0 edges = .ok g →
      degSum g keys ≤ degSum g0 keys + 2 * edges.length := by
  intro edges
  induction edges with
  | nil =>
    intro g0 g h
    have hg : g0 = g := by
      have h2 : (Except.ok g0 : Except PyError (String → List String))
          = .ok g := h
      injection h2
    subst hg
    simp
  | cons e rest ih =>
    intro g0 g h
    rw [List.foldlM_cons] at h
    cases hu : e.u with
    | none =>
      rw [show buildAdjSkipUStep ids g0 e = .error (PyError.keyError "u") by
        simp [buildAdjSkipUStep, PyEdge.getU, hu], Except.error_bind] at h
      cases h
    | some u =>
      by_cases hui : u ∈ ids
      · cases hv : e.v with
        | none =>
          rw [show buildAdjSkipUStep ids g0 e = .error (PyError.keyError "v") by
            simp only [buildAdjSkipUStep, PyEdge.getU, PyEdge.getV, hu, hv,
              Except.ok_bind]
            rw [if_pos hui]
            rfl, Except.error_bind] at h
          cases h
        | some v =>
          by_cases hvi : v ∈ ids
          · have hstep : buildAdjSkipUStep ids g0 e
                = .ok (upd (upd g0 u (g0 u ++ [v])) v
                    (upd g0 u (g0 u ++ [v]) v ++ [u])) := by
              simp only [buildAdjSkipUStep, PyEdge.getU, PyEdge.getV, hu, hv,
                Except.ok_bind]
              rw [if_pos hui, if_pos hvi]
              rfl
            rw [hstep, Except.ok_bind] at h
            have h1 := @degSum_upd_le g0 u v keys hnd
            have h2 := @degSum_upd_le (upd g0 u (g0 u ++ [v])) v u keys hnd
            have h3 := ih _ _ h
            simp only [List.length_cons]
            omega
          · have hstep : buildAdjSkipUStep ids g0 e = .ok g0 := by
              simp only [buildAdjSkipUStep, PyEdge.getU, PyEdge.getV, hu, hv,
                Except.ok_bind]
              rw [if_pos hui, if_neg hvi]
              rfl
            rw [hstep, Except.ok_bind] at h
            have h3 := ih _ _ h
            simp only [List.length_cons]
            omega
      · have hstep : buildAdjSkipUStep ids g0 e = .ok g0 := by
          simp only [buildAdjSkipUStep, PyEdge.getU, hu, Except.ok_bind]
          rw [if_neg hui]
          rfl
        rw [hstep, Except.ok_bind] at h
        have h3 := ih _ _ h
        simp only [List.length_cons]
        omega

theorem degSum_filter_cons {adj : String → List String}
    {keys visited : List String} {cur : String}
    (hck : cur ∈ keys) (hcv : cur ∉ visited) :
    degSum adj (keys.filter (fun v => decide (v ∉ visited ++ [cur])))
        + (adj cur).length
      ≤ degSum adj (keys.filter (fun v => decide (v ∉ visited))) := by
  induction keys with
  | nil => simp at hck
  | cons k rest ih =>
    by_cases hk : k = cur
    · subst hk
      rw [List.filter_cons, if_neg (by simp)]
      rw [List.filter_cons, if_pos (by simpa using hcv)]
      rw [degSum_cons]
      have hmono : degSum adj
          (rest.filter (fun v => decide (v ∉ visited ++ [k])))
          ≤ degSum adj (rest.filter (fun v => decide (v ∉ visited))) := by
        apply degSum_sublist
        apply List.monotone_filter_right
        intro a ha
        simp only [decide_eq_true_eq] at ha ⊢
        intro hmem
        exact ha (by simp [hmem])
      omega
    · have hck' : cur ∈ rest := by
        rcases List.mem_cons.mp hck with h | h
        · exact absurd h.symm hk
        · exact h
      by_cases hkv : k ∈ visited
      · rw [List.filter_cons, if_neg (by simp [hkv])]
        rw [List.filter_cons, if_neg (by simp [hkv])]
        exact ih hck'
      · rw [List.filter_cons, if_pos (by simp [hkv, hk])]
        rw [List.filter_cons, if_pos (by simpa using hkv)]
        rw [degSum_cons, degSum_cons]
        have := ih hck'
        omega

theorem dfsComp_spec {adj : String → List String} {keys : List String}
    (hadjk : ∀ v u, u ∈ adj v → v ∈ keys ∧ u ∈ keys) :
    ∀ (fuel : Nat) (stack visited comp : List String),
      (∀ x ∈ stack, x ∈ keys) →
      stack.length + degSum adj (keys.filter (fun v => decide (v ∉ visited)))
        ≤ fuel →
      ∃ dl,
        (dfsComp adj fuel stack visited comp).1 = visited ++ dl ∧
        (dfsComp adj fuel stack visited comp).2 = comp ++ dl ∧
        (∀ x ∈ dl, x ∉ visited) ∧
        (∀ x ∈ dl, x ∈ keys) ∧
        (∀ x ∈ dl, ∃ s ∈ stack, ReachU adj s x) ∧
        (∀ s ∈ stack, s ∈ visited ++ dl) ∧
        ((∀ c ∈ comp, ∀ u ∈ adj c, u ∈ visited ∨ u ∈ stack) →
          ∀ c ∈ comp ++ dl, ∀ u ∈ adj c, u ∈ visited ++ dl) := by
  intro fuel
  induction fuel with
  | zero =>
    intro stack visited comp hk hfuel
    cases stack with
    | nil =>
      refine ⟨[], by simp [dfsComp], by simp [dfsComp], by simp, by simp,
        by simp, by simp, ?_⟩
      intro hpre c hc u hu
      rcases hpre c (by simpa using hc) u hu with h | h
      · simp [h]
      · simp at h
    | cons c s => simp at hfuel
  | succ fuel ih =>
    intro stack visited comp hk hfuel
    cases stack with
    | nil =>
      refine ⟨[], by simp [dfsComp], by simp [dfsComp], by simp, by simp,
        by simp, by simp, ?_⟩
      intro hpre c hc u hu
      rcases hpre c (by simpa using hc) u hu with h | h
      · simp [h]
      · simp at h
    | cons cur stack =>
      by_cases hcv : cur ∈ visited
      · have heq : dfsComp adj (fuel + 1) (cur :: stack) visited comp
            = dfsComp adj fuel stack visited comp := by
          show (if cur ∈ visited then _ else _) = _
          rw [if_pos hcv]
        obtain ⟨dl, h1, h2, h3, h4, h5, h6, h7⟩ :=
          ih stack visited comp (fun x hx => hk x (by simp [hx]))
            (by simp only [List.length_cons] at hfuel; omega)
        refine ⟨dl, by rw [heq, h1], by rw [heq, h2], h3, h4, ?_, ?_, ?_⟩
        · intro x hx
          obtain ⟨s, hs, hr⟩ := h5 x hx
          exact ⟨s, by simp [hs], hr⟩
        · intro s hs
          rcases List.mem_cons.mp hs with rfl | hs2
          · exact List.mem_append.mpr (Or.inl hcv)
          · exact h6 s hs2
        · intro hpre
          apply h7
          intro c hc u hu
          rcases hpre c hc u hu with h | h
          · exact Or.inl h
          · rcases List.mem_cons.mp h with rfl | h2
            · exact Or.inl hcv
            · exact Or.inr h2
      · have hck : cur ∈ keys := hk cur (by simp)
        have heq : dfsComp adj (fuel + 1) (cur :: stack) visited comp
            = dfsComp adj fuel
                (((adj cur).filter
                    (fun nb => decide (nb ∉ visited ++ [cur]))).reverse ++ stack)
                (visited ++ [cur]) (comp ++ [cur]) := by
          show (if cur ∈ visited then _ else _) = _
          rw [if_neg hcv]
        have hk' : ∀ x ∈ ((adj cur).filter
            (fun nb => decide (nb ∉ visited ++ [cur]))).reverse ++ stack,
            x ∈ keys := by
          intro x hx
          rcases List.mem_append.mp hx with h | h
          · have h2 : x ∈ adj cur :=
              List.mem_of_mem_filter (List.mem_reverse.mp h)
            exact (hadjk cur x h2).2
          · exact hk x (by simp [h])
        have hfl : (((adj cur).filter
            (fun nb => decide (nb ∉ visited ++ [cur]))).reverse).length
            ≤ (adj cur).length := by
          rw [List.length_reverse]
          exact List.length_filter_le _ _
        have hdeg := @degSum_filter_cons adj keys visited cur hck hcv
        have hfuel' : (((adj cur).filter
            (fun nb => decide (nb ∉ visited ++ [cur]))).reverse ++ stack).length
            + degSum adj (keys.filter
                (fun v => decide (v ∉ visited ++ [cur]))) ≤ fuel := by
          rw [List.length_append]
          simp only [List.length_cons] at hfuel
          omega
        obtain ⟨dl, h1, h2, h3, h4, h5, h6, h7⟩ :=
          ih _ _ _ hk' hfuel'
        refine ⟨cur :: dl, ?_, ?_, ?_, ?_, ?_, ?_, ?_⟩
        · rw [heq, h1]
          simp
        · rw [heq, h2]
          simp
        · intro x hx
          rcases List.mem_cons.mp hx with rfl | hx2
          · exact hcv
          · intro hmem
            exact h3 x hx2 (by simp [hmem])
        · intro x hx
          rcases List.mem_cons.mp hx with rfl | hx2
          · exact hck
          · exact h4 x hx2
        · intro x hx
          rcases List.mem_cons.mp hx with rfl | hx2
          · exact ⟨x, by simp, .refl x⟩
          · obtain ⟨s, hs, hr⟩ := h5 x hx2
            rcases List.mem_append.mp hs with h | h
            · have hadjcur : s ∈ adj cur :=
                List.mem_of_mem_filter (List.mem_reverse.mp h)
              exact ⟨cur, by simp,
                ReachU_trans (ReachU.tail (.refl cur) hadjcur) hr⟩
            · exact ⟨s, by simp [h], hr⟩
        · intro s hs
          rcases List.mem_cons.mp hs with rfl | hs2
          · simp
          · have := h6 s (List.mem_append.mpr (Or.inr hs2))
            rcases List.mem_append.mp this with h | h
            · rcases List.mem_append.mp h with h2 | h2
              · simp [h2]
              · simp [by simpa using h2]
            · simp [h]
        · intro hpre
          have hpre' : ∀ c ∈ comp ++ [cur], ∀ u ∈ adj c,
              u ∈ visited ++ [cur] ∨
              u ∈ ((adj cur).filter
                (fun nb => decide (nb ∉ visited ++ [cur]))).reverse ++ stack := by
            intro c hc u hu
            rcases List.mem_append.mp hc with hc2 | hc2
            · rcases hpre c hc2 u hu with h | h
              · exact Or.inl (List.mem_append.mpr (Or.inl h))
              · rcases List.mem_cons.mp h with rfl | h2
                · exact Or.inl (by simp)
                · exact Or.inr (List.mem_append.mpr (Or.inr h2))
            · have hccur : c = cur := by simpa using hc2
              subst hccur
              by_cases huv : u ∈ visited ++ [c]
              · exact Or.inl huv
              · refine Or.inr (List.mem_append.mpr (Or.inl ?_))
                rw [List.mem_reverse]
                exact List.mem_filter.mpr ⟨hu, by simpa using huv⟩
          have hcl := h7 hpre'
          intro c hc u hu
          have hc' : c ∈ (comp ++ [cur]) ++ dl := by
            rw [List.append_assoc]
            simpa using hc
          have := hcl c hc' u hu
          rw [List.append_assoc] at this
          simpa using this

theorem componentsOf_eq (adj : String → List String) (keys : List String)
    (fuelPer : Nat) :
    componentsOf adj keys fuelPer
      = (keys.foldl (compStep adj fuelPer) ([], [])).2 := rfl

theorem compFold {adj : String → List String} {keys : List String}
    {fuelPer : Nat}
    (hadjk : ∀ v u, u ∈ adj v → v ∈ keys ∧ u ∈ keys)
    (hfp : 1 + degSum adj keys ≤ fuelPer) :
    ∀ (ks : List String) (acc : List String × List (List String))
      (roots : List String),
      (∀ k ∈ ks, k ∈ keys) → CompInv adj keys acc roots →
      ∃ roots',
        CompInv adj keys (ks.foldl (compStep adj fuelPer) acc) roots' ∧
        (∀ k ∈ ks, k ∈ (ks.foldl (compStep adj fuelPer) acc).1) ∧
        (∀ v ∈ acc.1, v ∈ (ks.foldl (compStep adj fuelPer) acc).1) := by
  intro ks
  induction ks with
  | nil =>
    intro acc roots hks inv
    exact ⟨roots, inv, by simp, fun v hv => hv⟩
  | cons k ks ih =>
    intro acc roots hks inv
    rw [List.foldl_cons]
    by_cases hka : k ∈ acc.1
    · rw [show compStep adj fuelPer acc k = acc by
        rw [compStep, if_pos hka]]
      obtain ⟨roots', inv', hall, hmono⟩ :=
        ih acc roots (fun x hx => hks x (by simp [hx])) inv
      refine ⟨roots', inv', ?_, hmono⟩
      intro x hx
      rcases List.mem_cons.mp hx with rfl | hx2
      · exact hmono x hka
      · exact hall x hx2
    · have hkk : k ∈ keys := hks k (by simp)
      have hfuel : ([k] : List String).length
          + degSum adj (keys.filter (fun v => decide (v ∉ acc.1))) ≤ fuelPer := by
        have hsub : degSum adj (keys.filter (fun v => decide (v ∉ acc.1)))
            ≤ degSum adj keys := degSum_sublist (List.filter_sublist _)
        simp only [List.length_singleton]
        omega
      obtain ⟨dl, h1, h2, h3, h4, h5, h6, h7⟩ :=
        dfsComp_spec hadjk fuelPer [k] acc.1 []
          (fun x hx => by rw [show x = k by simpa using hx]; exact hkk) hfuel
      have hstep : compStep adj fuelPer acc k
          = ((dfsComp adj fuelPer [k] acc.1 []).1,
             acc.2 ++ [(dfsComp adj fuelPer [k] acc.1 []).2]) := by
        rw [compStep, if_neg hka]
      rw [hstep, h1, h2]
      have hcl : ∀ c ∈ dl, ∀ u ∈ adj c, u ∈ acc.1 ++ dl := by
        intro c hc u hu
        exact h7 (by simp) c (by simpa using hc) u hu
      have inv' : CompInv adj keys (acc.1 ++ dl, acc.2 ++ [[] ++ dl])
          (roots ++ [k]) := by
        refine ⟨?_, ?_, ?_, ?_, ?_, ?_⟩
        · intro v hv
          rcases List.mem_append.mp hv with h | h
          · exact inv.sub v h
          · exact h4 v h
        · intro v hv u hu
          rcases List.mem_append.mp hv with h | h
          · exact List.mem_append.mpr (Or.inl (inv.closed v h u hu))
          · exact hcl v h u hu
        · simp [inv.len]
        · intro r hr
          rcases List.mem_append.mp hr with h | h
          · exact List.mem_append.mpr (Or.inl (inv.rootsMem r h))
          · have : r = k := by simpa using h
            subst this
            exact h6 r (by simp)
        · intro v hv
          rcases List.mem_append.mp hv with h | h
          · obtain ⟨r, hr, hrv⟩ := inv.cover v h
            exact ⟨r, by simp [hr], hrv⟩
          · obtain ⟨s, hs, hsv⟩ := h5 v h
            have : s = k := by simpa using hs
            subst this
            exact ⟨s, by simp, hsv⟩
        · rw [List.pairwise_append]
          refine ⟨inv.pair, by simp, ?_⟩
          intro a ha b hb
          have hbk : b = k := by simpa using hb
          subst hbk
          intro hreach
          exact hka (reach_closed inv.closed hreach (inv.rootsMem a ha))
      obtain ⟨roots', invF, hall, hmono⟩ :=
        ih (acc.1 ++ dl, acc.2 ++ [[] ++ dl]) (roots ++ [k])
          (fun x hx => hks x (by simp [hx])) inv'
      refine ⟨roots', invF, ?_, ?_⟩
      · intro x hx
        rcases List.mem_cons.mp hx with rfl | hx2
        · exact hmono x (by
            show x ∈ acc.1 ++ dl
            exact h6 x (by simp))
        · exact hall x hx2
      · intro v hv
        exact hmono v (by
          show v ∈ acc.1 ++ dl
          exact List.mem_append.mpr (Or.inl hv))

theorem two_mem_length {l : List String} {x y : String}
    (hx : x ∈ l) (hy : y ∈ l) (hne : x ≠ y) : 2 ≤ l.length := by
  cases l with
  | nil => simp at hx
  | cons a t =>
    cases t with
    | nil =>
      have hx2 : x = a := by simpa using hx
      have hy2 : y = a := by simpa using hy
      exact absurd (hx2.trans hy2.symm) hne
    | cons b t2 => simp

theorem comps_length_two {adj : String → List String} {keys : List String}
    (hsym : ∀ u v, v ∈ adj u → u ∈ adj v)
    {acc : List String × List (List String)} {roots : List String}
    (inv : CompInv adj keys acc roots)
    (hall : ∀ k ∈ keys, k ∈ acc.1)
    {a b : String} (ha : a ∈ keys) (hb : b ∈ keys)
    (hab : ¬ ReachU adj a b)
    (hcov : ∀ v ∈ keys, ReachU adj a v ∨ ReachU adj b v) :
    acc.2.length = 2 := by
  rw [inv.len]
  have hshare : ∀ x r1 r2, ReachU adj x r1 → ReachU adj x r2 →
      ReachU adj r1 r2 :=
    fun x r1 r2 h1 h2 => ReachU_trans (ReachU_symm hsym h1) h2
  have hge : 2 ≤ roots.length := by
    obtain ⟨ra, hra, hraa⟩ := inv.cover a (hall a ha)
    obtain ⟨rb, hrb, hrbb⟩ := inv.cover b (hall b hb)
    have hne : ra ≠ rb := by
      intro h
      subst h
      exact hab (hshare ra a b hraa hrbb)
    exact two_mem_length hra hrb hne
  have hclass : ∀ r ∈ roots, ReachU adj a r ∨ ReachU adj b r := by
    intro r hr
    exact hcov r (inv.sub r (inv.rootsMem r hr))
  have hle : roots.length ≤ 2 := by
    by_contra hgt
    push_neg at hgt
    match roots, hgt with
    | r1 :: r2 :: r3 :: rest, _ =>
      have hp := inv.pair
      rw [List.pairwise_cons] at hp
      have h12 : ¬ ReachU adj r1 r2 := hp.1 r2 (by simp)
      have h13 : ¬ ReachU adj r1 r3 := hp.1 r3 (by simp)
      have hp2 := hp.2
      rw [List.pairwise_cons] at hp2
      have h23 : ¬ ReachU adj r2 r3 := hp2.1 r3 (by simp)
      have hc1 := hclass r1 (by simp)
      have hc2 := hclass r2 (by simp)
      have hc3 := hclass r3 (by simp)
      rcases hc1 with h1 | h1 <;> rcases hc2 with h2 | h2 <;>
        rcases hc3 with h3 | h3
      · exact h12 (hshare a r1 r2 h1 h2)
      · exact h12 (hshare a r1 r2 h1 h2)
      · exact h13 (hshare a r1 r3 h1 h3)
      · exact h23 (hshare b r2 r3 h2 h3)
      · exact h23 (hshare a r2 r3 h2 h3)
      · exact h13 (hshare b r1 r3 h1 h3)
      · exact h12 (hshare b r1 r2 h1 h2)
      · exact h12 (hshare b r1 r2 h1 h2)
  omega

theorem checkEdgesStep_warn {ids : List String}
    (acc : List VMsg × List VMsg) (p : Nat × PyEdge) :
    (checkEdgesStep ids acc p).2 = acc.2 ∨
      ∃ u v w, (checkEdgesStep ids acc p).2
        = acc.2 ++ [VMsg.nonPositiveWeight u v w] := by
  obtain ⟨i, e⟩ := p
  obtain ⟨errs, warns⟩ := acc
  cases hu : e.u with
  | none =>
    left
    rcases hv : e.v with _ | v <;> simp only [checkEdgesStep, hu, hv]
  | some u =>
    cases hv : e.v with
    | none =>
      left
      simp only [checkEdgesStep, hu, hv]
    | some v =>
      cases hw : e.w with
      | none =>
        left
        simp only [checkEdgesStep, hu, hv, hw]
      | some w =>
        by_cases hw0 : w ≤ 0
        · right
          exact ⟨u, v, w, by simp only [checkEdgesStep, hu, hv, hw, if_pos hw0]⟩
        · left
          simp only [checkEdgesStep, hu, hv, hw, if_neg hw0]

theorem checkEdges_warn_go {ids : List String} :
    ∀ (l : List (Nat × PyEdge)) (acc : List VMsg × List VMsg) (m : VMsg),
      m ∈ (l.foldl (checkEdgesStep ids) acc).2 →
      m ∈ acc.2 ∨ ∃ u v w, m = VMsg.nonPositiveWeight u v w := by
  intro l
  induction l with
  | nil =>
    intro acc m h
    exact Or.inl h
  | cons p rest ih =>
    intro acc m h
    rw [List.foldl_cons] at h
    rcases ih _ m h with h2 | h2
    · rcases checkEdgesStep_warn acc p with h3 | ⟨u, v, w, h3⟩
      · rw [h3] at h2
        exact Or.inl h2
      · rw [h3] at h2
        rcases List.mem_append.mp h2 with h4 | h4
        · exact Or.inl h4
        · exact Or.inr ⟨u, v, w, by simpa using h4⟩
    · exact Or.inr h2

theorem checkEdges_no_components {ids : List String} {edges : List PyEdge}
    {m : VMsg} (h : m ∈ (checkEdges ids edges).2) :
    ∃ u v w, m = VMsg.nonPositiveWeight u v w := by
  rw [checkEdges] at h
  rcases checkEdges_warn_go edges.enum ([], []) m h with h2 | h2
  · simp at h2
  · exact h2

theorem checkEdges_nowarn_go {ids : List String} :
    ∀ (l : List (Nat × PyEdge)),
      (∀ p ∈ l, ∀ w, p.2.w = some w → 0 < w) →
      ∀ (acc : List VMsg × List VMsg),
        (l.foldl (checkEdgesStep ids) acc).2 = acc.2 := by
  intro l
  induction l with
  | nil =>
    intro hw acc
    rfl
  | cons p rest ih =>
    intro hw acc
    rw [List.foldl_cons]
    rw [ih (fun q hq => hw q (by simp [hq])) _]
    obtain ⟨i, e⟩ := p
    obtain ⟨errs, warns⟩ := acc
    cases hu : e.u with
    | none =>
      rcases hv : e.v with _ | v <;> simp only [checkEdgesStep, hu, hv]
    | some u =>
      cases hv : e.v with
      | none => simp only [checkEdgesStep, hu, hv]
      | some v =>
        cases hww : e.w with
        | none => simp only [checkEdgesStep, hu, hv, hww]
        | some w =>
          have hw0 : 0 < w := hw (i, e) (by simp) w hww
          simp only [checkEdgesStep, hu, hv, hww,
            if_neg (by omega : ¬ w ≤ 0)]

theorem checkEdges_nowarn {ids : List String} {edges : List PyEdge}
    (hw : ∀ e ∈ edges, ∀ w, e.w = some w → 0 < w) :
    (checkEdges ids edges).2 = [] := by
  rw [checkEdges, checkEdges_nowarn_go edges.enum
    (fun p hp => hw p.2 (List.snd_mem_of_mem_enum hp)) ([], [])]

/-- C8: when both the node list and the edge list are non-empty, the entries
are well-formed, and the undirected adjacency over valid edges splits into
exactly two connected components (two mutually unreachable vertices that
jointly reach every dict key), `validate_graph` reports exactly the single
warning naming the component count 2; and when either list is empty, no
component-count warning is ever emitted. -/
theorem claim_C8 :
    (∀ (nodes : List PyNode) (edges : List PyEdge) (r : VResult),
        (nodes = [] ∨ edges = []) →
        validate_graph nodes edges = .ok r →
        ∀ c, VMsg.components c ∉ r.warnings) ∧
    (∀ (nodes : List PyNode) (edges : List PyEdge) (a b : String),
        nodes ≠ [] → edges ≠ [] →
        (∀ n ∈ nodes, NodeRecOk n) →
        (∀ e ∈ edges, ∃ u v w, e.u = some u ∧ e.v = some v ∧
          e.w = some w ∧ u ∈ idsOf nodes ∧ v ∈ idsOf nodes ∧ 0 < w) →
        a ∈ pyDedup (idsOf nodes) → b ∈ pyDedup (idsOf nodes) →
        ¬ ReachU (pairsAdj (skipPairs (pyDedup (idsOf nodes)) edges)) a b →
        (∀ v ∈ pyDedup (idsOf nodes),
          ReachU (pairsAdj (skipPairs (pyDedup (idsOf nodes)) edges)) a v ∨
          ReachU (pairsAdj (skipPairs (pyDedup (idsOf nodes)) edges)) b v) →
        ∃ r, validate_graph nodes edges = .ok r ∧
          r.warnings = [VMsg.components 2]) := by
  constructor
  · intro nodes edges r hempty h c hc
    rw [validate_graph_eq] at h
    have hcond : ¬ (nodes ≠ [] ∧ edges ≠ []) := by
      rcases hempty with h2 | h2 <;> simp [h2]
    rw [vWarnings, if_neg hcond, Except.pure_eq_ok, Except.ok_bind,
      Except.pure_eq_ok] at h
    injection h with h2
    subst h2
    obtain ⟨u, v, w, heq⟩ := checkEdges_no_components hc
    simp at heq
  · intro nodes edges a b hnn hne hwf hedg ha hb hab hcov
    have hn : ∀ n ∈ nodes, n.id ≠ none := by
      intro n hn2
      obtain ⟨i, hi, _⟩ := hwf n hn2
      simp [hi]
    have hef : ∀ e ∈ edges, e.u ≠ none ∧ e.v ≠ none := by
      intro e hee
      obtain ⟨u, v, w, hu, hv, hw, _, _, _⟩ := hedg e hee
      exact ⟨by simp [hu], by simp [hv]⟩
    obtain ⟨g, hg⟩ := @buildAdjSkipU_ok (pyDedup (idsOf nodes)) edges hef
    have hmem : ∀ x y, y ∈ g x ↔
        (x, y) ∈ skipPairs (pyDedup (idsOf nodes)) edges := by
      intro x y
      rw [buildAdjSkipU_go_mem edges _ g hg x y]
      simp
    have hsymg : ∀ u v, v ∈ g u → u ∈ g v := by
      intro u v h
      rw [hmem] at h ⊢
      exact skipPairs_symm h
    have hadjk : ∀ v u, u ∈ g v →
        v ∈ pyDedup (idsOf nodes) ∧ u ∈ pyDedup (idsOf nodes) := by
      intro v u h
      rw [hmem] at h
      exact skipPairs_mem_ids h
    have hpg : ∀ x y,
        y ∈ pairsAdj (skipPairs (pyDedup (idsOf nodes)) edges) x → y ∈ g x := by
      intro x y h
      rw [hmem]
      exact pairsAdj_mem.mp h
    have hgp : ∀ x y,
        y ∈ g x → y ∈ pairsAdj (skipPairs (pyDedup (idsOf nodes)) edges) x := by
      intro x y h
      exact pairsAdj_mem.mpr ((hmem x y).mp h)
    have hab2 : ¬ ReachU g a b := fun h => hab (ReachU_congr hgp h)
    have hcov2 : ∀ v ∈ pyDedup (idsOf nodes), ReachU g a v ∨ ReachU g b v := by
      intro v hv
      rcases hcov v hv with h | h
      · exact Or.inl (ReachU_congr hpg h)
      · exact Or.inr (ReachU_congr hpg h)
    have hnd : (pyDedup (idsOf nodes)).Nodup := nodup_pyDedup _
    have hdeg : degSum g (pyDedup (idsOf nodes)) ≤ 2 * edges.length := by
      have h2 := buildAdjSkipU_go_degSum hnd edges (fun _ => []) g hg
      rw [degSum_empty] at h2
      omega
    have hfp : 1 + degSum g (pyDedup (idsOf nodes))
        ≤ 1 + (pyDedup (idsOf nodes)).length + 2 * edges.length := by omega
    obtain ⟨roots2, invF, hall, hmono⟩ :=
      compFold hadjk hfp (pyDedup (idsOf nodes)) ([], []) []
        (fun k hk => hk)
        ⟨by simp, by simp, by simp, by simp, by simp, by simp⟩
    have hlen : (componentsOf g (pyDedup (idsOf nodes))
        (1 + (pyDedup (idsOf nodes)).length + 2 * edges.length)).length = 2 := by
      rw [componentsOf_eq]
      exact comps_length_two hsymg invF hall ha hb hab2 hcov2
    have hwarn : (checkEdges (checkNodes nodes).1 edges).2 = [] := by
      apply checkEdges_nowarn
      intro e he w hw
      obtain ⟨u, v, w2, hu2, hv2, hw2, _, _, hpos⟩ := hedg e he
      rw [hw] at hw2
      injection hw2 with h3
      omega
    refine ⟨{ is_valid := ((checkNodes nodes).2
                ++ (checkEdges (checkNodes nodes).1 edges).1).isEmpty,
              errors := (checkNodes nodes).2
                ++ (checkEdges (checkNodes nodes).1 edges).1,
              warnings := [VMsg.components 2],
              statsNodes := nodes.length, statsEdges := edges.length,
              statsNodeIds := (checkNodes nodes).1 }, ?_, rfl⟩
    rw [validate_graph_eq]
    have hW : vWarnings nodes edges = .ok [VMsg.components 2] := by
      rw [vWarnings, if_pos ⟨hnn, hne⟩, getIds_ok hn, Except.ok_bind]
      simp only [hg, Except.ok_bind]
      rw [hwarn, hlen]
      rfl
    rw [hW, Except.ok_bind]
    rfl

/-- Closed instance of C8 on two disjoint edges A-B and C-D: exactly the
single two-component warning is reported. -/
theorem claim_C8_witness :
    ∃ r, validate_graph nodesC8 edgesC8 = .ok r ∧
      r.warnings = [VMsg.components 2] := by
  apply claim_C8.2 nodesC8 edgesC8 "A" "C"
  · simp [nodesC8]
  · simp [edgesC8]
  · intro n hn
    have hn2 : n = nodesC8[0] ∨ n = nodesC8[1] ∨ n = nodesC8[2]
        ∨ n = nodesC8[3] := by
      simpa [nodesC8] using hn
    rcases hn2 with rfl | rfl | rfl | rfl
    · exact ⟨"A", rfl, by decide, by decide, by decide⟩
    · exact ⟨"B", rfl, by decide, by decide, by decide⟩
    · exact ⟨"C", rfl, by decide, by decide, by decide⟩
    · exact ⟨"D", rfl, by decide, by decide, by decide⟩
  · intro e hee
    have he2 : e = edgesC8[0] ∨ e = edgesC8[1] := by
      simpa [edgesC8] using hee
    rcases he2 with rfl | rfl
    · exact ⟨"A", "B", 1, rfl, rfl, rfl, by decide, by decide, by decide⟩
    · exact ⟨"C", "D", 1, rfl, rfl, rfl, by decide, by decide, by decide⟩
  · decide
  · decide
  · intro h
    have hS : ∀ v ∈ ["A", "B"],
        ∀ u ∈ pairsAdj (skipPairs (pyDedup (idsOf nodesC8)) edgesC8) v,
        u ∈ ["A", "B"] := by decide
    have h2 := reach_closed hS h (by decide)
    simp at h2
  · intro v hv
    have hv2 : v = "A" ∨ v = "B" ∨ v = "C" ∨ v = "D" := by
      have hk : pyDedup (idsOf nodesC8) = ["A", "B", "C", "D"] := by decide
      rw [hk] at hv
      simpa using hv
    rcases hv2 with rfl | rfl | rfl | rfl
    · exact Or.inl (.refl _)
    · exact Or.inl (ReachU.tail (.refl "A") (by decide))
    · exact Or.inr (.refl _)
    · exact Or.inr (ReachU.tail (.refl "C") (by decide))
